import Mathlib

/-!
Verification of the content-extraction core of a web-scraping tool.

The program under study (src/app.py, src/model_wrapper.py) cleans rendered
HTML (function clean_html), extracts links (extract_links), orchestrates a
browser-driven fetch (scrape_url), and submits the cleaned markup to a
generative-language service (ModelWrapper.single_shot_completion).

Shallow embedding conventions:
- Strings are modelled as List Char (abbreviated Str); the Python functions
  on str are translated to functions on Str.
- The external markup library (BeautifulSoup with the html.parser builder)
  is modelled by an executable lenient parser (tokenize / treeify) and a
  serializer (serF) over a tree type Node.  The model is internally
  consistent (serializing a tree and reparsing recovers the tree, proved
  below) and mirrors the library on the constructs the program relies on:
  lenient tag soup parsing, lowercased tag and attribute names, dict
  semantics for duplicate attributes (first position, last value wins),
  bare attributes normalised to the empty value, void elements rendered
  self-closed, text and attribute values entity-escaped on output and
  unescaped on input.  Simplifications (documented at each definition):
  only the core named character references are translated, comments and
  doctype declarations are dropped rather than preserved, and no special
  raw-text mode is used for script/style contents (the program deletes
  script/style elements anyway).
- Python str.splitlines / str.strip are modelled over the ASCII newline and
  whitespace characters (exotic Unicode line breaks and spaces are not
  modelled).
- The browser (selenium) and the generative-language service are modelled
  as oracles: structures of functions saying how each external call would
  respond; the orchestration code is translated against those oracles, with
  a trace recording reported errors and session lifecycle events.
-/

/-! ## Basic string machinery (Python str helpers) -/

abbrev Str := List Char

/-- Newline-class characters: the ASCII line boundaries recognised by
Python str.splitlines (the Unicode-only ones are not modelled). -/
def isNLc (c : Char) : Bool := c = '\n' || c = '\r' || c = '\x0b' || c = '\x0c'

/-- Whitespace characters as recognised by Python str.strip (ASCII part). -/
def isWSc (c : Char) : Bool := c = ' ' || c = '\t' || isNLc c

/-- Python str.splitlines, modelled as splitting on each newline-class
character (a \r\n pair yields an extra empty line, which clean_html's
blank-line filter discards, so the composite behaviour agrees). -/
def splitNL : Str → List Str
  | [] => [[]]
  | c :: cs =>
    match splitNL cs with
    | [] => [[]]
    | l :: ls => if isNLc c then [] :: l :: ls else (c :: l) :: ls

/-- Python str.strip() on a string: drop whitespace from both ends. -/
def stripL (s : Str) : Str := ((s.dropWhile isWSc).reverse.dropWhile isWSc).reverse

/-- The line clean-up at the end of clean_html (src/app.py lines 89-91):
"\n".join(line.strip() for line in cleaned_html.splitlines() if line.strip()). -/
def cleanLines (s : Str) : Str :=
  List.intercalate ['\n'] (((splitNL s).map stripL).filter (fun l => l ≠ []))

/-! ## The document tree (model of the BeautifulSoup parse tree) -/

/-- A node of the parse tree: a text run or an element with a tag name,
an ordered attribute list and children.  Attribute values are plain
strings; a bare attribute is stored with the empty value, as the
html.parser tree builder does. -/
inductive Node where
  | text (s : Str)
  | elem (name : Str) (attrs : List (Str × Str)) (children : List Node)

/-- HTML void elements, which the parser never gives children and the
serializer renders self-closed. -/
def voidNames : List Str :=
  ["area", "base", "br", "col", "embed", "hr", "img", "input",
    "link", "meta", "param", "source", "track", "wbr"].map String.data

/-- Attribute lookup: Python dict .get on the attribute list. -/
def getAttr (attrs : List (Str × Str)) (k : Str) : Option Str :=
  (attrs.find? (fun p => p.1 = k)).map (fun p => p.2)

/-- Python dict insertion semantics for duplicate attribute names:
an existing key keeps its position but takes the new value; a new key is
appended. -/
def insertAttr (attrs : List (Str × Str)) (k v : Str) : List (Str × Str) :=
  if (attrs.find? (fun p => p.1 = k)).isSome then
    attrs.map (fun p => if p.1 = k then (k, v) else p)
  else attrs ++ [(k, v)]

/-! ## Entity escaping and unescaping (model of the library's handling of
character references; only the core named references are translated). -/

/-- Unescape the core named character references, left to right, as the
parser does when building text and attribute values. -/
def unesc : Str → Str
  | [] => []
  | '&' :: 'a' :: 'm' :: 'p' :: ';' :: rest => '&' :: unesc rest
  | '&' :: 'l' :: 't' :: ';' :: rest => '<' :: unesc rest
  | '&' :: 'g' :: 't' :: ';' :: rest => '>' :: unesc rest
  | '&' :: 'q' :: 'u' :: 'o' :: 't' :: ';' :: rest => '"' :: unesc rest
  | c :: rest => c :: unesc rest

/-- Escape text content for output (the serializer's minimal formatter). -/
def escT : Str → Str
  | [] => []
  | '&' :: r => "&amp;".data ++ escT r
  | '<' :: r => "&lt;".data ++ escT r
  | '>' :: r => "&gt;".data ++ escT r
  | c :: r => c :: escT r

/-- Escape a double-quoted attribute value for output. -/
def escA : Str → Str
  | [] => []
  | '&' :: r => "&amp;".data ++ escA r
  | '<' :: r => "&lt;".data ++ escA r
  | '>' :: r => "&gt;".data ++ escA r
  | '"' :: r => "&quot;".data ++ escA r
  | c :: r => c :: escA r

/-! ## Serializer (model of str(soup)) -/

/-- Render an attribute list: one space before each attribute, values
double-quoted and escaped. -/
def serAttrs (attrs : List (Str × Str)) : Str :=
  attrs.flatMap (fun p => ' ' :: p.1 ++ '=' :: '"' :: escA p.2 ++ ['"'])

mutual
/-- Serialize one node (model of how BeautifulSoup renders a tree). -/
def serN : Node → Str
  | .text s => escT s
  | .elem n a cs =>
    if n ∈ voidNames then '<' :: n ++ serAttrs a ++ ['/', '>']
    else '<' :: n ++ serAttrs a ++ '>' :: serF cs ++ '<' :: '/' :: n ++ ['>']
/-- Serialize a forest. -/
def serF : List Node → Str
  | [] => []
  | x :: xs => serN x ++ serF xs
end

/-! ## Lexer (model of the html.parser tokenizer) -/

/-- Tokens: text runs, start tags (with a self-closing flag) and end tags. -/
inductive Tok where
  | textT (s : Str)
  | openT (name : Str) (attrs : List (Str × Str)) (self : Bool)
  | closeT (name : Str)

/-- Characters allowed inside a tag name after the initial letter. -/
def tagNameChar (c : Char) : Bool := !isWSc c && c ≠ '/' && c ≠ '>'

/-- Characters allowed inside an attribute name. -/
def attrNameChar (c : Char) : Bool := !isWSc c && c ≠ '/' && c ≠ '>' && c ≠ '='

/-- Lex the attribute region of a start tag, accumulating attributes with
dict semantics, until the closing '>' (or '/>', reported by the Bool).
The Nat is fuel; it is always called with more fuel than input length. -/
def lexAttrs : Nat → Str → List (Str × Str) → (List (Str × Str) × Bool × Str)
  | 0, s, acc => (acc, false, s)
  | fuel + 1, s, acc =>
    match s.dropWhile isWSc with
    | [] => (acc, false, [])
    | '>' :: r => (acc, false, r)
    | '/' :: '>' :: r => (acc, true, r)
    | '/' :: r => lexAttrs fuel r acc
    | '=' :: r => lexAttrs fuel r acc
    | c :: r =>
      let nm := ((c :: r).takeWhile attrNameChar).map Char.toLower
      let rest1 := (c :: r).drop nm.length
      match rest1.dropWhile isWSc with
      | '=' :: r2 =>
        match r2.dropWhile isWSc with
        | '"' :: r4 =>
          let v := r4.takeWhile (fun ch => ch ≠ '"')
          lexAttrs fuel ((r4.drop v.length).drop 1) (insertAttr acc nm (unesc v))
        | '\'' :: r4 =>
          let v := r4.takeWhile (fun ch => ch ≠ '\'')
          lexAttrs fuel ((r4.drop v.length).drop 1) (insertAttr acc nm (unesc v))
        | r3 =>
          let v := r3.takeWhile (fun ch => !isWSc ch && ch ≠ '>')
          lexAttrs fuel (r3.drop v.length) (insertAttr acc nm (unesc v))
      | _ => lexAttrs fuel rest1 (insertAttr acc nm [])

/-- Lex a markup string into tokens.  Leniency mirrors html.parser: a '<'
not opening a recognisable construct is literal text; "</" without a tag
name, comments and doctypes are skipped to the next '>' (the real library
keeps comment nodes; dropping them is a documented model simplification);
tag and attribute names are lowercased. -/
def lexToks : Nat → Str → List Tok
  | 0, _ => []
  | _ + 1, [] => []
  | fuel + 1, '<' :: rest =>
    match rest with
    | [] => [Tok.textT ['<']]
    | '/' :: r2 =>
      if (r2.headD ' ').isAlpha then
        let nm := r2.takeWhile tagNameChar
        let r3 := (r2.drop nm.length).dropWhile (fun c => c ≠ '>')
        Tok.closeT (nm.map Char.toLower) :: lexToks fuel (r3.drop 1)
      else
        let skip := r2.dropWhile (fun c => c ≠ '>')
        lexToks fuel (skip.drop 1)
    | '!' :: r2 =>
      let skip := r2.dropWhile (fun c => c ≠ '>')
      lexToks fuel (skip.drop 1)
    | c :: r2 =>
      if c.isAlpha then
        let nm := (c :: r2).takeWhile tagNameChar
        let p := lexAttrs fuel ((c :: r2).drop nm.length) []
        Tok.openT (nm.map Char.toLower) p.1 p.2.1 :: lexToks fuel p.2.2
      else
        Tok.textT ['<'] :: lexToks fuel (c :: r2)
  | fuel + 1, c :: cs =>
    let t := (c :: cs).takeWhile (fun ch => ch ≠ '<')
    Tok.textT (unesc t) :: lexToks fuel ((c :: cs).drop t.length)

/-- Merge adjacent text tokens (the serialized document cannot tell apart
adjacent text runs, so the model's tree never keeps them separate). -/
def mergeToks : List Tok → List Tok
  | [] => []
  | Tok.textT a :: r =>
    match mergeToks r with
    | Tok.textT b :: r2 => Tok.textT (a ++ b) :: r2
    | r2 => Tok.textT a :: r2
  | t :: r => t :: mergeToks r

/-- Tokenize a whole input. -/
def tokenize (s : Str) : List Tok := mergeToks (lexToks (s.length + 1) s)

/-! ## Tree builder (model of the BeautifulSoup tree construction) -/

/-- A stack frame: an open element's name and attributes, with the reversed
list of completed nodes that precede it at its own level. -/
abbrev Frame := Str × List (Str × Str) × List Node

/-- Close all still-open elements at end of input. -/
def flushAll : List Frame → List Node → List Node
  | [], acc => acc.reverse
  | (n, a, sib) :: st, acc => flushAll st (Node.elem n a acc.reverse :: sib)

/-- Close open elements up to and including the one named nm. -/
def closeUp (nm : Str) : List Frame → List Node → (List Frame × List Node)
  | [], acc => ([], acc)
  | (n, a, sib) :: st, acc =>
    if n = nm then (st, Node.elem n a acc.reverse :: sib)
    else closeUp nm st (Node.elem n a acc.reverse :: sib)

/-- Does the open-element stack contain a frame named nm? -/
def stackHas (nm : Str) (st : List Frame) : Bool := st.any (fun f => f.1 = nm)

/-- Build the forest from the token stream: void and self-closing start
tags become leaves; an end tag with no matching open element is ignored;
a matching end tag implicitly closes the elements above it. -/
def buildF : List Tok → List Frame → List Node → List Node
  | [], st, acc => flushAll st acc
  | Tok.textT s :: r, st, acc => buildF r st (Node.text s :: acc)
  | Tok.openT n a self :: r, st, acc =>
    if self || n ∈ voidNames then buildF r st (Node.elem n a [] :: acc)
    else buildF r ((n, a, acc) :: st) []
  | Tok.closeT n :: r, st, acc =>
    if stackHas n st then
      let p := closeUp n st acc
      buildF r p.1 p.2
    else buildF r st acc

/-- Parse markup into a forest: the model of BeautifulSoup(s, "html.parser"). -/
def parseHTML (s : Str) : List Node := buildF (tokenize s) [] []

/-! ## clean_html (src/app.py lines 53-93) -/

/-- The fixed blacklist of tags removed by clean_html
(src/app.py lines 64-67). -/
def unwantedTags : List Str :=
  ["script", "style", "meta", "footer", "header",
    "nav", "aside", "form", "iframe", "noscript"].map String.data

mutual
/-- Remove every element named t, with its whole subtree, from one node
(soup.find_all(t) followed by element.decompose() for one tag name). -/
def decompN (t : Str) : Node → Option Node
  | .text s => some (.text s)
  | .elem n a cs => if n = t then none else some (.elem n a (decompF t cs))
/-- Remove every element named t, with its whole subtree, from a forest. -/
def decompF (t : Str) : List Node → List Node
  | [] => []
  | x :: xs =>
    match decompN t x with
    | none => decompF t xs
    | some y => y :: decompF t xs
end

/-- The removal loop of clean_html (src/app.py lines 71-73): for each tag
in unwanted_tags, decompose every matching element. -/
def removeUnwanted (f : List Node) : List Node :=
  unwantedTags.foldl (fun acc t => decompF t acc) f

/-- The attribute rewrite applied to one element by the clean_attributes
pass (src/app.py lines 76-86), transcribed with its exact branch
structure: the inner a/img branches sit under the guard
element.name not in ["a", "img"], so they are unreachable. -/
def cleanAttrsOf (n : Str) (a : List (Str × Str)) : List (Str × Str) :=
  if ¬ (n = "a".data ∨ n = "img".data) then
    if n = "a".data then
      match getAttr a "href".data with
      | some href => if href ≠ [] then [("href".data, href)] else []
      | none => []
    else if n = "img".data then
      (match getAttr a "src".data with
        | some src => if src ≠ [] then [("src".data, src)] else []
        | none => []) ++
      (match getAttr a "alt".data with
        | some alt => if alt ≠ [] then [("alt".data, alt)] else []
        | none => [])
    else []
  else a

mutual
/-- Apply the clean_attributes pass to one node (soup.find_all(True)
visits every element; setting element.attrs rewrites it in place). -/
def cleanAttrsN : Node → Node
  | .text s => .text s
  | .elem n a cs => .elem n (cleanAttrsOf n a) (cleanAttrsF cs)
/-- Apply the clean_attributes pass to a forest. -/
def cleanAttrsF : List Node → List Node
  | [] => []
  | x :: xs => cleanAttrsN x :: cleanAttrsF xs
end

/-- clean_html (src/app.py lines 53-93): parse, decompose blacklisted
tags, optionally clean attributes, serialize, then strip and drop blank
lines. -/
def clean_html (html_content : Str) (clean_attributes : Bool := true) : Str :=
  let soup := parseHTML html_content
  let soup1 := removeUnwanted soup
  let soup2 := if clean_attributes then cleanAttrsF soup1 else soup1
  cleanLines (serF soup2)

/-! ## extract_links (src/app.py lines 95-104) -/

mutual
/-- Collect, in document order, the href values of anchor elements that
carry an href attribute (soup.find_all('a', href=True)). -/
def hrefsN : Node → List Str
  | .text _ => []
  | .elem n a cs =>
    (if n = "a".data then
      match getAttr a "href".data with
      | some h => [h]
      | none => []
    else []) ++ hrefsF cs
/-- Collect anchor href values from a forest, in document order. -/
def hrefsF : List Node → List Str
  | [] => []
  | x :: xs => hrefsN x ++ hrefsF xs
end

/-- Python base_url.rstrip('/'): drop every trailing slash. -/
def rstripSlash (s : Str) : Str := (s.reverse.dropWhile (fun c => c = '/')).reverse

/-- The per-href branch of extract_links: keep an href starting with
"http" verbatim; resolve an href starting with '/' against the stripped
base; drop everything else. -/
def linkOf (base_url href : Str) : Option Str :=
  if "http".data.isPrefixOf href then some href
  else if "/".data.isPrefixOf href then some (rstripSlash base_url ++ href)
  else none

/-- extract_links (src/app.py lines 95-104).  Python returns
list(set(links)); the set is modelled by deduplication (the program
never relies on the iteration order of the set). -/
def extract_links (soup : List Node) (base_url : Str) : List Str :=
  ((hrefsF soup).filterMap (linkOf base_url)).dedup

/-! ## scrape_url (src/app.py lines 106-146)

The selenium driver is modelled as an oracle saying how each external
call would go: whether setup_selenium succeeds, whether driver.get of a
given URL succeeds, whether the ready-state wait and the scroll loop
complete normally, and the rendered markup the driver would report for
each navigated URL.  A trace records the session lifecycle (whether a
driver was created and how many times driver.quit ran) and the messages
reported through st.error. -/

structure Browser where
  setupOk : Bool
  navOk : Str → Bool
  readyOk : Bool
  scrollOk : Bool
  pageSource : Str → Str

structure Trace where
  acquired : Bool
  quitCalls : Nat
  errors : List Str

/-- The message st.error reports when the whole fetch fails
(src/app.py line 142). -/
def scrapeFailMsg : Str := "Error during scraping".data

/-- The message st.error reports when one linked page fails
(src/app.py line 136). -/
def linkFailMsg (link : Str) : Str := "Error scraping link ".data ++ link

/-- The truncation applied to a linked page's cleaned content
(src/app.py line 133): content[:500] + '...' when longer than 500. -/
def truncContent (link_content : Str) : Str :=
  if 500 < link_content.length then link_content.take 500 ++ "...".data
  else link_content

/-- The body of the per-link loop (src/app.py lines 126-136): navigate to
each link inside its own try block; on success append the link with its
truncated cleaned content, on failure report the error and continue. -/
def linkLoop (b : Browser) (links : List Str) : List (Str × Str) × List Str :=
  links.foldl
    (fun acc link =>
      if b.navOk link then
        (acc.1 ++ [(link, truncContent (clean_html (b.pageSource link) true))], acc.2)
      else (acc.1, acc.2 ++ [linkFailMsg link]))
    ([], [])

/-- scrape_url (src/app.py lines 106-146).  The try/except/finally
structure: a failure in setup, navigation, the ready wait or the scroll
loop aborts the fetch, reports the error and returns (None, []); the
finally block quits the driver whenever one was created, and the success
path quits it a second time at line 138. -/
def scrape_url (b : Browser) (url : Str) (extract_links_flag : Bool := false)
    (max_links : Nat := 5) : (Option Str × List (Str × Str)) × Trace :=
  if ¬ b.setupOk then ((none, []), ⟨false, 0, [scrapeFailMsg]⟩)
  else if ¬ b.navOk url then ((none, []), ⟨true, 1, [scrapeFailMsg]⟩)
  else if ¬ b.readyOk then ((none, []), ⟨true, 1, [scrapeFailMsg]⟩)
  else if ¬ b.scrollOk then ((none, []), ⟨true, 1, [scrapeFailMsg]⟩)
  else
    let page_source := b.pageSource url
    let soup := parseHTML page_source
    let main_content := clean_html page_source true
    let ld :=
      if extract_links_flag then
        linkLoop b ((extract_links soup url).take max_links)
      else ([], [])
    ((some main_content, ld.1), ⟨true, 2, ld.2⟩)

/-! ## ModelWrapper (src/model_wrapper.py)

The Gemini service is modelled as an oracle mapping the index of the API
call to its outcome: either a failure or a response object whose text
attribute may be missing.  A present-but-empty text is distinct from a
missing one, mirroring the hasattr check. -/

structure GenResponse where
  text : Option Str

inductive GenOutcome where
  | ok (r : GenResponse)
  | fail (e : Str)

structure GeminiModel where
  generate : Nat → GenOutcome

/-- ModelWrapper.format_prompt (src/model_wrapper.py lines 38-48). -/
def format_prompt (system_prompt content_prompt : Str) : Str :=
  "\n[INST]\n".data ++ system_prompt ++ "\n\nContent to process:\n".data ++
    content_prompt ++ "\n[/INST]\n".data

/-- ModelWrapper.count_tokens (src/model_wrapper.py lines 50-56):
len(text.split()), the number of maximal whitespace-free runs. -/
def count_tokens (text : Str) : Nat :=
  ((text.splitOnP (fun c => isWSc c)).filter (fun w => w ≠ [])).length

/-- ModelWrapper.single_shot_completion (src/model_wrapper.py lines
95-147): one generate_content call; if it raises, the exception is
re-raised to the caller; otherwise the text attribute is returned when
present and non-empty, and the empty string otherwise.  The Nat result
is the next call index: exactly one call is consumed, so there is no
retry on any path. -/
def single_shot_completion (m : GeminiModel) (callIdx : Nat)
    (system_prompt content_prompt : Str) (temperature : ℚ := 7 / 10) :
    Except Str Str × Nat :=
  let _ := format_prompt system_prompt content_prompt
  let _ := temperature
  match m.generate callIdx with
  | .fail e => (.error e, callIdx + 1)
  | .ok r =>
    let full_response_text :=
      match r.text with
      | some t => if t ≠ [] then t else []
      | none => []
    (.ok full_response_text, callIdx + 1)

/-! ## Observation helpers used by the specification statements -/

mutual
/-- The (tag name, attribute list) pairs of every element of a node,
in document (preorder) order. -/
def elemsN : Node → List (Str × List (Str × Str))
  | .text _ => []
  | .elem n a cs => (n, a) :: elemsF cs
/-- The (tag name, attribute list) pairs of every element of a forest. -/
def elemsF : List Node → List (Str × List (Str × Str))
  | [] => []
  | x :: xs => elemsN x ++ elemsF xs
end

mutual
/-- One-pass removal of every element whose name lies in ts, together
with its whole subtree (the specification reading of the removal loop). -/
def pruneN (ts : List Str) : Node → Option Node
  | .text s => some (.text s)
  | .elem n a cs => if n ∈ ts then none else some (.elem n a (pruneF ts cs))
/-- One-pass removal over a forest. -/
def pruneF (ts : List Str) : List Node → List Node
  | [] => []
  | x :: xs =>
    match pruneN ts x with
    | none => pruneF ts xs
    | some y => y :: pruneF ts xs
end

/-- The elements of a forest whose tag is an anchor or an image. -/
def anchorImgElems (f : List Node) : List (Str × List (Str × Str)) :=
  (elemsF f).filter (fun p => p.1 = "a".data ∨ p.1 = "img".data)

/-! ## Concrete oracles used to witness the orchestration theorems -/

/-- A browser oracle whose main page serves five links and for which
navigating to the third link fails. -/
def wBrowser : Browser where
  setupOk := true
  navOk := fun u => u ≠ "http://3".data
  readyOk := true
  scrollOk := true
  pageSource := fun u =>
    if u = "http://main".data then
      ("<a href=\"http://1\"></a><a href=\"http://2\"></a><a href=\"http://3\"></a>" ++
        "<a href=\"http://4\"></a><a href=\"http://5\"></a>").data
    else "<p>ok</p>".data

/-- A browser oracle whose ready-state wait fails. -/
def wBrowserFail : Browser where
  setupOk := true
  navOk := fun _ => true
  readyOk := false
  scrollOk := true
  pageSource := fun _ => []

/-- A browser oracle with one linked page whose cleaned content is 501
characters long. -/
def wBrowserLong : Browser where
  setupOk := true
  navOk := fun _ => true
  readyOk := true
  scrollOk := true
  pageSource := fun u =>
    if u = "http://main".data then "<a href=\"http://long\"></a>".data
    else List.replicate 501 'x'

/-- A generation oracle: the first call fails, later calls return a
response carrying the text "ok". -/
def wGemini : GeminiModel where
  generate := fun i => if i = 0 then .fail "boom".data else .ok ⟨some "ok".data⟩

/-! ## Infrastructure for the idempotence proof

cleanLines is characterised below (theorem cleanLines_eq_wsClean) as a
rewriting of the maximal whitespace runs of the string: a run touching
the start or the end of the string is erased, an interior run containing
a newline collapses to a single newline, and every other run is kept.
wsClean is that rewriting, with flags saying whether the start/end of
the current suffix is the start/end of the whole string. -/

def wsClean (bS bE : Bool) : Str → Str
  | [] => []
  | c :: t =>
    if isWSc c then
      (if bS ∨ (bE ∧ (c :: t).dropWhile isWSc = []) then []
        else if ((c :: t).takeWhile isWSc).any isNLc then ['\n']
        else (c :: t).takeWhile isWSc) ++
        wsClean false bE ((c :: t).dropWhile isWSc)
    else c :: wsClean false bE t
termination_by s => s.length
decreasing_by
  · simp only [List.dropWhile_cons]
    split
    · have h2 := (@List.dropWhile_sublist Char cs isWSc).length_le
      simp only [List.length_cons]
      omega
    · simp_all
  · simp


mutual
/-- Merge adjacent text nodes everywhere in a node (removing a
blacklisted element can leave two text siblings adjacent; the serialized
output cannot tell them apart). -/
def mergeTextsN : Node → Node
  | .text s => .text s
  | .elem n a cs => .elem n a (mergeTextsF cs)
/-- Merge adjacent text nodes everywhere in a forest. -/
def mergeTextsF : List Node → List Node
  | [] => []
  | x :: rest =>
    match mergeTextsN x, mergeTextsF rest with
    | .text s, .text t :: r2 => .text (s ++ t) :: r2
    | y, r2 => y :: r2
end

mutual
/-- Apply the interior whitespace rewriting to one node: every text run
and every attribute value sits strictly inside the serialized string
(elements are delimited by tag punctuation), so interior flags apply. -/
def editN : Node → Node
  | .text s => .text (wsClean false false s)
  | .elem n a cs =>
    .elem n (a.map (fun p => (p.1, wsClean false false p.2))) (editF cs)
/-- Apply the interior whitespace rewriting to a forest. -/
def editF : List Node → List Node
  | [] => []
  | x :: xs => editN x :: editF xs
end

/-- Interior whitespace rewriting of a forest whose end is the end of
the serialized string: only a trailing text node sees the boundary. -/
def editLast : List Node → List Node
  | [] => []
  | [Node.text s] =>
    if wsClean false true s = [] then [] else [Node.text (wsClean false true s)]
  | x :: rest => editN x :: editLast rest

/-- Whitespace rewriting of a whole document forest: a leading text node
sees the start boundary, a trailing one the end boundary, texts emptied
by the rewriting are dropped. -/
def editTopF : List Node → List Node
  | [] => []
  | [Node.text s] =>
    if wsClean true true s = [] then [] else [Node.text (wsClean true true s)]
  | Node.text s :: rest =>
    (if wsClean true false s = [] then []
      else [Node.text (wsClean true false s)]) ++ editLast rest
  | x :: rest => editN x :: editLast rest

/-! ## Token views of the serializer, and well-formedness invariants -/

/-- Render one token the way the serializer renders the corresponding
construct. -/
def renderTok : Tok → Str
  | .textT s => escT s
  | .openT n a self =>
    if self then '<' :: n ++ serAttrs a ++ ['/', '>']
    else '<' :: n ++ serAttrs a ++ ['>']
  | .closeT n => '<' :: '/' :: n ++ ['>']

mutual
/-- Flatten a node to the token stream its serialization lexes to. -/
def toksN : Node → List Tok
  | .text s => [Tok.textT s]
  | .elem n a cs =>
    if n ∈ voidNames then [Tok.openT n a true]
    else Tok.openT n a false :: (toksF cs ++ [Tok.closeT n])
/-- Flatten a forest to a token stream. -/
def toksF : List Node → List Tok
  | [] => []
  | x :: xs => toksN x ++ toksF xs
end

/-- Is this node a text node? -/
def isTextB : Node → Bool
  | .text _ => true
  | .elem _ _ _ => false

/-- Does this forest start with a text node? -/
def headTextB : List Node → Bool
  | Node.text _ :: _ => true
  | _ => false

/-- A well-formed stored tag name: what the lexer produces and the
serializer can render so that relexing recovers it. -/
def wfName (n : Str) : Prop :=
  n ≠ [] ∧ (n.headD ' ').isAlpha = true ∧
    ∀ c ∈ n, tagNameChar c = true ∧ c.toLower = c

/-- A well-formed stored attribute name. -/
def wfAttrKey (k : Str) : Prop :=
  k ≠ [] ∧ ∀ c ∈ k, attrNameChar c = true ∧ c.toLower = c

/-- Well-formed attribute list: distinct well-formed names. -/
def wfAttrs (a : List (Str × Str)) : Prop :=
  (a.map Prod.fst).Nodup ∧ ∀ p ∈ a, wfAttrKey p.1

mutual
/-- Well-formed node: parser output (after text merging) shape. -/
inductive WfN : Node → Prop where
  | text (s : Str) (h : s ≠ []) : WfN (.text s)
  | elem (n : Str) (a : List (Str × Str)) (cs : List Node)
      (hn : wfName n) (ha : wfAttrs a) (hv : n ∈ voidNames → cs = [])
      (hcs : WfF cs) : WfN (.elem n a cs)
/-- Well-formed forest: well-formed nodes, no two adjacent texts. -/
inductive WfF : List Node → Prop where
  | nil : WfF []
  | cons (x : Node) (xs : List Node) (hx : WfN x) (hxs : WfF xs)
      (hadj : ¬ (isTextB x = true ∧ headTextB xs = true)) : WfF (x :: xs)
end

/-- No blacklisted element anywhere. -/
def NoBlack (f : List Node) : Prop := ∀ p ∈ elemsF f, p.1 ∉ unwantedTags

/-- Every element's attribute list is a fixed point of the attribute
rewrite. -/
def AttrsCleanP (f : List Node) : Prop :=
  ∀ p ∈ elemsF f, cleanAttrsOf p.1 p.2 = p.2

/-- Per-character text escaping (escT as a character map). -/
def encTc (c : Char) : Str :=
  if c = '&' then "&amp;".data
  else if c = '<' then "&lt;".data
  else if c = '>' then "&gt;".data
  else [c]

/-- Per-character attribute-value escaping (escA as a character map). -/
def encAc (c : Char) : Str :=
  if c = '&' then "&amp;".data
  else if c = '<' then "&lt;".data
  else if c = '>' then "&gt;".data
  else if c = '"' then "&quot;".data
  else [c]

/-- Render a token list to a string. -/
def detokL (ts : List Tok) : Str := ts.flatMap renderTok

/-- Fold a list of attributes into an accumulator with dict semantics
(the way the lexer collects them). -/
def pushAttrs (acc : List (Str × Str)) (a : List (Str × Str)) : List (Str × Str) :=
  a.foldl (fun ac p => insertAttr ac p.1 p.2) acc

/-- Is this token a text token? -/
def isTextTok : Tok → Bool
  | .textT _ => true
  | _ => false

/-- Well-formed token: what the serializer renders so the lexer can read
it back. -/
def WfTok : Tok → Prop
  | .textT s => s ≠ []
  | .openT n a _ => wfName n ∧ wfAttrs a
  | .closeT n => wfName n

/-- Well-formed token stream: well-formed tokens, no adjacent texts. -/
def WfToks (ts : List Tok) : Prop :=
  (∀ t ∈ ts, WfTok t) ∧
    List.Chain' (fun t1 t2 => ¬ (isTextTok t1 = true ∧ isTextTok t2 = true)) ts

mutual
/-- Structural well-formedness of a parse-tree node: what the tree
builder actually guarantees (the no-adjacent-texts condition is tracked
separately, because element removal can break it). -/
inductive Wf0N : Node → Prop where
  | text (s : Str) (h : s ≠ []) : Wf0N (.text s)
  | elem (n : Str) (a : List (Str × Str)) (cs : List Node)
      (hn : wfName n) (ha : wfAttrs a) (hv : n ∈ voidNames → cs = [])
      (hcs : Wf0F cs) : Wf0N (.elem n a cs)
/-- Structural well-formedness of a forest. -/
inductive Wf0F : List Node → Prop where
  | nil : Wf0F []
  | cons (x : Node) (xs : List Node) (hx : Wf0N x) (hxs : Wf0F xs) :
      Wf0F (x :: xs)
end

/-- Well-formedness of a tree-builder stack frame: an open non-void
element with well-formed name and attributes over well-formed siblings. -/
def FrameWf (fr : Frame) : Prop :=
  wfName fr.1 ∧ fr.1 ∉ voidNames ∧ wfAttrs fr.2.1 ∧ Wf0F fr.2.2

/-! # Theorems

Helper lemmas first, then one theorem per claim (at the end of the file).
-/

theorem splitNL_ne_nil (s : Str) : splitNL s ≠ [] := by
  cases s with
  | nil => simp [splitNL]
  | cons c cs =>
    simp only [splitNL]
    rcases h : splitNL cs with _ | ⟨l, ls⟩ <;> simp
    split <;> simp

theorem splitNL_mem_not_NL (s : Str) : ∀ l ∈ splitNL s, ∀ c ∈ l, isNLc c = false := by
  induction s with
  | nil => intro l hl c hc; simp [splitNL] at hl; simp [hl] at hc
  | cons d ds ih =>
    intro l hl c hc
    rcases h : splitNL ds with _ | ⟨l0, ls⟩
    · exact absurd h (splitNL_ne_nil ds)
    simp only [splitNL, h] at hl
    by_cases hd : isNLc d = true
    · rw [if_pos hd] at hl
      rcases List.mem_cons.mp hl with hl2 | hl2
      · subst hl2; simp at hc
      · exact ih l (h ▸ hl2) c hc
    · rw [if_neg hd] at hl
      rcases List.mem_cons.mp hl with hl2 | hl2
      · subst hl2
        rcases List.mem_cons.mp hc with hc2 | hc2
        · subst hc2; simpa using hd
        · exact ih l0 (h ▸ List.mem_cons_self l0 ls) c hc2
      · exact ih l (h ▸ List.mem_cons_of_mem l0 hl2) c hc

theorem splitNL_nlfree (a : Str) (h : ∀ c ∈ a, isNLc c = false) : splitNL a = [a] := by
  induction a with
  | nil => simp [splitNL]
  | cons c cs ih =>
    have hc : isNLc c = false := h c (List.mem_cons_self c cs)
    have hcs : ∀ x ∈ cs, isNLc x = false := fun x hx => h x (List.mem_cons_of_mem c hx)
    simp [splitNL, ih hcs, hc]

theorem splitNL_append_nlfree (a s : Str) (h : ∀ c ∈ a, isNLc c = false) :
    splitNL (a ++ s) = (a ++ (splitNL s).headD []) :: (splitNL s).tail := by
  induction a with
  | nil =>
    rcases hs : splitNL s with _ | ⟨l, ls⟩
    · exact absurd hs (splitNL_ne_nil s)
    · simp [hs]
  | cons c cs ih =>
    have hc : isNLc c = false := h c (List.mem_cons_self c cs)
    have hcs : ∀ x ∈ cs, isNLc x = false := fun x hx => h x (List.mem_cons_of_mem c hx)
    have ihe := ih hcs
    simp only [List.cons_append, splitNL, List.append_eq, ihe, hc, Bool.false_eq_true, if_false]

theorem stripL_eq_rdrop (s : Str) : stripL s = (s.dropWhile isWSc).rdropWhile isWSc := rfl

theorem dropWhile_rdropWhile_fixed {p : Char → Bool} {l : Str}
    (h : l.dropWhile p = l) : (l.rdropWhile p).dropWhile p = l.rdropWhile p := by
  cases l with
  | nil => simp
  | cons c cs =>
    have hpc : ¬ p c = true := by
      intro hp
      rw [List.dropWhile_cons, if_pos hp] at h
      have h1 := (List.dropWhile_sublist (l := cs) p).length_le
      have h2 := congrArg List.length h
      simp at h2
      omega
    obtain ⟨t, ht⟩ := List.rdropWhile_prefix p (c :: cs)
    rcases hr : (c :: cs).rdropWhile p with _ | ⟨b, bs⟩
    · simp
    · rw [hr] at ht
      have hb : b = c := by
        simp only [List.cons_append] at ht
        exact ((List.cons.injEq _ _ _ _).mp ht).1
      subst hb
      rw [List.dropWhile_cons, if_neg hpc]

theorem stripL_idem (s : Str) : stripL (stripL s) = stripL s := by
  rw [stripL_eq_rdrop, stripL_eq_rdrop]
  rw [dropWhile_rdropWhile_fixed (List.dropWhile_idempotent _ _)]
  exact List.rdropWhile_idempotent _ _

theorem intercalate_splitNL (ls : List Str) (hne : ls ≠ [])
    (h : ∀ l ∈ ls, ∀ c ∈ l, isNLc c = false) :
    splitNL (List.intercalate ['\n'] ls) = ls := by
  induction ls with
  | nil => exact absurd rfl hne
  | cons l rest ih =>
    cases rest with
    | nil =>
      simp only [List.intercalate, List.intersperse]
      simp only [List.flatten, List.append_nil]
      exact splitNL_nlfree l (h l (List.mem_cons_self l []))
    | cons l2 rest2 =>
      have hstep : List.intercalate ['\n'] (l :: l2 :: rest2) =
          l ++ '\n' :: List.intercalate ['\n'] (l2 :: rest2) := by
        simp [List.intercalate, List.intersperse]
      rw [hstep]
      have hl : ∀ c ∈ l, isNLc c = false := h l (List.mem_cons_self l _)
      rw [splitNL_append_nlfree l _ hl]
      have hrec := ih (by simp) (fun x hx c hc => h x (List.mem_cons_of_mem l hx) c hc)
      have hnlstep : splitNL ('\n' :: List.intercalate ['\n'] (l2 :: rest2)) =
          [] :: splitNL (List.intercalate ['\n'] (l2 :: rest2)) := by
        rcases hq : splitNL (List.intercalate ['\n'] (l2 :: rest2)) with _ | ⟨q, qs⟩
        · exact absurd hq (splitNL_ne_nil _)
        · simp [splitNL, hq, show isNLc '\n' = true by decide]
      rw [hnlstep, hrec]
      simp

theorem mem_stripL {c : Char} {l : Str} (h : c ∈ stripL l) : c ∈ l := by
  rw [stripL_eq_rdrop] at h
  obtain ⟨t, ht⟩ := List.rdropWhile_prefix isWSc (l.dropWhile isWSc)
  have h1 : c ∈ l.dropWhile isWSc := ht ▸ List.mem_append_left t h
  exact (List.dropWhile_sublist isWSc).mem h1

theorem cleanLines_filter_spec (s : Str) :
    ∀ l ∈ ((splitNL s).map stripL).filter (fun l => l ≠ []),
      stripL l = l ∧ l ≠ [] ∧ (∀ c ∈ l, isNLc c = false) := by
  intro l hl
  have hmem := List.mem_filter.mp hl
  obtain ⟨y, hy, hys⟩ := List.mem_map.mp hmem.1
  refine ⟨?_, by simpa using hmem.2, ?_⟩
  · rw [← hys, stripL_idem]
  · intro c hc
    rw [← hys] at hc
    exact splitNL_mem_not_NL s y hy c (mem_stripL hc)

theorem cleanLines_idem (s : Str) : cleanLines (cleanLines s) = cleanLines s := by
  rcases hls : ((splitNL s).map stripL).filter (fun l => l ≠ []) with _ | ⟨l0, ls0⟩
  · have h0 : cleanLines s = [] := by unfold cleanLines; rw [hls]; rfl
    rw [h0]
    rfl
  · have hspec := cleanLines_filter_spec s
    rw [hls] at hspec
    have hcl : cleanLines s = List.intercalate ['\n'] (l0 :: ls0) := by
      unfold cleanLines; rw [hls]
    rw [hcl]
    unfold cleanLines
    rw [intercalate_splitNL (l0 :: ls0) (by simp) (fun l hl c hc => (hspec l hl).2.2 c hc)]
    have hmap := List.map_congr_left (fun l hl => (hspec l hl).1)
    simp only [List.map_id'] at hmap
    rw [hmap]
    rw [List.filter_eq_self.mpr (fun l hl => by simpa using (hspec l hl).2.1)]

theorem cleanLines_lines (s : Str) :
    ∀ l ∈ splitNL (cleanLines s), stripL l = l ∧ (l = [] → cleanLines s = []) := by
  rcases hls : ((splitNL s).map stripL).filter (fun l => l ≠ []) with _ | ⟨l0, ls0⟩
  · have hcl : cleanLines s = [] := by unfold cleanLines; rw [hls]; rfl
    rw [hcl]
    intro l hl
    simp [splitNL] at hl
    subst hl
    exact ⟨rfl, fun _ => rfl⟩
  · have hspec := cleanLines_filter_spec s
    rw [hls] at hspec
    have hcl : cleanLines s = List.intercalate ['\n'] (l0 :: ls0) := by
      unfold cleanLines; rw [hls]
    rw [hcl]
    rw [intercalate_splitNL (l0 :: ls0) (by simp) (fun l hl c hc => (hspec l hl).2.2 c hc)]
    intro l hl
    exact ⟨(hspec l hl).1, fun he => absurd he (hspec l hl).2.1⟩

/-! ## Induction principles for the nested tree type -/

/-- Paired induction over nodes and forests. -/
theorem nodeForestInd (mN : Node → Prop) (mF : List Node → Prop)
    (ht : ∀ s, mN (Node.text s))
    (he : ∀ n a cs, mF cs → mN (Node.elem n a cs))
    (hn : mF [])
    (hc : ∀ x xs, mN x → mF xs → mF (x :: xs)) :
    (∀ n, mN n) ∧ (∀ f, mF f) := by
  have hN : ∀ n, mN n := fun n => @Node.rec mN mF ht he hn hc n
  exact ⟨hN, fun f => List.rec hn (fun x xs ih => hc x xs (hN x) ih) f⟩

/-- Forest induction with the node cases expanded. -/
theorem forestInd (mF : List Node → Prop)
    (hn : mF [])
    (htc : ∀ s xs, mF xs → mF (Node.text s :: xs))
    (hec : ∀ n a cs xs, mF cs → mF xs → mF (Node.elem n a cs :: xs)) :
    ∀ f, mF f := by
  have h := nodeForestInd (fun n => ∀ xs, mF xs → mF (n :: xs)) mF
    (fun s xs h => htc s xs h) (fun n a cs ih xs h => hec n a cs xs ih h)
    hn (fun x xs ihx ihxs => ihx xs ihxs)
  exact h.2

/-! ## The attribute-cleaning pass and anchors/images -/

theorem cleanAttrsOf_anchor (a : List (Str × Str)) : cleanAttrsOf "a".data a = a := by
  simp [cleanAttrsOf]

theorem cleanAttrsOf_img (a : List (Str × Str)) : cleanAttrsOf "img".data a = a := by
  simp [cleanAttrsOf]

theorem cleanAttrsOf_other (n : Str) (a : List (Str × Str))
    (ha : n ≠ "a".data) (hi : n ≠ "img".data) : cleanAttrsOf n a = [] := by
  simp [cleanAttrsOf, ha, hi]

theorem elems_cleanAttrs (f : List Node) :
    elemsF (cleanAttrsF f) = (elemsF f).map (fun p => (p.1, cleanAttrsOf p.1 p.2)) := by
  induction f using forestInd with
  | hn => simp [cleanAttrsF, elemsF]
  | htc s xs ih => simp [cleanAttrsF, cleanAttrsN, elemsF, elemsN, ih]
  | hec n a cs xs ihcs ihxs => simp [cleanAttrsF, cleanAttrsN, elemsF, elemsN, ihcs, ihxs]

theorem anchorImg_cleanAttrs (f : List Node) :
    anchorImgElems (cleanAttrsF f) = anchorImgElems f := by
  unfold anchorImgElems
  rw [elems_cleanAttrs, List.filter_map]
  have hq : ((fun p => decide (p.1 = "a".data ∨ p.1 = "img".data)) ∘
      (fun p : Str × List (Str × Str) => (p.1, cleanAttrsOf p.1 p.2))) =
      (fun p => decide (p.1 = "a".data ∨ p.1 = "img".data)) := by
    funext p; rfl
  rw [hq]
  have hcong : ∀ p ∈ (elemsF f).filter (fun p => decide (p.1 = "a".data ∨ p.1 = "img".data)),
      (fun p : Str × List (Str × Str) => (p.1, cleanAttrsOf p.1 p.2)) p = (fun p => p) p := by
    intro p hp
    have := List.of_mem_filter hp
    rcases of_decide_eq_true this with h | h
    · obtain ⟨p1, p2⟩ := p
      simp only at h
      subst h
      simp [cleanAttrsOf]
    · obtain ⟨p1, p2⟩ := p
      simp only at h
      subst h
      simp [cleanAttrsOf]
  rw [List.map_congr_left hcong, List.map_id']

/-! ## The removal loop and the one-pass prune -/

theorem decomp_eq_prune_single (t : Str) :
    (∀ n, decompN t n = pruneN [t] n) ∧ (∀ f, decompF t f = pruneF [t] f) := by
  refine nodeForestInd _ _ (fun s => ?_) (fun n a cs ih => ?_) ?_ (fun x xs ihx ihxs => ?_)
  · simp [decompN, pruneN]
  · by_cases h : n = t
    · simp [decompN, pruneN, h]
    · simp [decompN, pruneN, h, ih]
  · simp [decompF, pruneF]
  · simp only [decompF, pruneF, ihx, ihxs]

theorem prune_prune (t : Str) (ts : List Str) :
    (∀ n, (pruneN ts n).bind (decompN t) = pruneN (ts ++ [t]) n) ∧
    (∀ f, decompF t (pruneF ts f) = pruneF (ts ++ [t]) f) := by
  refine nodeForestInd _ _ (fun s => ?_) (fun n a cs ih => ?_) ?_ (fun x xs ihx ihxs => ?_)
  · simp [decompN, pruneN]
  · by_cases hts : n ∈ ts
    · simp [pruneN, hts]
    · by_cases ht : n = t
      · simp [pruneN, hts, ht, decompN]
      · have : n ∉ ts ++ [t] := by simp [hts, ht]
        simp [pruneN, hts, this, decompN, ht, ih]
  · simp [decompF, pruneF]
  · simp only [pruneF]
    rcases hx : pruneN ts x with _ | y
    · have := ihx
      rw [hx] at this
      simp only [Option.bind] at this
      simp only [decompF]
      rw [← this, ihxs]
    · have := ihx
      rw [hx] at this
      simp only [Option.bind] at this
      simp only [decompF]
      rw [← this]
      rcases hy : decompN t y with _ | z
      · rw [ihxs]
      · rw [ihxs]

theorem prune_nil : ∀ f, pruneF [] f = f := by
  have h := nodeForestInd (fun n => pruneN [] n = some n) (fun f => pruneF [] f = f)
    (fun s => by simp [pruneN]) (fun n a cs ih => by simp [pruneN, ih]) (by simp [pruneF])
    (fun x xs ihx ihxs => by simp [pruneF, ihx, ihxs])
  exact h.2

theorem foldl_decomp_prune (ts us : List Str) (f : List Node) :
    ts.foldl (fun acc t => decompF t acc) (pruneF us f) = pruneF (us ++ ts) f := by
  induction ts generalizing us with
  | nil => simp
  | cons t ts' ih =>
    simp only [List.foldl_cons]
    rw [(prune_prune t us).2 f, ih (us ++ [t])]
    simp

theorem removeUnwanted_eq_prune (f : List Node) :
    removeUnwanted f = pruneF unwantedTags f := by
  have := foldl_decomp_prune unwantedTags [] f
  rw [prune_nil f] at this
  simpa [removeUnwanted] using this

theorem elems_prune_not_mem (ts : List Str) :
    ∀ f, ∀ p ∈ elemsF (pruneF ts f), p.1 ∉ ts := by
  have h := nodeForestInd
    (fun n => ∀ p, (∀ y, pruneN ts n = some y → p ∈ elemsN y → p.1 ∉ ts))
    (fun f => ∀ p ∈ elemsF (pruneF ts f), p.1 ∉ ts)
    ?_ ?_ ?_ ?_
  · exact h.2
  · intro s p y hy hp
    simp [pruneN] at hy
    subst hy
    simp [elemsN] at hp
  · intro n a cs ih p y hy hp
    by_cases hn : n ∈ ts
    · simp [pruneN, hn] at hy
    · simp only [pruneN, hn, if_neg] at hy
      simp at hy
      subst hy
      simp only [elemsN, List.mem_cons] at hp
      rcases hp with hp | hp
      · subst hp; exact hn
      · exact ih p hp
  · intro p hp
    simp [pruneF, elemsF] at hp
  · intro x xs ihx ihxs p hp
    simp only [pruneF] at hp
    rcases hx : pruneN ts x with _ | y
    · rw [hx] at hp
      exact ihxs p hp
    · rw [hx] at hp
      simp only [elemsF, List.mem_append] at hp
      rcases hp with hp | hp
      · exact ihx p y hx hp
      · exact ihxs p hp

theorem elems_prune_sublist (ts : List Str) :
    ∀ f, (elemsF (pruneF ts f)).Sublist (elemsF f) := by
  have h := nodeForestInd
    (fun n => ∀ y, pruneN ts n = some y → (elemsN y).Sublist (elemsN n))
    (fun f => (elemsF (pruneF ts f)).Sublist (elemsF f))
    ?_ ?_ ?_ ?_
  · exact h.2
  · intro s y hy
    simp [pruneN] at hy
    subst hy
    simp
  · intro n a cs ih y hy
    by_cases hn : n ∈ ts
    · simp [pruneN, hn] at hy
    · simp [pruneN, hn] at hy
      subst hy
      simpa [elemsN] using ih
  · simp [pruneF, elemsF]
  · intro x xs ihx ihxs
    simp only [pruneF]
    rcases hx : pruneN ts x with _ | y
    · simp only [elemsF]
      exact ihxs.trans (List.sublist_append_right _ _)
    · simp only [elemsF]
      exact (ihx y hx).append ihxs

/-! ## Link extraction -/

theorem extract_links_nodup (f : List Node) (base : Str) :
    (extract_links f base).Nodup := List.nodup_dedup _

theorem extract_links_mem (f : List Node) (base : Str) (u : Str) :
    u ∈ extract_links f base ↔ ∃ h ∈ hrefsF f,
      ("http".data.isPrefixOf h ∧ u = h) ∨
      (¬ "http".data.isPrefixOf h ∧ "/".data.isPrefixOf h ∧ u = rstripSlash base ++ h) := by
  rw [extract_links, List.mem_dedup, List.mem_filterMap]
  constructor
  · rintro ⟨h, hh, hl⟩
    refine ⟨h, hh, ?_⟩
    unfold linkOf at hl
    by_cases h1 : "http".data.isPrefixOf h
    · left
      rw [if_pos h1] at hl
      exact ⟨h1, ((Option.some.injEq _ _).mp hl).symm⟩
    · right
      rw [if_neg h1] at hl
      by_cases h2 : "/".data.isPrefixOf h
      · rw [if_pos h2] at hl
        exact ⟨h1, h2, ((Option.some.injEq _ _).mp hl).symm⟩
      · rw [if_neg h2] at hl
        cases hl
  · rintro ⟨h, hh, ⟨h1, hu⟩ | ⟨h1, h2, hu⟩⟩
    · exact ⟨h, hh, by simp [linkOf, h1, hu]⟩
    · exact ⟨h, hh, by simp [linkOf, h1, h2, hu]⟩

/-! ## The fetch orchestration -/

theorem linkLoop_spec (b : Browser) (links : List Str) :
    linkLoop b links =
      (links.filterMap (fun l => if b.navOk l then
          some (l, truncContent (clean_html (b.pageSource l) true)) else none),
        (links.filter (fun l => ¬ b.navOk l)).map linkFailMsg) := by
  have key : ∀ (ls : List Str) (acc1 : List (Str × Str)) (acc2 : List Str),
      ls.foldl
        (fun acc link =>
          if b.navOk link then
            (acc.1 ++ [(link, truncContent (clean_html (b.pageSource link) true))], acc.2)
          else (acc.1, acc.2 ++ [linkFailMsg link])) (acc1, acc2) =
      (acc1 ++ ls.filterMap (fun l => if b.navOk l then
          some (l, truncContent (clean_html (b.pageSource l) true)) else none),
        acc2 ++ (ls.filter (fun l => ¬ b.navOk l)).map linkFailMsg) := by
    intro ls
    induction ls with
    | nil => intro acc1 acc2; simp
    | cons l ls ih =>
      intro acc1 acc2
      by_cases hl : b.navOk l
      · simp only [List.foldl_cons, hl, if_pos, List.filterMap_cons, List.filter_cons]
        rw [ih]
        simp [hl]
      · simp only [List.foldl_cons, hl, if_neg, List.filterMap_cons, List.filter_cons]
        rw [ih]
        simp [hl]
  unfold linkLoop
  rw [key]
  simp

theorem scrape_url_links_eq (b : Browser) (url : Str) (m : Nat)
    (h : b.setupOk ∧ b.navOk url ∧ b.readyOk ∧ b.scrollOk) :
    (scrape_url b url true m).1.2 =
      ((extract_links (parseHTML (b.pageSource url)) url).take m).filterMap
        (fun l => if b.navOk l then
          some (l, truncContent (clean_html (b.pageSource l) true)) else none) ∧
    (scrape_url b url true m).2.errors =
      (((extract_links (parseHTML (b.pageSource url)) url).take m).filter
        (fun l => ¬ b.navOk l)).map linkFailMsg := by
  obtain ⟨h1, h2, h3, h4⟩ := h
  simp only [scrape_url, h1, h2, h3, h4, not_true, if_neg, if_false]
  rw [linkLoop_spec]
  simp

theorem scrape_url_failure_contract (b : Browser) (url : Str) (fl : Bool) (m : Nat) :
    ((¬ b.setupOk ∨ ¬ b.navOk url ∨ ¬ b.readyOk ∨ ¬ b.scrollOk) →
      (scrape_url b url fl m).1 = (none, []) ∧ (scrape_url b url fl m).2.errors ≠ []) ∧
    ((scrape_url b url fl m).2.acquired → 1 ≤ (scrape_url b url fl m).2.quitCalls) ∧
    (b.setupOk → (scrape_url b url fl m).2.acquired) := by
  by_cases h1 : b.setupOk <;> by_cases h2 : b.navOk url <;>
    by_cases h3 : b.readyOk <;> by_cases h4 : b.scrollOk <;>
    simp [scrape_url, h1, h2, h3, h4]

theorem scrape_url_excerpt_spec (b : Browser) (url : Str) (m : Nat)
    (h : b.setupOk ∧ b.navOk url ∧ b.readyOk ∧ b.scrollOk) :
    ∀ p ∈ (scrape_url b url true m).1.2,
      (500 < (clean_html (b.pageSource p.1) true).length →
        p.2 = (clean_html (b.pageSource p.1) true).take 500 ++ "...".data) ∧
      ((clean_html (b.pageSource p.1) true).length ≤ 500 →
        p.2 = clean_html (b.pageSource p.1) true) := by
  intro p hp
  rw [(scrape_url_links_eq b url m h).1] at hp
  obtain ⟨l, _, heq⟩ := List.mem_filterMap.mp hp
  by_cases hnav : b.navOk l
  · rw [if_pos hnav] at heq
    have hpe : p = (l, truncContent (clean_html (b.pageSource l) true)) :=
      ((Option.some.injEq _ _).mp heq).symm
    subst hpe
    simp only [truncContent]
    constructor
    · intro hlen
      rw [if_pos hlen]
    · intro hlen
      rw [if_neg (by omega)]
  · rw [if_neg hnav] at heq
    cases heq

theorem single_shot_spec (m : GeminiModel) (i : Nat) (sys cont : Str) (temp : ℚ) :
    (∀ e, m.generate i = .fail e →
      (single_shot_completion m i sys cont temp).1 = .error e) ∧
    (∀ r, m.generate i = .ok r →
      (single_shot_completion m i sys cont temp).1 =
        .ok (match r.text with | some t => t | none => [])) ∧
    (single_shot_completion m i sys cont temp).2 = i + 1 := by
  refine ⟨fun e he => ?_, fun r hr => ?_, ?_⟩
  · simp [single_shot_completion, he]
  · simp only [single_shot_completion, hr]
    rcases r with ⟨_ | t⟩
    · simp
    · by_cases ht : t = [] <;> simp [ht]
  · unfold single_shot_completion
    rcases m.generate i <;> simp

/-! ## Equations and distribution lemmas for wsClean -/

theorem wsClean_nil (bS bE : Bool) : wsClean bS bE [] = [] := by
  simp [wsClean]

theorem wsClean_cons_nonws (bS bE : Bool) (c : Char) (t : Str)
    (h : ¬ isWSc c = true) : wsClean bS bE (c :: t) = c :: wsClean false bE t := by
  rw [wsClean]
  simp [h]

theorem wsClean_cons_ws (bS bE : Bool) (c : Char) (t : Str) (h : isWSc c = true) :
    wsClean bS bE (c :: t) =
      (if bS ∨ (bE ∧ (c :: t).dropWhile isWSc = []) then []
        else if ((c :: t).takeWhile isWSc).any isNLc then ['\n']
        else (c :: t).takeWhile isWSc) ++
        wsClean false bE ((c :: t).dropWhile isWSc) := by
  rw [wsClean]
  simp [h]

theorem wsClean_head_nonws (bS bE : Bool) (s : Str)
    (h : s = [] ∨ ¬ isWSc (s.headD 'x') = true) :
    wsClean bS bE s = wsClean false bE s := by
  rcases h with h | h
  · subst h; simp [wsClean_nil]
  · cases s with
    | nil => simp [wsClean_nil]
    | cons c t =>
      simp only [List.headD_cons] at h
      rw [wsClean_cons_nonws _ _ _ _ h, wsClean_cons_nonws _ _ _ _ h]

theorem takeWhile_append_of_drop_ne {p : Char → Bool} :
    ∀ (x y : Str), x.dropWhile p ≠ [] →
      (x ++ y).takeWhile p = x.takeWhile p ∧
      (x ++ y).dropWhile p = x.dropWhile p ++ y := by
  intro x
  induction x with
  | nil => intro y h; simp at h
  | cons c x' ih =>
    intro y h
    by_cases hc : p c
    · rw [List.dropWhile_cons, if_pos hc] at h
      have := ih y h
      simp only [List.cons_append, List.takeWhile_cons, List.dropWhile_cons, hc,
        if_pos, this.1, this.2]
      exact ⟨trivial, trivial⟩
    · simp only [List.cons_append, List.takeWhile_cons, List.dropWhile_cons, hc,
        Bool.false_eq_true, if_false]
      exact ⟨trivial, trivial⟩

theorem takeWhile_allp_append {p : Char → Bool} :
    ∀ (x y : Str), (∀ c ∈ x, p c = true) →
      (x ++ y).takeWhile p = x ++ y.takeWhile p ∧
      (x ++ y).dropWhile p = y.dropWhile p := by
  intro x
  induction x with
  | nil => intro y _; simp
  | cons c x' ih =>
    intro y h
    have hc : p c = true := h c (List.mem_cons_self c x')
    have hx' : ∀ c ∈ x', p c = true := fun d hd => h d (List.mem_cons_of_mem c hd)
    have := ih y hx'
    simp only [List.cons_append, List.takeWhile_cons, List.dropWhile_cons, hc, if_pos,
      this.1, this.2]
    exact ⟨trivial, trivial⟩

theorem dropWhile_ne_nil_of_mem {p : Char → Bool} {x : Str} {c : Char}
    (hc : c ∈ x) (hp : ¬ p c = true) : x.dropWhile p ≠ [] := by
  intro hnil
  have : ∀ d ∈ x, p d = true := by
    rwa [← List.dropWhile_eq_nil_iff]
  exact hp (this c hc)

theorem wsClean_word_append (bE : Bool) :
    ∀ (w : Str), (∀ c ∈ w, ¬ isWSc c = true) → w ≠ [] →
      ∀ (bS : Bool) (rest : Str),
        wsClean bS bE (w ++ rest) = w ++ wsClean false bE rest := by
  intro w
  induction w with
  | nil => intro _ h; exact absurd rfl h
  | cons c w' ih =>
    intro h _ bS rest
    have hc : ¬ isWSc c = true := h c (List.mem_cons_self c w')
    have hw' : ∀ d ∈ w', ¬ isWSc d = true := fun d hd => h d (List.mem_cons_of_mem c hd)
    rw [List.cons_append, wsClean_cons_nonws _ _ _ _ hc]
    cases w' with
    | nil => simp
    | cons d w'' =>
      rw [ih hw' (by simp) false rest]
      simp

theorem takeWhile_nonws_head {p : Char → Bool} (y : Str) (hy : y ≠ [])
    (hyh : ¬ p (y.headD 'x') = true) : y.takeWhile p = [] ∧ y.dropWhile p = y := by
  cases y with
  | nil => simp at hy
  | cons d t =>
    simp only [List.headD_cons] at hyh
    simp [List.takeWhile_cons, List.dropWhile_cons, hyh]

theorem wsClean_append_aux :
    ∀ (n : Nat) (x : Str), x.length ≤ n → ∀ (bS bE : Bool) (y : Str), y ≠ [] →
      ¬ isWSc (y.headD 'x') = true →
      wsClean bS bE (x ++ y) = wsClean bS false x ++ wsClean false bE y := by
  intro n
  induction n with
  | zero =>
    intro x hx bS bE y hy hyh
    have : x = [] := List.length_eq_zero.mp (Nat.le_zero.mp hx)
    subst this
    rw [List.nil_append, wsClean_nil, List.nil_append,
      wsClean_head_nonws bS bE y (Or.inr hyh)]
  | succ n ih =>
    intro x hx bS bE y hy hyh
    cases x with
    | nil =>
      rw [List.nil_append, wsClean_nil, List.nil_append,
        wsClean_head_nonws bS bE y (Or.inr hyh)]
    | cons c x' =>
      by_cases hc : isWSc c = true
      · rcases hdx : (c :: x').dropWhile isWSc with _ | ⟨d, rest'⟩
        · have hxall : ∀ d ∈ (c :: x'), isWSc d = true :=
            List.dropWhile_eq_nil_iff.mp hdx
          have hty := takeWhile_nonws_head y hy hyh
          have htw := takeWhile_allp_append (c :: x') y hxall
          rw [List.cons_append, wsClean_cons_ws _ _ _ _ hc, ← List.cons_append,
            htw.1, htw.2, hty.1, hty.2, List.append_nil,
            wsClean_cons_ws bS false _ _ hc, hdx]
          have htk : (c :: x').takeWhile isWSc = c :: x' :=
            List.takeWhile_eq_self_iff.mpr hxall
          rw [htk, wsClean_nil, List.append_nil,
            wsClean_head_nonws false bE y (Or.inr hyh)]
          simp [hy]
        · have hdxne : (c :: x').dropWhile isWSc ≠ [] := by rw [hdx]; simp
          have htw := takeWhile_append_of_drop_ne (c :: x') y hdxne
          rw [List.cons_append, wsClean_cons_ws _ _ _ _ hc, ← List.cons_append,
            htw.1, htw.2, wsClean_cons_ws bS false _ _ hc, hdx]
          have hlen : (d :: rest').length ≤ n := by
            have hsub : ((c :: x').dropWhile isWSc).length ≤ x'.length := by
              rw [List.dropWhile_cons, if_pos hc]
              exact (@List.dropWhile_sublist Char x' isWSc).length_le
            rw [hdx] at hsub
            simp only [List.length_cons] at hx hsub ⊢
            omega
          rw [ih _ hlen false bE y hy hyh]
          simp [hdx]
      · rw [List.cons_append, wsClean_cons_nonws _ _ _ _ hc,
          wsClean_cons_nonws bS false _ _ hc]
        have hlen : x'.length ≤ n := by
          simp only [List.length_cons] at hx; omega
        rw [ih x' hlen false bE y hy hyh]
        simp

/-- Distribution of wsClean over an append whose right part starts with
a non-whitespace character. -/
theorem wsClean_append_right_nonws (bS bE : Bool) (x y : Str) (hy : y ≠ [])
    (hyh : ¬ isWSc (y.headD 'x') = true) :
    wsClean bS bE (x ++ y) = wsClean bS false x ++ wsClean false bE y :=
  wsClean_append_aux x.length x (Nat.le_refl _) bS bE y hy hyh

theorem wsClean_append_left_aux :
    ∀ (n : Nat) (x : Str), x.length ≤ n → x ≠ [] →
      ¬ isWSc (x.getLastD 'x') = true → ∀ (bS bE : Bool) (y : Str),
      wsClean bS bE (x ++ y) = wsClean bS false x ++ wsClean false bE y := by
  intro n
  induction n with
  | zero =>
    intro x hx hne
    exact absurd (List.length_eq_zero.mp (Nat.le_zero.mp hx)) hne
  | succ n ih =>
    intro x hx hne hlast bS bE y
    cases x with
    | nil => exact absurd rfl hne
    | cons c x' =>
      by_cases hc : isWSc c = true
      · have hmem : ∃ d ∈ (c :: x'), ¬ isWSc d = true := by
          refine ⟨(c :: x').getLastD 'x', ?_, hlast⟩
          rw [List.getLastD_eq_getLast?]
          have := List.getLast?_eq_getLast (c :: x') (by simp)
          rw [this]
          simp only [Option.getD_some]
          exact List.getLast_mem _
        obtain ⟨d0, hd0m, hd0⟩ := hmem
        have hdxne : (c :: x').dropWhile isWSc ≠ [] :=
          dropWhile_ne_nil_of_mem hd0m hd0
        rcases hdx : (c :: x').dropWhile isWSc with _ | ⟨d, rest'⟩
        · exact absurd hdx hdxne
        have htw := takeWhile_append_of_drop_ne (c :: x') y hdxne
        rw [List.cons_append, wsClean_cons_ws _ _ _ _ hc, ← List.cons_append,
          htw.1, htw.2, wsClean_cons_ws bS false _ _ hc, hdx]
        have hlen : (d :: rest').length ≤ n := by
          have hsub : ((c :: x').dropWhile isWSc).length ≤ x'.length := by
            rw [List.dropWhile_cons, if_pos hc]
            exact (@List.dropWhile_sublist Char x' isWSc).length_le
          rw [hdx] at hsub
          simp only [List.length_cons] at hx hsub ⊢
          omega
        have hlast2 : ¬ isWSc ((d :: rest').getLastD 'x') = true := by
          have hpre : (c :: x').dropWhile isWSc <:+ (c :: x') :=
            List.dropWhile_suffix isWSc
          rw [hdx] at hpre
          obtain ⟨t, ht⟩ := hpre
          have : (d :: rest').getLastD 'x' = (c :: x').getLastD 'x' := by
            rw [← ht, List.getLastD_eq_getLast?, List.getLastD_eq_getLast?,
              List.getLast?_append,
              List.getLast?_eq_getLast (d :: rest') (by simp)]
            simp
          rw [this]
          exact hlast
        rw [ih _ hlen (by simp) hlast2 false bE y]
        simp [hdx]
      · rw [List.cons_append, wsClean_cons_nonws _ _ _ _ hc,
          wsClean_cons_nonws bS false _ _ hc]
        cases x' with
        | nil => simp [wsClean_nil]
        | cons e x'' =>
          have hlen : (e :: x'').length ≤ n := by
            simp only [List.length_cons] at hx ⊢; omega
          have hlast2 : ¬ isWSc ((e :: x'').getLastD 'x') = true := by
            simpa [List.getLastD] using hlast
          rw [ih _ hlen (by simp) hlast2 false bE y]
          simp

/-- Distribution of wsClean over an append whose left part ends with a
non-whitespace character. -/
theorem wsClean_append_left_nonws (bS bE : Bool) (x y : Str) (hne : x ≠ [])
    (hlast : ¬ isWSc (x.getLastD 'x') = true) :
    wsClean bS bE (x ++ y) = wsClean bS false x ++ wsClean false bE y :=
  wsClean_append_left_aux x.length x (Nat.le_refl _) hne hlast bS bE y

theorem wsClean_end_nonws (bS bE : Bool) (s : Str) (hne : s ≠ [])
    (hlast : ¬ isWSc (s.getLastD 'x') = true) :
    wsClean bS bE s = wsClean bS false s := by
  have h := wsClean_append_left_nonws bS bE s [] hne hlast
  simpa [wsClean_nil] using h

theorem wsClean_run_append (bS bE : Bool) (run rest : Str) (hne : run ≠ [])
    (hall : ∀ c ∈ run, isWSc c = true)
    (hrest : rest = [] ∨ ¬ isWSc (rest.headD 'x') = true) :
    wsClean bS bE (run ++ rest) =
      (if bS ∨ (bE ∧ rest = []) then []
        else if run.any isNLc then ['\n'] else run) ++ wsClean false bE rest := by
  rcases run with _ | ⟨c, r⟩
  · exact absurd rfl hne
  have hc : isWSc c = true := hall c (List.mem_cons_self c r)
  have htd : (c :: r ++ rest).takeWhile isWSc = (c :: r) ++ rest.takeWhile isWSc ∧
      (c :: r ++ rest).dropWhile isWSc = rest.dropWhile isWSc :=
    takeWhile_allp_append (c :: r) rest hall
  have hrt : rest.takeWhile isWSc = [] ∧ rest.dropWhile isWSc = rest := by
    rcases rest with _ | ⟨d, t⟩
    · simp
    · rcases hrest with h | h
      · simp at h
      · exact takeWhile_nonws_head (d :: t) (by simp) h
  rw [List.cons_append, wsClean_cons_ws _ _ _ _ hc]
  rw [List.cons_append] at htd
  rw [htd.1, htd.2, hrt.1, hrt.2, List.append_nil]

theorem wsClean_allws (bS bE : Bool) (run : Str)
    (hall : ∀ c ∈ run, isWSc c = true) (hb : bS = true ∨ bE = true) :
    wsClean bS bE run = [] := by
  rcases run with _ | ⟨c, r⟩
  · exact wsClean_nil bS bE
  have h := wsClean_run_append bS bE (c :: r) [] (by simp) hall (Or.inl rfl)
  rw [List.append_nil] at h
  rw [h, wsClean_nil]
  rcases hb with hb | hb <;> subst hb <;> simp

theorem wsClean_ne_nil (s : Str) (hne : s ≠ []) :
    wsClean false false s ≠ [] := by
  rcases s with _ | ⟨c, t⟩
  · exact absurd rfl hne
  by_cases hc : isWSc c = true
  · rw [wsClean_cons_ws _ _ _ _ hc]
    simp only [Bool.false_eq_true, false_or, false_and, if_false]
    split
    · simp
    · simp [List.takeWhile_cons, hc]
  · rw [wsClean_cons_nonws _ _ _ _ hc]
    simp

/-! ## Escaping commutes with the whitespace rewriting -/

theorem escT_eq_flatMap (s : Str) : escT s = s.flatMap encTc := by
  induction s with
  | nil => simp [escT]
  | cons c t ih =>
    by_cases h1 : c = '&'
    · subst h1; simpa [escT, encTc] using ih
    · by_cases h2 : c = '<'
      · subst h2; simpa [escT, encTc] using ih
      · by_cases h3 : c = '>'
        · subst h3; simpa [escT, encTc] using ih
        · rw [show escT (c :: t) = c :: escT t by
            rw [escT.eq_def]
            split
            · simp_all
            · simp_all
            · simp_all
            · simp_all
            · rename_i heq
              rw [(List.cons.injEq _ _ _ _).mp heq |>.1,
                (List.cons.injEq _ _ _ _).mp heq |>.2]]
          simp [encTc, h1, h2, h3, ih]

theorem escA_eq_flatMap (s : Str) : escA s = s.flatMap encAc := by
  induction s with
  | nil => simp [escA]
  | cons c t ih =>
    by_cases h1 : c = '&'
    · subst h1; simpa [escA, encAc] using ih
    · by_cases h2 : c = '<'
      · subst h2; simpa [escA, encAc] using ih
      · by_cases h3 : c = '>'
        · subst h3; simpa [escA, encAc] using ih
        · by_cases h4 : c = '"'
          · subst h4; simpa [escA, encAc] using ih
          · rw [show escA (c :: t) = c :: escA t by
              rw [escA.eq_def]
              split
              · simp_all
              · simp_all
              · simp_all
              · simp_all
              · simp_all
              · rename_i heq
                rw [(List.cons.injEq _ _ _ _).mp heq |>.1,
                  (List.cons.injEq _ _ _ _).mp heq |>.2]]
            simp [encAc, h1, h2, h3, h4, ih]

theorem flatMap_ws_id {e : Char → Str} (hws : ∀ c, isWSc c = true → e c = [c]) :
    ∀ (run : Str), (∀ c ∈ run, isWSc c = true) → run.flatMap e = run := by
  intro run
  induction run with
  | nil => simp
  | cons c r ih =>
    intro h
    rw [List.flatMap_cons, hws c (h c (List.mem_cons_self c r)),
      ih (fun d hd => h d (List.mem_cons_of_mem c hd))]
    rfl

theorem flatMap_ne_nil {e : Char → Str}
    (hnw : ∀ c, ¬ isWSc c = true → e c ≠ [] ∧ ∀ d ∈ e c, ¬ isWSc d = true)
    (hws : ∀ c, isWSc c = true → e c = [c]) :
    ∀ (s : Str), s ≠ [] → s.flatMap e ≠ [] := by
  intro s hs
  rcases s with _ | ⟨c, t⟩
  · exact absurd rfl hs
  rw [List.flatMap_cons]
  by_cases hc : isWSc c = true
  · rw [hws c hc]; simp
  · intro hnil
    exact (hnw c hc).1 (List.append_eq_nil.mp hnil).1

theorem dropWhile_head_not {p : Char → Bool} :
    ∀ (l : Str) (d : Char) (r : Str), l.dropWhile p = d :: r → ¬ p d = true := by
  intro l
  induction l with
  | nil => intro d r h; simp at h
  | cons c l' ih =>
    intro d r h
    rw [List.dropWhile_cons] at h
    by_cases hc : p c
    · rw [if_pos hc] at h
      exact ih d r h
    · rw [if_neg hc] at h
      rw [← ((List.cons.injEq _ _ _ _).mp h).1]
      exact hc

theorem wsClean_flatMap_aux (e : Char → Str)
    (hws : ∀ c, isWSc c = true → e c = [c])
    (hnw : ∀ c, ¬ isWSc c = true → e c ≠ [] ∧ ∀ d ∈ e c, ¬ isWSc d = true) :
    ∀ (n : Nat) (s : Str), s.length ≤ n → ∀ (bS bE : Bool),
      wsClean bS bE (s.flatMap e) = (wsClean bS bE s).flatMap e := by
  intro n
  induction n with
  | zero =>
    intro s hs bS bE
    have : s = [] := List.length_eq_zero.mp (Nat.le_zero.mp hs)
    subst this
    simp [wsClean_nil]
  | succ n ih =>
    intro s hs bS bE
    rcases s with _ | ⟨c, t⟩
    · simp [wsClean_nil]
    by_cases hc : isWSc c = true
    · -- leading whitespace run
      have hdecomp : (c :: t) = (c :: t).takeWhile isWSc ++ (c :: t).dropWhile isWSc :=
        (List.takeWhile_append_dropWhile isWSc (c :: t)).symm
      set run := (c :: t).takeWhile isWSc with hrun
      set rest := (c :: t).dropWhile isWSc with hrest
      have hrunws : ∀ d ∈ run, isWSc d = true := fun d hd => List.mem_takeWhile_imp hd
      have hrunne : run ≠ [] := by
        rw [hrun]
        simp [List.takeWhile_cons, hc]
      have hresthead : rest = [] ∨ ¬ isWSc (rest.headD 'x') = true := by
        rcases hr : rest with _ | ⟨d, r⟩
        · exact Or.inl rfl
        · right
          rw [hrest] at hr
          simpa using dropWhile_head_not (c :: t) d r hr
      have hrestlen : rest.length ≤ n := by
        have : rest.length ≤ t.length := by
          rw [hrest, List.dropWhile_cons, if_pos hc]
          exact (@List.dropWhile_sublist Char t isWSc).length_le
        simp only [List.length_cons] at hs
        omega
      have hfm : (c :: t).flatMap e = run ++ rest.flatMap e := by
        conv_lhs => rw [hdecomp]
        rw [List.flatMap_append, flatMap_ws_id hws run hrunws]
      have hfmresthead : rest.flatMap e = [] ∨
          ¬ isWSc ((rest.flatMap e).headD 'x') = true := by
        rcases hr : rest with _ | ⟨d, r⟩
        · exact Or.inl (by simp)
        · right
          have hd : ¬ isWSc d = true := by
            rcases hresthead with h | h
            · rw [hr] at h; cases h
            · rw [hr] at h; simpa using h
          rw [List.flatMap_cons]
          rcases he : e d with _ | ⟨d0, e'⟩
          · exact absurd he (hnw d hd).1
          · have hd0 : ¬ isWSc d0 = true :=
              (hnw d hd).2 d0 (by rw [he]; simp)
            simpa using hd0
      have hfmnil : (rest.flatMap e = []) ↔ rest = [] := by
        constructor
        · intro h
          by_contra hne
          exact flatMap_ne_nil hnw hws rest hne h
        · intro h; simp [h]
      rw [hfm, wsClean_run_append bS bE run (rest.flatMap e) hrunne hrunws hfmresthead]
      conv_rhs => rw [hdecomp]
      rw [wsClean_run_append bS bE run rest hrunne hrunws hresthead]
      rw [List.flatMap_append, ih rest hrestlen false bE]
      congr 1
      by_cases hb : bS = true
      · simp [hb]
      · by_cases hbe : bE = true ∧ rest = []
        · rw [if_pos (Or.inr ⟨hbe.1, (hfmnil.mpr hbe.2)⟩), if_pos (Or.inr hbe)]
          simp
        · have h1 : ¬ (bS = true ∨ bE = true ∧ rest.flatMap e = []) := by
            rintro (h | ⟨h2, h3⟩)
            · exact hb h
            · exact hbe ⟨h2, hfmnil.mp h3⟩
          have h2 : ¬ (bS = true ∨ bE = true ∧ rest = []) := by
            rintro (h | h)
            · exact hb h
            · exact hbe h
          rw [if_neg h1, if_neg h2]
          split
          · exact (flatMap_ws_id hws ['\n'] (by
              intro d hd
              simp at hd
              subst hd
              decide)).symm
          · exact (flatMap_ws_id hws run hrunws).symm
    · -- leading non-whitespace character
      have hew := hnw c hc
      have hlen : t.length ≤ n := by simp only [List.length_cons] at hs; omega
      rw [List.flatMap_cons, wsClean_word_append bE (e c) hew.2 hew.1 bS (t.flatMap e),
        ih t hlen false bE, wsClean_cons_nonws bS bE c t hc, List.flatMap_cons]

theorem encTc_ws (c : Char) (h : isWSc c = true) : encTc c = [c] := by
  have h1 : c ≠ '&' := by rintro rfl; exact absurd h (by decide)
  have h2 : c ≠ '<' := by rintro rfl; exact absurd h (by decide)
  have h3 : c ≠ '>' := by rintro rfl; exact absurd h (by decide)
  simp [encTc, h1, h2, h3]

theorem encTc_nonws (c : Char) (h : ¬ isWSc c = true) :
    encTc c ≠ [] ∧ ∀ d ∈ encTc c, ¬ isWSc d = true := by
  by_cases h1 : c = '&'
  · subst h1; exact ⟨by decide, by decide⟩
  by_cases h2 : c = '<'
  · subst h2; exact ⟨by decide, by decide⟩
  by_cases h3 : c = '>'
  · subst h3; exact ⟨by decide, by decide⟩
  refine ⟨by simp [encTc, h1, h2, h3], ?_⟩
  intro d hd
  simp [encTc, h1, h2, h3] at hd
  subst hd
  exact h

theorem encAc_ws (c : Char) (h : isWSc c = true) : encAc c = [c] := by
  have h1 : c ≠ '&' := by rintro rfl; exact absurd h (by decide)
  have h2 : c ≠ '<' := by rintro rfl; exact absurd h (by decide)
  have h3 : c ≠ '>' := by rintro rfl; exact absurd h (by decide)
  have h4 : c ≠ '"' := by rintro rfl; exact absurd h (by decide)
  simp [encAc, h1, h2, h3, h4]

theorem encAc_nonws (c : Char) (h : ¬ isWSc c = true) :
    encAc c ≠ [] ∧ ∀ d ∈ encAc c, ¬ isWSc d = true := by
  by_cases h1 : c = '&'
  · subst h1; exact ⟨by decide, by decide⟩
  by_cases h2 : c = '<'
  · subst h2; exact ⟨by decide, by decide⟩
  by_cases h3 : c = '>'
  · subst h3; exact ⟨by decide, by decide⟩
  by_cases h4 : c = '"'
  · subst h4; exact ⟨by decide, by decide⟩
  refine ⟨by simp [encAc, h1, h2, h3, h4], ?_⟩
  intro d hd
  simp [encAc, h1, h2, h3, h4] at hd
  subst hd
  exact h

theorem wsClean_escT (bS bE : Bool) (s : Str) :
    wsClean bS bE (escT s) = escT (wsClean bS bE s) := by
  rw [escT_eq_flatMap, escT_eq_flatMap]
  exact wsClean_flatMap_aux encTc encTc_ws encTc_nonws s.length s (Nat.le_refl _) bS bE

theorem wsClean_escA (bS bE : Bool) (s : Str) :
    wsClean bS bE (escA s) = escA (wsClean bS bE s) := by
  rw [escA_eq_flatMap, escA_eq_flatMap]
  exact wsClean_flatMap_aux encAc encAc_ws encAc_nonws s.length s (Nat.le_refl _) bS bE

/-! ## cleanLines is the whitespace-run rewriting -/

theorem isWSc_of_isNLc {c : Char} (h : isNLc c = true) : isWSc c = true := by
  simp [isWSc, h]

theorem not_isNLc_of_not_isWSc {c : Char} (h : ¬ isWSc c = true) : isNLc c = false := by
  by_contra hn
  simp only [Bool.not_eq_true, Bool.not_eq_false] at hn
  exact h (isWSc_of_isNLc hn)

theorem stripL_ws_cons {c : Char} (l : Str) (h : isWSc c = true) :
    stripL (c :: l) = stripL l := by
  unfold stripL
  rw [List.dropWhile_cons, if_pos h]

theorem cleanLines_ws_cons {c : Char} (t : Str) (h : isWSc c = true) :
    cleanLines (c :: t) = cleanLines t := by
  unfold cleanLines
  rcases hs : splitNL t with _ | ⟨l0, ls⟩
  · exact absurd hs (splitNL_ne_nil t)
  by_cases hnl : isNLc c = true
  · simp only [splitNL, hs, hnl, if_pos, List.map_cons, List.filter_cons]
    have : stripL ([] : Str) = [] := rfl
    simp [this]
  · have hns : isNLc c = false := by simpa using hnl
    simp only [splitNL, hs, hns, Bool.false_eq_true, if_false, List.map_cons]
    rw [stripL_ws_cons l0 h]

theorem wsClean_true_ws_cons {c : Char} (bE : Bool) (t : Str) (h : isWSc c = true) :
    wsClean true bE (c :: t) = wsClean true bE t := by
  rw [wsClean_cons_ws true bE c t h]
  simp only [true_or, if_pos, List.nil_append]
  rw [List.dropWhile_cons, if_pos h]
  rcases t with _ | ⟨d, t'⟩
  · simp [wsClean_nil]
  by_cases hd : isWSc d = true
  · rw [wsClean_cons_ws true bE d t' hd]
    simp only [true_or, if_pos, List.nil_append, List.dropWhile_cons, hd, if_pos]
  · have : List.dropWhile isWSc (d :: t') = d :: t' := by
      rw [List.dropWhile_cons, if_neg hd]
    rw [this, wsClean_head_nonws true bE (d :: t') (Or.inr (by simpa using hd))]

theorem stripL_word_run (w run : Str) (hne : w ≠ [])
    (hh : ¬ isWSc (w.headD 'x') = true) (hl : ¬ isWSc (w.getLastD 'x') = true)
    (hrun : ∀ c ∈ run, isWSc c = true) :
    stripL (w ++ run) = w := by
  unfold stripL
  have h1 : (w ++ run).dropWhile isWSc = w ++ run := by
    rcases w with _ | ⟨c, w'⟩
    · exact absurd rfl hne
    simp only [List.headD_cons] at hh
    rw [List.cons_append, List.dropWhile_cons, if_neg hh]
  rw [h1, List.reverse_append]
  have h2 : ∀ c ∈ run.reverse, isWSc c = true := fun c hc =>
    hrun c (List.mem_reverse.mp hc)
  rw [(takeWhile_allp_append run.reverse w.reverse h2).2]
  have h3 : w.reverse.dropWhile isWSc = w.reverse := by
    rcases hw : w.reverse with _ | ⟨c, wr⟩
    · simp
    have hc : c = w.getLastD 'x' := by
      rw [List.getLastD_eq_getLast?, ← List.head?_reverse, hw]
      simp
    rw [List.dropWhile_cons, if_neg (by rw [hc]; exact hl)]
  rw [h3, List.reverse_reverse]

theorem stripL_ne_nil_of_head {d : Char} (l : Str) (hd : ¬ isWSc d = true) :
    stripL (d :: l) ≠ [] := by
  unfold stripL
  rw [List.dropWhile_cons, if_neg hd]
  intro hnil
  rw [List.reverse_eq_nil_iff] at hnil
  have := List.dropWhile_eq_nil_iff.mp hnil
  exact hd (this d (by simp))

theorem filteredLines_ws_prefix :
    ∀ (run : Str), (∀ c ∈ run, isWSc c = true) → ∀ (x : Str),
      (((splitNL (run ++ x)).map stripL).filter (fun l => l ≠ [])) =
      (((splitNL x).map stripL).filter (fun l => l ≠ [])) := by
  intro run
  induction run with
  | nil => intro _ x; rfl
  | cons c r ih =>
    intro h x
    have hc : isWSc c = true := h c (List.mem_cons_self c r)
    have hr : ∀ d ∈ r, isWSc d = true := fun d hd => h d (List.mem_cons_of_mem c hd)
    rcases hs : splitNL (r ++ x) with _ | ⟨l0, ls⟩
    · exact absurd hs (splitNL_ne_nil _)
    by_cases hnl : isNLc c = true
    · rw [List.cons_append]
      have hstep : splitNL (c :: (r ++ x)) = [] :: splitNL (r ++ x) := by
        simp [splitNL, hs, hnl]
      rw [hstep, List.map_cons, List.filter_cons]
      have h0 : (decide (stripL ([] : Str) ≠ [])) = false := by decide
      simp only [h0, Bool.false_eq_true, if_false]
      exact ih hr x
    · have hns : isNLc c = false := by simpa using hnl
      rw [List.cons_append]
      have hstep : splitNL (c :: (r ++ x)) = (c :: l0) :: ls := by
        simp [splitNL, hs, hns]
      rw [hstep, List.map_cons, stripL_ws_cons l0 hc, ← List.map_cons stripL l0 ls,
        ← hs, ih hr x]

theorem splitNL_ws_nl_prefix :
    ∀ (run : Str), (∀ c ∈ run, isWSc c = true) → run.any isNLc = true →
      ∀ (x : Str), ∃ h0 ls, splitNL (run ++ x) = h0 :: ls ∧
        (∀ c ∈ h0, isWSc c = true) ∧
        ((ls.map stripL).filter (fun l => l ≠ [])) =
          (((splitNL x).map stripL).filter (fun l => l ≠ [])) := by
  intro run
  induction run with
  | nil => intro _ hnl; simp at hnl
  | cons c r ih =>
    intro h hnl x
    have hc : isWSc c = true := h c (List.mem_cons_self c r)
    have hr : ∀ d ∈ r, isWSc d = true := fun d hd => h d (List.mem_cons_of_mem c hd)
    by_cases hcnl : isNLc c = true
    · rcases hs : splitNL (r ++ x) with _ | ⟨l0, ls⟩
      · exact absurd hs (splitNL_ne_nil _)
      refine ⟨[], l0 :: ls, ?_, by simp, ?_⟩
      · rw [List.cons_append]
        simp [splitNL, hs, hcnl]
      · rw [← hs, filteredLines_ws_prefix r hr x]
    · have hrnl : r.any isNLc = true := by
        rcases List.any_eq_true.mp hnl with ⟨d, hd, hdnl⟩
        rcases List.mem_cons.mp hd with rfl | hd2
        · exact absurd hdnl (by simpa using hcnl)
        · exact List.any_eq_true.mpr ⟨d, hd2, hdnl⟩
      obtain ⟨h0, ls, heq, hws, hfl⟩ := ih hr hrnl x
      refine ⟨c :: h0, ls, ?_, ?_, hfl⟩
      · rw [List.cons_append]
        have hns : isNLc c = false := by simpa using hcnl
        simp [splitNL, heq, hns]
      · intro d hd
        rcases List.mem_cons.mp hd with rfl | hd2
        · exact hc
        · exact hws d hd2

theorem cleanLines_word_allws (w run : Str) (hne : w ≠ [])
    (hh : ¬ isWSc (w.headD 'x') = true) (hl : ¬ isWSc (w.getLastD 'x') = true)
    (hnlw : ∀ c ∈ w, isNLc c = false)
    (hrun : ∀ c ∈ run, isWSc c = true) :
    cleanLines (w ++ run) = w := by
  have hwd : (decide (w ≠ [])) = true := by simp [hne]
  by_cases hnl : run.any isNLc = true
  · obtain ⟨h0, ls, heq, hws, hfl⟩ := splitNL_ws_nl_prefix run hrun hnl []
    rw [List.append_nil] at heq
    unfold cleanLines
    rw [splitNL_append_nlfree w run hnlw, heq]
    simp only [List.headD_cons, List.tail_cons, List.map_cons, List.filter_cons]
    rw [stripL_word_run w h0 hne hh hl hws]
    simp only [hwd, if_pos]
    have hlsnil : ((ls.map stripL).filter (fun l => l ≠ [])) = [] := by
      rw [hfl]
      rfl
    rw [hlsnil]
    simp [List.intercalate]
  · have hrnl : ∀ c ∈ run, isNLc c = false := by
      intro d hd
      by_contra hdn
      simp only [Bool.not_eq_false] at hdn
      exact (by simpa using hnl : ¬ run.any isNLc = true)
        (List.any_eq_true.mpr ⟨d, hd, hdn⟩)
    have hnlall : ∀ c ∈ w ++ run, isNLc c = false := by
      intro d hd
      rcases List.mem_append.mp hd with hd | hd
      · exact hnlw d hd
      · exact hrnl d hd
    unfold cleanLines
    rw [splitNL_nlfree (w ++ run) hnlall]
    simp only [List.map_cons, List.map_nil, List.filter_cons]
    rw [stripL_word_run w run hne hh hl hrun]
    simp only [hwd, if_pos]
    simp [List.intercalate]

theorem cleanLines_word_run_nl (w run tail : Str) (hne : w ≠ [])
    (hh : ¬ isWSc (w.headD 'x') = true) (hl : ¬ isWSc (w.getLastD 'x') = true)
    (hnlw : ∀ c ∈ w, isNLc c = false)
    (hrun : ∀ c ∈ run, isWSc c = true) (hrnl : run.any isNLc = true)
    (htail : tail ≠ []) (hth : ¬ isWSc (tail.headD 'x') = true) :
    cleanLines (w ++ run ++ tail) = w ++ '\n' :: cleanLines tail := by
  obtain ⟨h0, ls, heq, hws, hfl⟩ := splitNL_ws_nl_prefix run hrun hrnl tail
  rw [List.append_assoc]
  unfold cleanLines
  rw [splitNL_append_nlfree w (run ++ tail) hnlw, heq]
  simp only [List.headD_cons, List.tail_cons, List.map_cons, List.filter_cons]
  rw [stripL_word_run w h0 hne hh hl hws]
  have hwd : (decide (w ≠ [])) = true := by simp [hne]
  simp only [hwd, if_pos]
  rw [hfl]
  rcases htl : tail with _ | ⟨d, t⟩
  · exact absurd htl htail
  rw [htl] at hth
  simp only [List.headD_cons] at hth
  rcases hsp : splitNL (d :: t) with _ | ⟨t1, ts⟩
  · exact absurd hsp (splitNL_ne_nil _)
  have ht1 : t1 = d :: (splitNL t).headD [] ∧ ts = (splitNL t).tail := by
    have := splitNL_append_nlfree [d] t (by
      intro c hc
      simp at hc
      subst hc
      exact not_isNLc_of_not_isWSc hth)
    simp only [List.singleton_append] at this
    rw [hsp] at this
    exact ⟨((List.cons.injEq _ _ _ _).mp this).1, ((List.cons.injEq _ _ _ _).mp this).2⟩
  have hstrip : stripL t1 ≠ [] := by
    rw [ht1.1]
    exact stripL_ne_nil_of_head _ hth
  simp only [hsp, List.map_cons, List.filter_cons]
  have hst : (decide (stripL t1 ≠ [])) = true := by simp [hstrip]
  simp only [hst, if_pos]
  have hic : ∀ (a b : Str) (rest : List Str),
      List.intercalate ['\n'] (a :: b :: rest) =
        a ++ '\n' :: List.intercalate ['\n'] (b :: rest) := by
    intro a b rest
    simp [List.intercalate, List.intersperse]
  rw [hic]

theorem headD_append_left (w z : Str) (hne : w ≠ []) :
    (w ++ z).headD 'x' = w.headD 'x' := by
  rcases w with _ | ⟨c, w'⟩
  · exact absurd rfl hne
  · simp

theorem getLastD_append_right (w z : Str) (hne : z ≠ []) :
    (w ++ z).getLastD 'x' = z.getLastD 'x' := by
  rw [List.getLastD_eq_getLast?, List.getLastD_eq_getLast?, List.getLast?_append,
    List.getLast?_eq_getLast z hne]
  simp

theorem cleanLines_word_aux :
    ∀ (n : Nat) (s : Str), s.length ≤ n → ∀ (w : Str), w ≠ [] →
      ¬ isWSc (w.headD 'x') = true → ¬ isWSc (w.getLastD 'x') = true →
      (∀ c ∈ w, isNLc c = false) →
      cleanLines (w ++ s) = w ++ wsClean false true s := by
  intro n
  induction n with
  | zero =>
    intro s hs w hne hh hl hnlw
    have : s = [] := List.length_eq_zero.mp (Nat.le_zero.mp hs)
    subst this
    rw [wsClean_nil]
    simpa using cleanLines_word_allws w [] hne hh hl hnlw (by simp)
  | succ n ih =>
    intro s hs w hne hh hl hnlw
    rcases s with _ | ⟨c, s'⟩
    · rw [wsClean_nil]
      simpa using cleanLines_word_allws w [] hne hh hl hnlw (by simp)
    by_cases hc : isWSc c = true
    · have hdecomp : (c :: s') = (c :: s').takeWhile isWSc ++ (c :: s').dropWhile isWSc :=
        (List.takeWhile_append_dropWhile isWSc (c :: s')).symm
      set run := (c :: s').takeWhile isWSc with hrundef
      set rest := (c :: s').dropWhile isWSc with hrestdef
      have hrunws : ∀ d ∈ run, isWSc d = true := fun d hd => List.mem_takeWhile_imp hd
      have hrunne : run ≠ [] := by
        rw [hrundef]
        simp [List.takeWhile_cons, hc]
      have hrestlen : rest.length ≤ n := by
        have h1 : rest.length ≤ s'.length := by
          rw [hrestdef, List.dropWhile_cons, if_pos hc]
          exact (@List.dropWhile_sublist Char s' isWSc).length_le
        simp only [List.length_cons] at hs
        omega
      rcases hrt : rest with _ | ⟨d, rt⟩
      · -- wholly whitespace
        have hallws : ∀ x ∈ (c :: s'), isWSc x = true := by
          rw [← List.takeWhile_append_dropWhile (p := isWSc) (l := c :: s')]
          intro x hx
          rcases List.mem_append.mp hx with hx | hx
          · exact List.mem_takeWhile_imp hx
          · rw [← hrestdef, hrt] at hx; simp at hx
        rw [cleanLines_word_allws w (c :: s') hne hh hl hnlw hallws,
          wsClean_allws false true (c :: s') hallws (Or.inr rfl), List.append_nil]
      · have hd : ¬ isWSc d = true := dropWhile_head_not (c :: s') d rt (hrestdef ▸ hrt)
        -- split rest into its leading word and the remainder
        have hrestdecomp : rest = rest.takeWhile (fun x => !isWSc x) ++
            rest.dropWhile (fun x => !isWSc x) :=
          (List.takeWhile_append_dropWhile (fun x => !isWSc x) rest).symm
        set w' := rest.takeWhile (fun x => !isWSc x) with hwDdef
        set s'' := rest.dropWhile (fun x => !isWSc x) with hsDdef
        have hw'nws : ∀ x ∈ w', ¬ isWSc x = true := by
          intro x hx
          have := List.mem_takeWhile_imp hx
          simpa using this
        have hw'ne : w' ≠ [] := by
          rw [hwDdef, hrt]
          simp [List.takeWhile_cons, hd]
        have hs''len : s''.length ≤ n := by
          have h2 : s''.length ≤ rest.length := by
            rw [hsDdef]
            exact (@List.dropWhile_sublist Char rest (fun x => !isWSc x)).length_le
          -- in fact strictly smaller, but ≤ n suffices
          have h3 : s''.length < rest.length := by
            rw [hsDdef, hrt, List.dropWhile_cons]
            have : (!isWSc d) = true := by simpa using hd
            rw [if_pos this]
            have := (@List.dropWhile_sublist Char rt (fun x => !isWSc x)).length_le
            simp only [List.length_cons]
            omega
          omega
        have hw'head : ¬ isWSc (w'.headD 'x') = true := by
          rcases hw : w' with _ | ⟨e, w''⟩
          · exact absurd hw hw'ne
          · simp only [List.headD_cons]
            exact hw'nws e (by rw [hw]; simp)
        have hw'last : ¬ isWSc (w'.getLastD 'x') = true := by
          rcases hw : w' with _ | ⟨e, w''⟩
          · exact absurd hw hw'ne
          · rw [← hw]
            refine hw'nws _ ?_
            rw [List.getLastD_eq_getLast?, List.getLast?_eq_getLast w' (by rw [hw]; simp)]
            simp only [Option.getD_some]
            exact List.getLast_mem _
        have hw'nl : ∀ x ∈ w', isNLc x = false := fun x hx =>
          not_isNLc_of_not_isWSc (hw'nws x hx)
        by_cases hrnl : run.any isNLc = true
        · -- the whitespace run contains a newline
          have hLHS : cleanLines (w ++ (c :: s')) = w ++ '\n' :: cleanLines rest := by
            rw [show (c :: s') = run ++ rest from hdecomp, ← List.append_assoc]
            exact cleanLines_word_run_nl w run rest hne hh hl hnlw hrunws hrnl
              (by rw [hrt]; simp) (by rw [hrt]; simpa using hd)
          have hREST : cleanLines rest = w' ++ wsClean false true s'' := by
            rw [show rest = w' ++ s'' from hrestdecomp]
            exact ih s'' hs''len w' hw'ne hw'head hw'last hw'nl
          rw [hLHS, hREST]
          rw [show (c :: s') = run ++ rest from hdecomp,
            wsClean_run_append false true run rest hrunne hrunws
              (Or.inr (by rw [hrt]; simpa using hd))]
          rw [if_neg (by rw [hrt]; simp), if_pos hrnl]
          rw [show rest = w' ++ s'' from hrestdecomp,
            wsClean_word_append true w' hw'nws hw'ne false s'']
          simp
        · -- the whitespace run has no newline
          have hrunnl : ∀ x ∈ run, isNLc x = false := by
            intro x hx
            by_contra hxn
            simp only [Bool.not_eq_false] at hxn
            exact (by simpa using hrnl : ¬ run.any isNLc = true)
              (List.any_eq_true.mpr ⟨x, hx, hxn⟩)
          have hw2ne : (w ++ run ++ w') ≠ [] := by simp [hne]
          have hw2h : ¬ isWSc ((w ++ run ++ w').headD 'x') = true := by
            rw [List.append_assoc, headD_append_left w (run ++ w') hne]
            exact hh
          have hw2l : ¬ isWSc ((w ++ run ++ w').getLastD 'x') = true := by
            rw [getLastD_append_right (w ++ run) w' hw'ne]
            exact hw'last
          have hw2nl : ∀ x ∈ (w ++ run ++ w'), isNLc x = false := by
            intro x hx
            rcases List.mem_append.mp hx with hx | hx
            · rcases List.mem_append.mp hx with hx | hx
              · exact hnlw x hx
              · exact hrunnl x hx
            · exact hw'nl x hx
          have hLHS : cleanLines (w ++ (c :: s')) =
              (w ++ run ++ w') ++ wsClean false true s'' := by
            rw [show (c :: s') = run ++ rest from hdecomp,
              show rest = w' ++ s'' from hrestdecomp]
            rw [show w ++ (run ++ (w' ++ s'')) = (w ++ run ++ w') ++ s'' by
              simp [List.append_assoc]]
            exact ih s'' hs''len (w ++ run ++ w') hw2ne hw2h hw2l hw2nl
          rw [hLHS]
          rw [show (c :: s') = run ++ rest from hdecomp,
            wsClean_run_append false true run rest hrunne hrunws
              (Or.inr (by rw [hrt]; simpa using hd))]
          rw [if_neg (by rw [hrt]; simp), if_neg (by simpa using hrnl)]
          rw [show rest = w' ++ s'' from hrestdecomp,
            wsClean_word_append true w' hw'nws hw'ne false s'']
          simp [List.append_assoc]
    · -- leading non-whitespace character: extend the word
      have hlen : s'.length ≤ n := by simp only [List.length_cons] at hs; omega
      have hw2ne : (w ++ [c]) ≠ [] := by simp
      have hw2h : ¬ isWSc ((w ++ [c]).headD 'x') = true := by
        rw [headD_append_left w [c] hne]
        exact hh
      have hw2l : ¬ isWSc ((w ++ [c]).getLastD 'x') = true := by
        rw [getLastD_append_right w [c] (by simp)]
        simpa using hc
      have hw2nl : ∀ x ∈ (w ++ [c]), isNLc x = false := by
        intro x hx
        rcases List.mem_append.mp hx with hx | hx
        · exact hnlw x hx
        · simp at hx
          subst hx
          exact not_isNLc_of_not_isWSc hc
      have := ih s' hlen (w ++ [c]) hw2ne hw2h hw2l hw2nl
      rw [show w ++ (c :: s') = (w ++ [c]) ++ s' by simp, this,
        wsClean_cons_nonws false true c s' hc]
      simp

/-- cleanLines is exactly the whitespace-run rewriting with both string
boundaries marked. -/
theorem cleanLines_eq_wsClean : ∀ (s : Str), cleanLines s = wsClean true true s := by
  intro s
  induction s with
  | nil => rw [wsClean_nil]; rfl
  | cons c t ih =>
    by_cases hc : isWSc c = true
    · rw [cleanLines_ws_cons t hc, wsClean_true_ws_cons true t hc, ih]
    · have hdecomp : (c :: t) = (c :: t).takeWhile (fun x => !isWSc x) ++
          (c :: t).dropWhile (fun x => !isWSc x) :=
        (List.takeWhile_append_dropWhile (fun x => !isWSc x) (c :: t)).symm
      set w' := (c :: t).takeWhile (fun x => !isWSc x) with hwDdef
      set s'' := (c :: t).dropWhile (fun x => !isWSc x) with hsDdef
      have hw'nws : ∀ x ∈ w', ¬ isWSc x = true := by
        intro x hx
        simpa using List.mem_takeWhile_imp hx
      have hw'ne : w' ≠ [] := by
        rw [hwDdef]
        simp [List.takeWhile_cons, hc]
      have hw'head : ¬ isWSc (w'.headD 'x') = true := by
        rcases hw : w' with _ | ⟨e, w''⟩
        · exact absurd hw hw'ne
        · simp only [List.headD_cons]
          exact hw'nws e (by rw [hw]; simp)
      have hw'last : ¬ isWSc (w'.getLastD 'x') = true := by
        rcases hw : w' with _ | ⟨e, w''⟩
        · exact absurd hw hw'ne
        · rw [← hw]
          refine hw'nws _ ?_
          rw [List.getLastD_eq_getLast?, List.getLast?_eq_getLast w' (by rw [hw]; simp)]
          simp only [Option.getD_some]
          exact List.getLast_mem _
      have hw'nl : ∀ x ∈ w', isNLc x = false := fun x hx =>
        not_isNLc_of_not_isWSc (hw'nws x hx)
      rw [hdecomp, cleanLines_word_aux s''.length s'' (Nat.le_refl _) w'
        hw'ne hw'head hw'last hw'nl,
        wsClean_word_append true w' hw'nws hw'ne true s'']

/-! ## Structural facts about the serializer -/

theorem serF_append (a b : List Node) : serF (a ++ b) = serF a ++ serF b := by
  induction a with
  | nil => simp [serF]
  | cons x xs ih => simp [serF, ih]

theorem encTc_ne_nil (c : Char) : encTc c ≠ [] := by
  unfold encTc
  by_cases h1 : c = '&' <;> by_cases h2 : c = '<' <;> by_cases h3 : c = '>' <;>
    simp [h1, h2, h3]

theorem escT_ne_nil {s : Str} (h : s ≠ []) : escT s ≠ [] := by
  rw [escT_eq_flatMap]
  rcases s with _ | ⟨c, t⟩
  · exact absurd rfl h
  rw [List.flatMap_cons]
  intro hnil
  exact encTc_ne_nil c (List.append_eq_nil.mp hnil).1

theorem tagNameChar_nonws {c : Char} (h : tagNameChar c = true) : ¬ isWSc c = true := by
  unfold tagNameChar at h
  simp only [Bool.and_eq_true, Bool.not_eq_true'] at h
  simp [h.1.1]

theorem attrNameChar_nonws {c : Char} (h : attrNameChar c = true) : ¬ isWSc c = true := by
  unfold attrNameChar at h
  simp only [Bool.and_eq_true, Bool.not_eq_true'] at h
  simp [h.1.1.1]

theorem wsClean_nonws_id (bS bE : Bool) (w : Str) (h : ∀ c ∈ w, ¬ isWSc c = true) :
    wsClean bS bE w = w := by
  rcases hw : w with _ | ⟨c, t⟩
  · exact wsClean_nil bS bE
  have := wsClean_word_append bE (c :: t) (hw ▸ h) (by simp) bS []
  rw [List.append_nil, wsClean_nil, List.append_nil] at this
  exact this

theorem serN_elem_head (n : Str) (a : List (Str × Str)) (cs : List Node) :
    (serN (Node.elem n a cs)).headD 'x' = '<' := by
  rw [serN]
  split <;> simp

theorem serN_elem_ne_nil (n : Str) (a : List (Str × Str)) (cs : List Node) :
    serN (Node.elem n a cs) ≠ [] := by
  rw [serN]
  split <;> simp

theorem serN_elem_last (n : Str) (a : List (Str × Str)) (cs : List Node) :
    (serN (Node.elem n a cs)).getLastD 'x' = '>' := by
  rw [serN]
  split
  · rw [show ('<' :: n ++ serAttrs a ++ ['/', '>']) =
      ('<' :: n ++ serAttrs a ++ ['/']) ++ ['>'] by simp]
    rw [List.getLastD_concat]
  · rw [show ('<' :: n ++ serAttrs a ++ '>' :: serF cs ++ '<' :: '/' :: n ++ ['>']) =
      ('<' :: n ++ serAttrs a ++ '>' :: serF cs ++ '<' :: '/' :: n) ++ ['>'] by simp]
    rw [List.getLastD_concat]

theorem headD_nonws_of_all {w : Str} (hne : w ≠ []) (h : ∀ c ∈ w, ¬ isWSc c = true) :
    ¬ isWSc (w.headD 'x') = true := by
  rcases w with _ | ⟨c, t⟩
  · exact absurd rfl hne
  · simp only [List.headD_cons]
    exact h c (by simp)

theorem wsClean_serAttrs (rest : Str) :
    ∀ (a : List (Str × Str)), (∀ p ∈ a, wfAttrKey p.1) →
    wsClean false false (serAttrs a ++ rest) =
      serAttrs (a.map (fun p => (p.1, wsClean false false p.2))) ++
        wsClean false false rest := by
  intro a
  induction a with
  | nil =>
    intro _
    simp [serAttrs]
  | cons p a' ih =>
    intro ha
    have hk := ha p (List.mem_cons_self p a')
    have ha' : ∀ q ∈ a', wfAttrKey q.1 := fun q hq => ha q (List.mem_cons_of_mem p hq)
    have hknws : ∀ c ∈ p.1, ¬ isWSc c = true := fun c hc =>
      attrNameChar_nonws (hk.2 c hc).1
    have hser : serAttrs (p :: a') ++ rest =
        [' '] ++ (p.1 ++ ('=' :: '"' :: (escA p.2 ++ ('"' :: (serAttrs a' ++ rest))))) := by
      simp [serAttrs, List.flatMap_cons]
    rw [hser]
    have hYh : ¬ isWSc ((p.1 ++ ('=' :: '"' :: (escA p.2 ++
        ('"' :: (serAttrs a' ++ rest))))).headD 'x') = true := by
      rw [headD_append_left _ _ hk.1]
      exact headD_nonws_of_all hk.1 hknws
    rw [wsClean_run_append false false [' '] _ (by simp) (by decide)
      (Or.inr hYh)]
    simp only [Bool.false_eq_true, false_or, false_and, if_false,
      show ([' '] : Str).any isNLc = false by decide]
    rw [wsClean_word_append false p.1 hknws hk.1 false _]
    rw [wsClean_cons_nonws false false '=' _ (by decide),
      wsClean_cons_nonws false false '"' _ (by decide)]
    rw [wsClean_append_right_nonws false false (escA p.2) _ (by simp) (by simp; decide)]
    rw [wsClean_escA false false p.2]
    rw [wsClean_cons_nonws false false '"' _ (by decide)]
    rw [ih ha']
    simp [serAttrs, List.flatMap_cons]

/-! ## The whitespace rewriting commutes with serialization (interior) -/

theorem serF_elem_head (f : List Node) (hne : f ≠ []) (hht : headTextB f = false) :
    serF f ≠ [] ∧ (serF f).headD 'x' = '<' := by
  rcases f with _ | ⟨x, xs⟩
  · exact absurd rfl hne
  rcases x with s | ⟨n, a, cs⟩
  · simp [headTextB] at hht
  · rw [show serF (Node.elem n a cs :: xs) = serN (Node.elem n a cs) ++ serF xs
      from by simp [serF]]
    constructor
    · simp [serN_elem_ne_nil n a cs]
    · rw [headD_append_left _ _ (serN_elem_ne_nil n a cs)]
      exact serN_elem_head n a cs

theorem wsClean_serN_serF :
    (∀ x, WfN x → wsClean false false (serN x) = serN (editN x)) ∧
    (∀ f, WfF f → wsClean false false (serF f) = serF (editF f)) := by
  refine nodeForestInd _ _ (fun s => ?_) (fun n a cs ih => ?_) ?_
    (fun x xs ihx ihxs => ?_)
  · intro _
    rw [show serN (Node.text s) = escT s from by simp [serN], wsClean_escT]
    simp [editN, serN]
  · intro hwf
    cases hwf with
    | elem _ _ _ hn ha hv hcs =>
      have hnws : ∀ c ∈ n, ¬ isWSc c = true := fun c hc =>
        tagNameChar_nonws (hn.2.2 c hc).1
      have hkeys : ∀ p ∈ a, wfAttrKey p.1 := ha.2
      by_cases hvd : n ∈ voidNames
      · rw [show serN (Node.elem n a cs) =
          '<' :: (n ++ (serAttrs a ++ ['/', '>'])) from by simp [serN, hvd]]
        rw [wsClean_cons_nonws false false '<' _ (by decide)]
        rw [wsClean_word_append false n hnws hn.1 false _]
        rw [wsClean_serAttrs ['/', '>'] a hkeys]
        rw [wsClean_nonws_id false false ['/', '>'] (by decide)]
        simp [editN, serN, hvd]
      · rw [show serN (Node.elem n a cs) =
          '<' :: (n ++ (serAttrs a ++ ('>' :: (serF cs ++
            ('<' :: '/' :: (n ++ ['>'])))))) from by simp [serN, hvd]]
        rw [wsClean_cons_nonws false false '<' _ (by decide)]
        rw [wsClean_word_append false n hnws hn.1 false _]
        rw [wsClean_serAttrs _ a hkeys]
        rw [wsClean_cons_nonws false false '>' _ (by decide)]
        rw [wsClean_append_right_nonws false false (serF cs) _ (by simp)
          (by rw [List.headD_cons]; decide)]
        rw [ih hcs]
        rw [wsClean_nonws_id false false ('<' :: '/' :: (n ++ ['>'])) (by
          intro c hc
          rcases List.mem_cons.mp hc with rfl | hc
          · decide
          rcases List.mem_cons.mp hc with rfl | hc
          · decide
          rcases List.mem_append.mp hc with hc | hc
          · exact hnws c hc
          · simp at hc; subst hc; decide)]
        simp [editN, serN, hvd]
  · intro _
    simp [serF, editF, wsClean_nil]
  · intro hwf
    cases hwf with
    | cons _ _ hx hxs hadj =>
      rw [show serF (x :: xs) = serN x ++ serF xs from by simp [serF]]
      rcases hxs0 : xs with _ | ⟨y, ys⟩
      · rw [show serF ([] : List Node) = [] from by simp [serF], List.append_nil]
        rw [ihx hx]
        simp [editF, serF]
      · rw [← hxs0]
        have hxsne : xs ≠ [] := by rw [hxs0]; simp
        rcases hxt : x with s | ⟨n, a, cs⟩
        · have hht : headTextB xs = false := by
            by_contra hcon
            simp only [Bool.not_eq_false] at hcon
            exact hadj ⟨by rw [hxt]; rfl, hcon⟩
          have hsf := serF_elem_head xs hxsne hht
          rw [show serN (Node.text s) = escT s from by simp [serN]]
          rw [wsClean_append_right_nonws false false (escT s) (serF xs) hsf.1
            (by rw [hsf.2]; decide)]
          rw [wsClean_escT false false s, ihxs hxs]
          simp [editF, serF, editN, serN]
        · rw [wsClean_append_left_nonws false false (serN (Node.elem n a cs))
            (serF xs) (serN_elem_ne_nil n a cs)
            (by rw [serN_elem_last n a cs]; decide)]
          rw [← hxt, ihx hx, ihxs hxs]
          simp [editF, serF]

theorem editLast_cons_cons (x y : Node) (ys : List Node) :
    editLast (x :: y :: ys) = editN x :: editLast (y :: ys) := by
  rw [editLast.eq_def]
  rcases x with s | ⟨n, a, cs⟩ <;> rfl

theorem editLast_elem_singleton (n : Str) (a : List (Str × Str)) (cs : List Node) :
    editLast [Node.elem n a cs] = [editN (Node.elem n a cs)] := by
  rw [editLast.eq_def]
  rfl

theorem wsClean_serF_last :
    ∀ f, WfF f → wsClean false true (serF f) = serF (editLast f) := by
  have hmain := wsClean_serN_serF
  refine forestInd _ ?_ (fun s xs ih => ?_) (fun n a cs xs ihcs ihxs => ?_)
  · intro _
    simp [serF, editLast, wsClean_nil]
  · intro hwf
    cases hwf with
    | cons _ _ hx hxs hadj =>
      rcases hxs0 : xs with _ | ⟨y, ys⟩
      · rw [show serF [Node.text s] = escT s from by simp [serF, serN],
          wsClean_escT false true s]
        rw [show editLast [Node.text s] = if wsClean false true s = [] then []
          else [Node.text (wsClean false true s)] from rfl]
        by_cases he : wsClean false true s = []
        · rw [if_pos he, he]
          simp [serF, escT]
        · rw [if_neg he]
          simp [serF, serN]
      · rw [← hxs0]
        have hxsne : xs ≠ [] := by rw [hxs0]; simp
        have hht : headTextB xs = false := by
          by_contra hcon
          simp only [Bool.not_eq_false] at hcon
          exact hadj ⟨rfl, hcon⟩
        have hsf := serF_elem_head xs hxsne hht
        rw [show serF (Node.text s :: xs) = escT s ++ serF xs from by simp [serF, serN]]
        rw [wsClean_append_right_nonws false true (escT s) (serF xs) hsf.1
          (by rw [hsf.2]; decide)]
        rw [wsClean_escT false false s, ih hxs, hxs0, editLast_cons_cons]
        simp [serF, editN, serN, hxs0]
  · intro hwf
    cases hwf with
    | cons _ _ hx hxs hadj =>
      rw [show serF (Node.elem n a cs :: xs) = serN (Node.elem n a cs) ++ serF xs
        from by simp [serF]]
      rcases hxs0 : xs with _ | ⟨y, ys⟩
      · rw [show serF ([] : List Node) = [] from by simp [serF], List.append_nil]
        rw [wsClean_end_nonws false true (serN (Node.elem n a cs))
          (serN_elem_ne_nil n a cs) (by rw [serN_elem_last n a cs]; decide)]
        rw [hmain.1 _ hx, editLast_elem_singleton]
        simp [serF]
      · rw [← hxs0]
        rw [wsClean_append_left_nonws false true (serN (Node.elem n a cs))
          (serF xs) (serN_elem_ne_nil n a cs)
          (by rw [serN_elem_last n a cs]; decide)]
        rw [hmain.1 _ hx, ihxs hxs, hxs0, editLast_cons_cons]
        simp [serF, hxs0]

theorem editTopF_text_cons (s : Str) (y : Node) (ys : List Node) :
    editTopF (Node.text s :: y :: ys) =
      (if wsClean true false s = [] then []
        else [Node.text (wsClean true false s)]) ++ editLast (y :: ys) := by
  rw [editTopF.eq_def]

theorem editTopF_elem_cons (n : Str) (a : List (Str × Str)) (cs : List Node)
    (xs : List Node) :
    editTopF (Node.elem n a cs :: xs) = editN (Node.elem n a cs) :: editLast xs := by
  rw [editTopF.eq_def]

theorem editLast_eq_editTopF_elem (n : Str) (a : List (Str × Str)) (cs : List Node)
    (xs : List Node) :
    editLast (Node.elem n a cs :: xs) = editTopF (Node.elem n a cs :: xs) := by
  rw [editTopF_elem_cons]
  rcases xs with _ | ⟨y, ys⟩
  · exact editLast_elem_singleton n a cs
  · exact editLast_cons_cons _ y ys

theorem wsClean_serF_top : ∀ f, WfF f → wsClean true true (serF f) = serF (editTopF f) := by
  intro f hwf
  rcases f with _ | ⟨x, xs⟩
  · simp [serF, editTopF, wsClean_nil]
  cases hwf with
  | cons _ _ hx hxs hadj =>
    rcases hxt : x with s | ⟨n, a, cs⟩
    · rcases hxs0 : xs with _ | ⟨y, ys⟩
      · rw [show serF [Node.text s] = escT s from by simp [serF, serN],
          wsClean_escT true true s]
        rw [show editTopF [Node.text s] = if wsClean true true s = [] then []
          else [Node.text (wsClean true true s)] from by rw [editTopF.eq_def]]
        by_cases he : wsClean true true s = []
        · rw [if_pos he, he]
          simp [serF, escT]
        · rw [if_neg he]
          simp [serF, serN]
      · rw [← hxs0]
        have hxsne : xs ≠ [] := by rw [hxs0]; simp
        have hht : headTextB xs = false := by
          by_contra hcon
          simp only [Bool.not_eq_false] at hcon
          exact hadj ⟨by rw [hxt]; rfl, hcon⟩
        have hsf := serF_elem_head xs hxsne hht
        rw [show serF (Node.text s :: xs) = escT s ++ serF xs from by simp [serF, serN]]
        rw [wsClean_append_right_nonws true true (escT s) (serF xs) hsf.1
          (by rw [hsf.2]; decide)]
        rw [wsClean_escT true false s, wsClean_serF_last xs hxs, hxs0,
          editTopF_text_cons, serF_append]
        by_cases he : wsClean true false s = []
        · rw [if_pos he, he]
          simp [serF, escT, hxs0]
        · rw [if_neg he]
          simp [serF, serN, hxs0]
    · have hwf2 : WfF (Node.elem n a cs :: xs) := WfF.cons _ _ (hxt ▸ hx) hxs
        (by rw [← hxt]; intro hcon; exact hadj ⟨hcon.1, hcon.2⟩)
      have hhd : (serF (Node.elem n a cs :: xs)).headD 'x' = '<' :=
        (serF_elem_head (Node.elem n a cs :: xs) (by simp) (by rfl)).2
      rw [wsClean_head_nonws true true (serF (Node.elem n a cs :: xs))
        (Or.inr (by rw [hhd]; decide))]
      rw [wsClean_serF_last (Node.elem n a cs :: xs) hwf2]
      rw [editLast_eq_editTopF_elem]

/-! ## Lexical round trip: escaping then lexing recovers the data -/

theorem unesc_escT (s : Str) : unesc (escT s) = s := by
  induction s with
  | nil => rfl
  | cons c t ih =>
    by_cases h1 : c = '&'
    · subst h1
      have he : escT ('&' :: t) = '&' :: 'a' :: 'm' :: 'p' :: ';' :: escT t := by
        simp [escT]
      rw [he]
      have hu : unesc ('&' :: 'a' :: 'm' :: 'p' :: ';' :: escT t) =
          '&' :: unesc (escT t) := by simp [unesc]
      rw [hu, ih]
    by_cases h2 : c = '<'
    · subst h2
      have he : escT ('<' :: t) = '&' :: 'l' :: 't' :: ';' :: escT t := by simp [escT]
      have hu : unesc ('&' :: 'l' :: 't' :: ';' :: escT t) = '<' :: unesc (escT t) := by
        simp [unesc]
      rw [he, hu, ih]
    by_cases h3 : c = '>'
    · subst h3
      have he : escT ('>' :: t) = '&' :: 'g' :: 't' :: ';' :: escT t := by simp [escT]
      have hu : unesc ('&' :: 'g' :: 't' :: ';' :: escT t) = '>' :: unesc (escT t) := by
        simp [unesc]
      rw [he, hu, ih]
    · have he : escT (c :: t) = c :: escT t := by simp [escT, h1, h2, h3]
      have hu : unesc (c :: escT t) = c :: unesc (escT t) := by simp [unesc, h1]
      rw [he, hu, ih]

theorem unesc_escA (s : Str) : unesc (escA s) = s := by
  induction s with
  | nil => rfl
  | cons c t ih =>
    by_cases h1 : c = '&'
    · subst h1
      have he : escA ('&' :: t) = '&' :: 'a' :: 'm' :: 'p' :: ';' :: escA t := by
        simp [escA]
      have hu : unesc ('&' :: 'a' :: 'm' :: 'p' :: ';' :: escA t) =
          '&' :: unesc (escA t) := by simp [unesc]
      rw [he, hu, ih]
    by_cases h2 : c = '<'
    · subst h2
      have he : escA ('<' :: t) = '&' :: 'l' :: 't' :: ';' :: escA t := by simp [escA]
      have hu : unesc ('&' :: 'l' :: 't' :: ';' :: escA t) = '<' :: unesc (escA t) := by
        simp [unesc]
      rw [he, hu, ih]
    by_cases h3 : c = '>'
    · subst h3
      have he : escA ('>' :: t) = '&' :: 'g' :: 't' :: ';' :: escA t := by simp [escA]
      have hu : unesc ('&' :: 'g' :: 't' :: ';' :: escA t) = '>' :: unesc (escA t) := by
        simp [unesc]
      rw [he, hu, ih]
    by_cases h4 : c = '"'
    · subst h4
      have he : escA ('"' :: t) = '&' :: 'q' :: 'u' :: 'o' :: 't' :: ';' :: escA t := by
        simp [escA]
      have hu : unesc ('&' :: 'q' :: 'u' :: 'o' :: 't' :: ';' :: escA t) =
          '"' :: unesc (escA t) := by simp [unesc]
      rw [he, hu, ih]
    · have he : escA (c :: t) = c :: escA t := by simp [escA, h1, h2, h3, h4]
      have hu : unesc (c :: escA t) = c :: unesc (escA t) := by simp [unesc, h1]
      rw [he, hu, ih]

theorem escT_no_lt (s : Str) : ∀ c ∈ escT s, c ≠ '<' ∧ c ≠ '>' := by
  rw [escT_eq_flatMap]
  intro c hc
  obtain ⟨d, _, hd2⟩ := List.mem_flatMap.mp hc
  unfold encTc at hd2
  by_cases h1 : d = '&'
  · simp [h1] at hd2
    rcases hd2 with rfl | rfl | rfl | rfl | rfl <;> exact ⟨by decide, by decide⟩
  by_cases h2 : d = '<'
  · simp [h1, h2] at hd2
    rcases hd2 with rfl | rfl | rfl | rfl <;> exact ⟨by decide, by decide⟩
  by_cases h3 : d = '>'
  · simp [h1, h2, h3] at hd2
    rcases hd2 with rfl | rfl | rfl | rfl <;> exact ⟨by decide, by decide⟩
  · simp [h1, h2, h3] at hd2
    subst hd2
    exact ⟨h2, h3⟩

theorem escA_no_quote (s : Str) : ∀ c ∈ escA s, c ≠ '"' := by
  rw [escA_eq_flatMap]
  intro c hc
  obtain ⟨d, _, hd2⟩ := List.mem_flatMap.mp hc
  unfold encAc at hd2
  by_cases h1 : d = '&'
  · simp [h1] at hd2
    rcases hd2 with rfl | rfl | rfl | rfl | rfl <;> decide
  by_cases h2 : d = '<'
  · simp [h1, h2] at hd2
    rcases hd2 with rfl | rfl | rfl | rfl <;> decide
  by_cases h3 : d = '>'
  · simp [h1, h2, h3] at hd2
    rcases hd2 with rfl | rfl | rfl | rfl <;> decide
  by_cases h4 : d = '"'
  · simp [h1, h2, h3, h4] at hd2
    rcases hd2 with rfl | rfl | rfl | rfl | rfl | rfl <;> decide
  · simp [h1, h2, h3, h4] at hd2
    subst hd2
    exact h4

theorem map_toLower_id {k : Str} (h : ∀ c ∈ k, c.toLower = c) :
    k.map Char.toLower = k := by
  conv_rhs => rw [← List.map_id k]
  exact List.map_congr_left (fun c hc => by simpa using h c hc)

theorem lexAttrs_step (f : Nat) (k v W : Str) (acc : List (Str × Str))
    (hk : wfAttrKey k) :
    lexAttrs (f + 1) (' ' :: (k ++ '=' :: '"' :: (escA v ++ '"' :: W))) acc =
      lexAttrs f W (insertAttr acc k v) := by
  rcases hkd : k with _ | ⟨kc, k'⟩
  · exact absurd hkd hk.1
  subst hkd
  have hallk : ∀ c ∈ kc :: k', attrNameChar c = true := fun c hc => (hk.2 c hc).1
  have hkc : attrNameChar kc = true := hallk kc (List.mem_cons_self kc k')
  have hkcns : ¬ isWSc kc = true := attrNameChar_nonws hkc
  have hdrop : List.dropWhile isWSc
      (' ' :: ((kc :: k') ++ ('=' :: '"' :: (escA v ++ '"' :: W)))) =
      kc :: (k' ++ ('=' :: '"' :: (escA v ++ '"' :: W))) := by
    rw [List.cons_append, List.dropWhile_cons, List.dropWhile_cons]
    simp +decide [hkcns]
  simp only [lexAttrs]
  rw [hdrop]
  have htake : ((kc :: k') ++ ('=' :: '"' :: (escA v ++ '"' :: W))).takeWhile attrNameChar
      = kc :: k' := by
    have := (takeWhile_allp_append (kc :: k') ('=' :: '"' :: (escA v ++ '"' :: W)) hallk).1
    rw [this, List.takeWhile_cons]
    simp +decide
  have hmap : (kc :: k').map Char.toLower = kc :: k' :=
    map_toLower_id (fun c hc => (hk.2 c hc).2)
  have hdropk : ((kc :: k') ++ ('=' :: '"' :: (escA v ++ '"' :: W))).drop (kc :: k').length
      = '=' :: '"' :: (escA v ++ '"' :: W) := List.drop_left _ _
  have hd2 : List.dropWhile isWSc ('=' :: '"' :: (escA v ++ '"' :: W)) =
      '=' :: '"' :: (escA v ++ '"' :: W) := by
    rw [List.dropWhile_cons]; simp +decide
  have hd3 : List.dropWhile isWSc ('"' :: (escA v ++ '"' :: W)) =
      '"' :: (escA v ++ '"' :: W) := by
    rw [List.dropWhile_cons]; simp +decide
  have hallq : ∀ c ∈ escA v, (fun ch => decide (ch ≠ '"')) c = true := by
    intro c hc
    simp [escA_no_quote v c hc]
  have hvq := @takeWhile_allp_append (fun ch => decide (ch ≠ '"')) (escA v) ('"' :: W) hallq
  have hvq1 : (escA v ++ '"' :: W).takeWhile (fun ch => decide (ch ≠ '"')) = escA v := by
    rw [hvq.1, List.takeWhile_cons]
    simp
  have htake2 : List.takeWhile attrNameChar (kc :: (k' ++ '=' :: '"' :: (escA v ++ '"' :: W)))
      = kc :: k' := by rw [← List.cons_append]; exact htake
  have hdropk2 : List.drop (kc :: k').length (kc :: (k' ++ '=' :: '"' :: (escA v ++ '"' :: W)))
      = '=' :: '"' :: (escA v ++ '"' :: W) := by rw [← List.cons_append]; exact hdropk
  have hdq : (escA v ++ '"' :: W).drop (escA v).length = '"' :: W := List.drop_left _ _
  split
  · next x heq => simp at heq
  · next x r heq =>
    exact absurd hkc (by rw [(List.cons_eq_cons.mp heq).1]; decide)
  · next x r heq =>
    exact absurd hkc (by rw [(List.cons_eq_cons.mp heq).1]; decide)
  · next x r hne heq =>
    exact absurd hkc (by rw [(List.cons_eq_cons.mp heq).1]; decide)
  · next x r heq =>
    exact absurd hkc (by rw [(List.cons_eq_cons.mp heq).1]; decide)
  · next x c r h1 h2 h3 h4 heq =>
    obtain ⟨rfl, rfl⟩ := List.cons_eq_cons.mp heq
    simp only [htake2, hmap, hdropk2, hd2, hd3, hvq1, hdq, List.tail_cons, unesc_escA]
    rfl

theorem lexAttrs_serAttrs :
    ∀ (a : List (Str × Str)), (∀ p ∈ a, wfAttrKey p.1) →
      ∀ (acc : List (Str × Str)) (self : Bool) (rest : Str) (f : Nat),
        a.length + 1 ≤ f →
        lexAttrs f (serAttrs a ++ (if self then '/' :: '>' :: rest else '>' :: rest)) acc =
          (pushAttrs acc a, self, rest) := by
  intro a
  induction a with
  | nil =>
    intro _ acc self rest f hf
    obtain ⟨f', rfl⟩ : ∃ f', f = f' + 1 := ⟨f - 1, by omega⟩
    cases self
    · simp +decide [serAttrs, lexAttrs, pushAttrs]
    · simp +decide [serAttrs, lexAttrs, pushAttrs]
  | cons p a' ih =>
    intro ha acc self rest f hf
    obtain ⟨f', rfl⟩ : ∃ f', f = f' + 1 := ⟨f - 1, by omega⟩
    have hk := ha p (List.mem_cons_self p a')
    have ha' : ∀ q ∈ a', wfAttrKey q.1 := fun q hq => ha q (List.mem_cons_of_mem p hq)
    have hf' : a'.length + 1 ≤ f' := by
      simp only [List.length_cons] at hf; omega
    have hser : serAttrs (p :: a') ++ (if self then '/' :: '>' :: rest else '>' :: rest) =
        ' ' :: (p.1 ++ '=' :: '"' :: (escA p.2 ++ '"' :: (serAttrs a' ++
          (if self then '/' :: '>' :: rest else '>' :: rest)))) := by
      simp [serAttrs, List.flatMap_cons]
    rw [hser, lexAttrs_step f' p.1 p.2 _ acc hk, ih ha' _ self rest f' hf']
    rfl
theorem insertAttr_fresh (acc : List (Str × Str)) (k v : Str)
    (h : ∀ p ∈ acc, p.1 ≠ k) : insertAttr acc k v = acc ++ [(k, v)] := by
  have hfind : acc.find? (fun p => p.1 = k) = none :=
    List.find?_eq_none.mpr (fun p hp => by simp [h p hp])
  simp [insertAttr, hfind]

theorem pushAttrs_fresh :
    ∀ (a acc : List (Str × Str)), (a.map Prod.fst).Nodup →
      (∀ p ∈ acc, ∀ q ∈ a, p.1 ≠ q.1) →
      pushAttrs acc a = acc ++ a := by
  intro a
  induction a with
  | nil => intro acc _ _; simp [pushAttrs]
  | cons p a' ih =>
    intro acc hnd hdisj
    have hnd2 : (p.1 :: a'.map Prod.fst).Nodup := by
      rw [List.map_cons] at hnd; exact hnd
    have hnd' := List.nodup_cons.mp hnd2
    have h1 : ∀ q ∈ acc, q.1 ≠ p.1 :=
      fun q hq => hdisj q hq p (List.mem_cons_self p a')
    have hstep : pushAttrs acc (p :: a') = pushAttrs (acc ++ [(p.1, p.2)]) a' := by
      rw [show pushAttrs acc (p :: a') = pushAttrs (insertAttr acc p.1 p.2) a' from rfl,
        insertAttr_fresh acc p.1 p.2 h1]
    rw [hstep, ih (acc ++ [(p.1, p.2)]) hnd'.2 ?_]
    · simp
    · intro q hq r hr
      rcases List.mem_append.mp hq with hq | hq
      · exact hdisj q hq r (List.mem_cons_of_mem p hr)
      · have hq' : q = (p.1, p.2) := by simpa using hq
        subst hq'
        intro hc
        exact hnd'.1 (hc ▸ List.mem_map_of_mem Prod.fst hr)

theorem pushAttrs_nil (a : List (Str × Str)) (h : (a.map Prod.fst).Nodup) :
    pushAttrs [] a = a := by
  rw [pushAttrs_fresh a [] h (fun p hp => by simp at hp)]
  simp

theorem lexToks_text_step (f : Nat) (s rest : Str) (hs : s ≠ [])
    (hrest : rest = [] ∨ rest.headD 'x' = '<') :
    lexToks (f + 1) (escT s ++ rest) = Tok.textT s :: lexToks f rest := by
  rcases hesc : escT s with _ | ⟨c, t⟩
  · exact absurd hesc (escT_ne_nil hs)
  have hcmem : c ∈ escT s := by rw [hesc]; exact List.mem_cons_self c t
  have hclt : c ≠ '<' := (escT_no_lt s c hcmem).1
  rw [List.cons_append, lexToks.eq_def]
  split
  · next heq => exact absurd heq (by omega)
  · next _ heq => simp at heq
  · next heq1 heq => exact absurd (List.cons_eq_cons.mp heq).1 hclt
  · next fuel cc cs hne heq1 heq =>
    obtain ⟨rfl, rfl⟩ := List.cons_eq_cons.mp heq
    obtain rfl : fuel = f := by omega
    have hall : ∀ ch ∈ escT s, (fun ch => decide (ch ≠ '<')) ch = true :=
      fun ch hch => by simp [(escT_no_lt s ch hch).1]
    have hrt : rest.takeWhile (fun ch => decide (ch ≠ '<')) = [] := by
      rcases hrest with rfl | h
      · rfl
      · rcases rest with _ | ⟨d, ds⟩
        · rfl
        · simp only [List.headD_cons] at h
          subst h
          simp [List.takeWhile_cons]
    have htake : (escT s ++ rest).takeWhile (fun ch => decide (ch ≠ '<')) = escT s := by
      rw [(@takeWhile_allp_append (fun ch => decide (ch ≠ '<')) (escT s) rest hall).1, hrt]
      simp
    have hform : c :: (t ++ rest) = escT s ++ rest := by rw [hesc, List.cons_append]
    rw [hform]
    simp only [htake, unesc_escT, List.drop_left]
theorem lexToks_close_step (f : Nat) (n rest : Str) (hn : wfName n) :
    lexToks (f + 1) ('<' :: ('/' :: (n ++ '>' :: rest))) = Tok.closeT n :: lexToks f rest := by
  rcases hnd : n with _ | ⟨nc, n'⟩
  · exact absurd hnd hn.1
  subst hnd
  have halln : ∀ c ∈ nc :: n', tagNameChar c = true := fun c hc => (hn.2.2 c hc).1
  have hmap : (nc :: n').map Char.toLower = nc :: n' :=
    map_toLower_id (fun c hc => (hn.2.2 c hc).2)
  have halpha : nc.isAlpha = true := by
    have := hn.2.1
    simpa using this
  rw [lexToks.eq_def]
  split
  · next heq => exact absurd heq (by omega)
  · next _ heq => simp at heq
  · next fuel r1 heq1 heq =>
    obtain ⟨-, rfl⟩ := List.cons_eq_cons.mp heq
    obtain rfl : fuel = f := by omega
    split
    · next heq2 => simp at heq2
    · next r2 heq2 =>
      obtain ⟨-, rfl⟩ := List.cons_eq_cons.mp heq2
      rw [if_pos (by simpa using halpha)]
      have htake : ((nc :: n') ++ '>' :: rest).takeWhile tagNameChar = nc :: n' := by
        rw [(takeWhile_allp_append (nc :: n') ('>' :: rest) halln).1, List.takeWhile_cons]
        simp +decide
      have hdropn : ((nc :: n') ++ '>' :: rest).drop (nc :: n').length = '>' :: rest :=
        List.drop_left _ _
      have hdw : List.dropWhile (fun c => decide (c ≠ '>')) ('>' :: rest) = '>' :: rest := by
        rw [List.dropWhile_cons]; simp
      simp only [htake, hmap, hdropn, hdw, List.drop_one, List.tail_cons]
    · next r2 heq2 => exact absurd (List.cons_eq_cons.mp heq2).1 (by decide)
    · next hs hb heq2 =>
      exact (hs (List.cons_eq_cons.mp heq2).1.symm).elim
  · next fuel cc cs hne heq1 heq =>
    exfalso
    exact hne (List.cons_eq_cons.mp heq).1.symm
theorem lexToks_open_step (f : Nat) (n : Str) (a : List (Str × Str)) (self : Bool) (rest : Str)
    (hn : wfName n) (ha : wfAttrs a) (hf : a.length + 1 ≤ f) :
    lexToks (f + 1)
        ('<' :: (n ++ (serAttrs a ++ (if self then '/' :: '>' :: rest else '>' :: rest))))
      = Tok.openT n a self :: lexToks f rest := by
  rcases hnd : n with _ | ⟨nc, n'⟩
  · exact absurd hnd hn.1
  subst hnd
  have halln : ∀ c ∈ nc :: n', tagNameChar c = true := fun c hc => (hn.2.2 c hc).1
  have hmap : (nc :: n').map Char.toLower = nc :: n' :=
    map_toLower_id (fun c hc => (hn.2.2 c hc).2)
  have halpha : nc.isAlpha = true := by
    have := hn.2.1
    simpa using this
  have hslash : nc ≠ '/' := by
    intro h; rw [h] at halpha; exact absurd halpha (by decide)
  have hbang : nc ≠ '!' := by
    intro h; rw [h] at halpha; exact absurd halpha (by decide)
  have hzne : serAttrs a ++ (if self then '/' :: '>' :: rest else '>' :: rest) ≠ [] := by
    rcases a with _ | ⟨p, a''⟩
    · cases self <;> simp [serAttrs]
    · cases self <;> simp [serAttrs, List.flatMap_cons]
  have hzhead : ¬ tagNameChar
      ((serAttrs a ++ (if self then '/' :: '>' :: rest else '>' :: rest)).headD 'x') = true := by
    rcases a with _ | ⟨p, a''⟩
    · cases self <;> simp +decide [serAttrs]
    · cases self <;> simp +decide [serAttrs, List.flatMap_cons]
  have htail := takeWhile_nonws_head
    (serAttrs a ++ (if self then '/' :: '>' :: rest else '>' :: rest)) hzne hzhead
  have htake : ((nc :: n') ++ (serAttrs a ++
      (if self then '/' :: '>' :: rest else '>' :: rest))).takeWhile tagNameChar
      = nc :: n' := by
    rw [(takeWhile_allp_append (nc :: n') _ halln).1, htail.1]
    simp
  have htake2 : (nc :: (n' ++ (serAttrs a ++
      (if self then '/' :: '>' :: rest else '>' :: rest)))).takeWhile tagNameChar
      = nc :: n' := by
    rw [← List.cons_append]; exact htake
  have hdropn2 : List.drop (nc :: n').length (nc :: (n' ++ (serAttrs a ++
      (if self then '/' :: '>' :: rest else '>' :: rest))))
      = serAttrs a ++ (if self then '/' :: '>' :: rest else '>' :: rest) := by
    rw [← List.cons_append]; exact List.drop_left _ _
  rw [List.cons_append, lexToks.eq_def]
  split
  · next heq => exact absurd heq (by omega)
  · next _ heq => simp at heq
  · next fuel r1 heq1 heq =>
    obtain ⟨-, rfl⟩ := List.cons_eq_cons.mp heq
    obtain rfl : fuel = f := by omega
    split
    · next heq2 => simp at heq2
    · next r2 heq2 =>
      exact absurd (List.cons_eq_cons.mp heq2).1 hslash
    · next r2 heq2 =>
      exact absurd (List.cons_eq_cons.mp heq2).1 hbang
    · next hs hb heq2 =>
      obtain ⟨rfl, rfl⟩ := List.cons_eq_cons.mp heq2
      rw [if_pos halpha]
      have hlex := lexAttrs_serAttrs a ha.2 [] self rest fuel hf
      simp only [htake2, hmap, hdropn2, hlex, pushAttrs_nil a ha.1]
  · next fuel cc cs hne heq1 heq =>
    exact (hne (List.cons_eq_cons.mp heq).1.symm).elim
theorem serAttrs_len (a : List (Str × Str)) : a.length ≤ (serAttrs a).length := by
  induction a with
  | nil => simp [serAttrs]
  | cons p a' ih =>
    simp only [serAttrs, List.flatMap_cons, List.length_append, List.length_cons,
      List.cons_append, List.length_append] at ih ⊢
    omega

theorem detokL_head_lt (u : Tok) (us : List Tok) (hu : isTextTok u = false) :
    (detokL (u :: us)).headD 'x' = '<' := by
  rcases u with s | ⟨n, a, self⟩ | n
  · simp [isTextTok] at hu
  · cases self <;> simp [detokL, renderTok, List.flatMap_cons]
  · simp [detokL, renderTok, List.flatMap_cons]

theorem lexToks_detokL :
    ∀ (ts : List Tok), WfToks ts → ∀ f : Nat, (detokL ts).length + 1 ≤ f →
      lexToks f (detokL ts) = ts := by
  intro ts
  induction ts with
  | nil =>
    intro _ f hf
    obtain ⟨f', rfl⟩ : ∃ f', f = f' + 1 := ⟨f - 1, by omega⟩
    rfl
  | cons t ts' ih =>
    intro hwf f hf
    obtain ⟨f', rfl⟩ : ∃ f', f = f' + 1 := ⟨f - 1, by omega⟩
    have hwt : WfTok t := hwf.1 t (List.mem_cons_self t ts')
    have hwf' : WfToks ts' :=
      ⟨fun u hu => hwf.1 u (List.mem_cons_of_mem t hu), hwf.2.tail⟩
    rcases t with s | ⟨n, a, self⟩ | n
    · have hs : s ≠ [] := hwt
      have hrest : detokL ts' = [] ∨ (detokL ts').headD 'x' = '<' := by
        rcases hts : ts' with _ | ⟨u, us⟩
        · left; rfl
        · right
          have hch := hwf.2
          rw [hts] at hch
          have hut : isTextTok u = false := by
            rcases List.chain'_cons.mp hch with ⟨h1, -⟩
            rcases u with s2 | _ | _
            · exact absurd ⟨rfl, rfl⟩ h1
            · rfl
            · rfl
          exact detokL_head_lt u us hut
      have hform : detokL (Tok.textT s :: ts') = escT s ++ detokL ts' := by
        simp [detokL, renderTok, List.flatMap_cons]
      have hlen : (detokL (Tok.textT s :: ts')).length
          = (escT s).length + (detokL ts').length := by
        rw [hform, List.length_append]
      have hepos : 1 ≤ (escT s).length :=
        List.length_pos.mpr (escT_ne_nil hs)
      rw [hform, lexToks_text_step f' s (detokL ts') hs hrest,
        ih hwf' f' (by rw [hlen] at hf; omega)]
    · have hform : detokL (Tok.openT n a self :: ts')
          = '<' :: (n ++ (serAttrs a ++
              (if self then '/' :: '>' :: detokL ts' else '>' :: detokL ts'))) := by
        cases self <;>
          simp [detokL, renderTok, List.flatMap_cons, List.append_assoc]
      have hrl : a.length + 2 ≤ (renderTok (Tok.openT n a self)).length := by
        have hna : 1 ≤ n.length := List.length_pos.mpr hwt.1.1
        have hsa := serAttrs_len a
        cases self <;>
          simp only [renderTok, if_pos, if_neg, Bool.false_eq_true, not_false_iff,
            List.length_cons, List.length_append] <;> omega
      have hlen : (detokL (Tok.openT n a self :: ts')).length
          = (renderTok (Tok.openT n a self)).length + (detokL ts').length := by
        simp [detokL, List.flatMap_cons]
      rw [hform, lexToks_open_step f' n a self (detokL ts') hwt.1 hwt.2
          (by rw [hlen] at hf; omega),
        ih hwf' f' (by rw [hlen] at hf; omega)]
    · have hform : detokL (Tok.closeT n :: ts')
          = '<' :: ('/' :: (n ++ '>' :: detokL ts')) := by
        simp [detokL, renderTok, List.flatMap_cons, List.append_assoc]
      have hlen : (detokL (Tok.closeT n :: ts')).length
          = (renderTok (Tok.closeT n)).length + (detokL ts').length := by
        simp [detokL, List.flatMap_cons]
      have hrl : 1 ≤ (renderTok (Tok.closeT n)).length := by
        simp [renderTok]
      rw [hform, lexToks_close_step f' n (detokL ts') hwt,
        ih hwf' f' (by rw [hlen] at hf; omega)]
theorem mergeToks_id :
    ∀ ts : List Tok,
      List.Chain' (fun t1 t2 => ¬ (isTextTok t1 = true ∧ isTextTok t2 = true)) ts →
      mergeToks ts = ts := by
  intro ts
  induction ts with
  | nil => intro _; rfl
  | cons t r ih =>
    intro hch
    have hr := ih hch.tail
    rcases t with s | ⟨n, a, self⟩ | n
    · rw [show mergeToks (Tok.textT s :: r) = (match mergeToks r with
        | Tok.textT b :: r2 => Tok.textT (s ++ b) :: r2
        | r2 => Tok.textT s :: r2) from rfl, hr]
      rcases hr2 : r with _ | ⟨u, us⟩
      · rfl
      · have h1 := (List.chain'_cons.mp (hr2 ▸ hch)).1
        rcases u with s2 | _ | _
        · exact absurd ⟨rfl, rfl⟩ h1
        · rfl
        · rfl
    · simp [mergeToks, hr]
    · simp [mergeToks, hr]

theorem serN_detok :
    (∀ x : Node, serN x = detokL (toksN x)) ∧
      (∀ f : List Node, serF f = detokL (toksF f)) := by
  refine nodeForestInd (fun x => serN x = detokL (toksN x))
    (fun f => serF f = detokL (toksF f)) ?_ ?_ ?_ ?_
  · intro s
    simp [serN, toksN, detokL, renderTok, List.flatMap_cons]
  · intro n a cs ih
    by_cases hv : n ∈ voidNames
    · simp [serN, toksN, detokL, renderTok, List.flatMap_cons, hv]
    · simp [serN, toksN, detokL, renderTok, List.flatMap_cons, hv, ih,
        List.append_assoc]
  · rfl
  · intro x xs ihx ihxs
    simp [serF, toksF, detokL, List.flatMap_append, ihx, ihxs]
theorem toksN_elem_last_not_text (n : Str) (a : List (Str × Str)) (cs : List Node) :
    ∀ t ∈ (toksN (Node.elem n a cs)).getLast?, isTextTok t = false := by
  intro t ht
  by_cases hv : n ∈ voidNames
  · simp [toksN, hv] at ht
    rw [← ht]; rfl
  · rw [show toksN (Node.elem n a cs)
        = Tok.openT n a false :: (toksF cs ++ [Tok.closeT n]) from by
      simp [toksN, hv]] at ht
    rw [← List.cons_append, List.getLast?_concat] at ht
    simp only [Option.mem_def, Option.some.injEq] at ht
    rw [← ht]; rfl

theorem toksF_head_not_text (xs : List Node) (h : headTextB xs = false) :
    ∀ t ∈ (toksF xs).head?, isTextTok t = false := by
  intro t ht
  rcases xs with _ | ⟨y, ys⟩
  · simp [toksF] at ht
  · rcases y with s | ⟨n, a, cs⟩
    · simp [headTextB] at h
    · by_cases hv : n ∈ voidNames
      · simp [toksF, toksN, hv] at ht
        rw [← ht]; rfl
      · simp [toksF, toksN, hv] at ht
        rw [← ht]; rfl

theorem wfToks_toks :
    (∀ x : Node, WfN x → WfToks (toksN x)) ∧
      (∀ f : List Node, WfF f → WfToks (toksF f)) := by
  refine nodeForestInd (fun x => WfN x → WfToks (toksN x))
    (fun f => WfF f → WfToks (toksF f)) ?_ ?_ ?_ ?_
  · intro s hw
    cases hw with
    | text _ h =>
      refine ⟨fun t ht => ?_, by simp [toksN]⟩
      simp [toksN] at ht
      rw [ht]; exact h
  · intro n a cs ih hw
    cases hw with
    | elem _ _ _ hn ha hv hcs =>
      have ihcs := ih hcs
      by_cases hvn : n ∈ voidNames
      · refine ⟨fun t ht => ?_, by simp [toksN, hvn]⟩
        simp [toksN, hvn] at ht
        rw [ht]; exact ⟨hn, ha⟩
      · have hshape : toksN (Node.elem n a cs)
            = Tok.openT n a false :: (toksF cs ++ [Tok.closeT n]) := by
          simp [toksN, hvn]
        refine ⟨fun t ht => ?_, ?_⟩
        · rw [hshape] at ht
          rcases List.mem_cons.mp ht with ht | ht
          · rw [ht]; exact ⟨hn, ha⟩
          · rcases List.mem_append.mp ht with ht | ht
            · exact ihcs.1 t ht
            · have : t = Tok.closeT n := by simpa using ht
              rw [this]; exact hn
        · rw [hshape, List.chain'_cons']
          refine ⟨fun u _ hc => by simp [isTextTok] at hc, ?_⟩
          rw [List.chain'_append]
          refine ⟨ihcs.2, List.chain'_singleton _, ?_⟩
          intro t1 _ t2 ht2 hc
          have h3 : Tok.closeT n = t2 := by simpa using ht2
          rw [← h3] at hc
          simp [isTextTok] at hc
  · intro _
    exact ⟨fun t ht => by simp [toksF] at ht, by simp [toksF]⟩
  · intro x xs ihx ihxs hw
    cases hw with
    | cons _ _ hx hxs hadj =>
      have h1 := ihx hx
      have h2 := ihxs hxs
      refine ⟨fun t ht => ?_, ?_⟩
      · rw [show toksF (x :: xs) = toksN x ++ toksF xs from rfl] at ht
        rcases List.mem_append.mp ht with ht | ht
        · exact h1.1 t ht
        · exact h2.1 t ht
      · rw [show toksF (x :: xs) = toksN x ++ toksF xs from rfl, List.chain'_append]
        refine ⟨h1.2, h2.2, ?_⟩
        intro t1 ht1 t2 ht2 hc
        rcases x with s | ⟨n, a, cs⟩
        · have hxs_head : headTextB xs = false := by
            by_cases hh : headTextB xs = true
            · exact absurd ⟨rfl, hh⟩ hadj
            · simpa using hh
          have hnt := toksF_head_not_text xs hxs_head t2 ht2
          rw [hnt] at hc
          exact absurd hc.2 (by simp)
        · have hnt := toksN_elem_last_not_text n a cs t1 ht1
          rw [hnt] at hc
          exact absurd hc.1 (by simp)
theorem tokenize_serF (f : List Node) (hw : WfF f) : tokenize (serF f) = toksF f := by
  have hts := wfToks_toks.2 f hw
  rw [show serF f = detokL (toksF f) from serN_detok.2 f]
  unfold tokenize
  rw [lexToks_detokL (toksF f) hts ((detokL (toksF f)).length + 1) (by omega)]
  exact mergeToks_id _ hts.2

theorem buildF_toks :
    (∀ x : Node, WfN x → ∀ r st acc,
        buildF (toksN x ++ r) st acc = buildF r st (x :: acc)) ∧
      (∀ f : List Node, WfF f → ∀ r st acc,
        buildF (toksF f ++ r) st acc = buildF r st (f.reverse ++ acc)) := by
  refine nodeForestInd
    (fun x => WfN x → ∀ r st acc, buildF (toksN x ++ r) st acc = buildF r st (x :: acc))
    (fun f => WfF f → ∀ r st acc,
      buildF (toksF f ++ r) st acc = buildF r st (f.reverse ++ acc)) ?_ ?_ ?_ ?_
  · intro s _ r st acc
    simp [toksN, List.cons_append, buildF]
  · intro n a cs ih hw r st acc
    cases hw with
    | elem _ _ _ hn ha hv hcs =>
      by_cases hvn : n ∈ voidNames
      · have hcs0 : cs = [] := hv hvn
        subst hcs0
        simp [toksN, hvn, List.cons_append, buildF]
      · have hshape : toksN (Node.elem n a cs)
            = Tok.openT n a false :: (toksF cs ++ [Tok.closeT n]) := by
          simp [toksN, hvn]
        rw [hshape, List.cons_append,
          show buildF (Tok.openT n a false :: ((toksF cs ++ [Tok.closeT n]) ++ r)) st acc
            = buildF ((toksF cs ++ [Tok.closeT n]) ++ r) ((n, a, acc) :: st) [] from by
          simp [buildF, hvn]]
        rw [List.append_assoc, List.singleton_append,
          ih hcs (Tok.closeT n :: r) ((n, a, acc) :: st) []]
        have hstack : stackHas n ((n, a, acc) :: st) = true := by simp [stackHas]
        simp [buildF, hstack, closeUp]
  · intro _ r st acc
    simp [toksF]
  · intro x xs ihx ihxs hw r st acc
    cases hw with
    | cons _ _ hx hxs _ =>
      rw [show toksF (x :: xs) = toksN x ++ toksF xs from rfl, List.append_assoc,
        ihx hx _ st acc, ihxs hxs r st (x :: acc)]
      simp

theorem parseHTML_serF (f : List Node) (hw : WfF f) : parseHTML (serF f) = f := by
  unfold parseHTML
  rw [tokenize_serF f hw]
  have := buildF_toks.2 f hw [] [] []
  rw [List.append_nil] at this
  rw [this]
  simp [buildF, flushAll]
theorem toLower_if (c : Char) : c.toLower =
    if 65 ≤ c.toNat ∧ c.toNat ≤ 90 then Char.ofNat (c.toNat + 32) else c := rfl

theorem toLower_eq_self (c : Char) (h : ¬ (65 ≤ c.toNat ∧ c.toNat ≤ 90)) :
    c.toLower = c := by
  rw [toLower_if, if_neg h]

theorem toLower_eq_ofNat (c : Char) (h : 65 ≤ c.toNat ∧ c.toNat ≤ 90) :
    c.toLower = Char.ofNat (c.toNat + 32) := by
  rw [toLower_if, if_pos h]

theorem toLower_bundle (c : Char) :
    c.toLower.toLower = c.toLower ∧
    (tagNameChar c = true → tagNameChar c.toLower = true) ∧
    (attrNameChar c = true → attrNameChar c.toLower = true) ∧
    (c.isAlpha = true → c.toLower.isAlpha = true) := by
  by_cases h : 65 ≤ c.toNat ∧ c.toNat ≤ 90
  · rw [toLower_eq_ofNat c h]
    obtain ⟨m, hm⟩ : ∃ m, c.toNat = m := ⟨_, rfl⟩
    rw [hm]
    have h1 : 65 ≤ m := hm ▸ h.1
    have h2 : m ≤ 90 := hm ▸ h.2
    interval_cases m <;>
      exact ⟨by decide, fun _ => by decide, fun _ => by decide, fun _ => by decide⟩
  · rw [toLower_eq_self c h]
    exact ⟨toLower_eq_self c h, fun hh => hh, fun hh => hh, fun hh => hh⟩

theorem alpha_ranges (c : Char) (h : c.isAlpha = true) :
    (65 ≤ c.toNat ∧ c.toNat ≤ 90) ∨ (97 ≤ c.toNat ∧ c.toNat ≤ 122) := by
  unfold Char.isAlpha Char.isUpper Char.isLower at h
  simp only [Bool.or_eq_true, Bool.and_eq_true, decide_eq_true_eq] at h
  exact h

theorem attrNameChar_of_alpha (c : Char) (h : c.isAlpha = true) :
    attrNameChar c = true := by
  have hr := alpha_ranges c h
  have hne : ∀ (d : Char) (k : Nat), d.toNat = k → c.toNat ≠ k → (c = d) = False :=
    fun d k hdk hck => eq_false (fun he => hck (by rw [he]; exact hdk))
  have e1 := hne ' ' 32 (by decide) (by rcases hr with ⟨h1, h2⟩ | ⟨h1, h2⟩ <;> omega)
  have e2 := hne '\t' 9 (by decide) (by rcases hr with ⟨h1, h2⟩ | ⟨h1, h2⟩ <;> omega)
  have e3 := hne '\n' 10 (by decide) (by rcases hr with ⟨h1, h2⟩ | ⟨h1, h2⟩ <;> omega)
  have e4 := hne '\r' 13 (by decide) (by rcases hr with ⟨h1, h2⟩ | ⟨h1, h2⟩ <;> omega)
  have e5 := hne '\x0b' 11 (by decide) (by rcases hr with ⟨h1, h2⟩ | ⟨h1, h2⟩ <;> omega)
  have e6 := hne '\x0c' 12 (by decide) (by rcases hr with ⟨h1, h2⟩ | ⟨h1, h2⟩ <;> omega)
  have e7 := hne '/' 47 (by decide) (by rcases hr with ⟨h1, h2⟩ | ⟨h1, h2⟩ <;> omega)
  have e8 := hne '>' 62 (by decide) (by rcases hr with ⟨h1, h2⟩ | ⟨h1, h2⟩ <;> omega)
  have e9 := hne '=' 61 (by decide) (by rcases hr with ⟨h1, h2⟩ | ⟨h1, h2⟩ <;> omega)
  simp [attrNameChar, isWSc, isNLc, e1, e2, e3, e4, e5, e6, e7, e8, e9]

theorem tagNameChar_of_attr (c : Char) (h : attrNameChar c = true) :
    tagNameChar c = true := by
  unfold attrNameChar at h
  simp only [Bool.and_eq_true] at h
  unfold tagNameChar
  simp [h.1.1.1, h.1.1.2, h.1.2]

theorem tagNameChar_of_alpha (c : Char) (h : c.isAlpha = true) :
    tagNameChar c = true :=
  tagNameChar_of_attr c (attrNameChar_of_alpha c h)
theorem wf0F_iff_forall : ∀ f : List Node, Wf0F f ↔ ∀ x ∈ f, Wf0N x := by
  intro f
  induction f with
  | nil => exact ⟨fun _ x hx => by simp at hx, fun _ => Wf0F.nil⟩
  | cons y ys ih =>
    constructor
    · intro h x hx
      cases h with
      | cons _ _ hy hys =>
        rcases List.mem_cons.mp hx with rfl | hx
        · exact hy
        · exact (ih.mp hys) x hx
    · intro h
      exact Wf0F.cons y ys (h y (List.mem_cons_self y ys))
        (ih.mpr (fun x hx => h x (List.mem_cons_of_mem y hx)))

theorem unesc_ne_nil : ∀ s : Str, s ≠ [] → unesc s ≠ [] := by
  intro s hs
  rcases s with _ | ⟨c, t⟩
  · exact absurd rfl hs
  rw [unesc.eq_def]
  split <;> simp_all

theorem insertAttr_wf (acc : List (Str × Str)) (k v : Str)
    (h : wfAttrs acc) (hk : wfAttrKey k) : wfAttrs (insertAttr acc k v) := by
  unfold insertAttr
  split
  · next hfind =>
    constructor
    · have hmap : (acc.map (fun p => if p.1 = k then (k, v) else p)).map Prod.fst
          = acc.map Prod.fst := by
        rw [List.map_map]
        refine List.map_congr_left (fun p _ => ?_)
        by_cases hp : p.1 = k
        · simp [hp]
        · simp [hp]
      rw [hmap]
      exact h.1
    · intro p hp
      rcases List.mem_map.mp hp with ⟨q, hq, hqe⟩
      by_cases hqk : q.1 = k
      · rw [← hqe]; simp only [hqk, if_pos]; exact hk
      · rw [← hqe]; simp only [hqk, if_neg, not_false_iff]
        exact h.2 q hq
  · next hfind =>
    have hknot : k ∉ acc.map Prod.fst := by
      intro hmem
      rcases List.mem_map.mp hmem with ⟨q, hq, hqe⟩
      have := List.find?_eq_none.mp (Option.not_isSome_iff_eq_none.mp hfind) q hq
      simp [hqe] at this
    constructor
    · rw [List.map_append]
      simp only [List.map_cons, List.map_nil]
      rw [List.nodup_append]
      exact ⟨h.1, List.nodup_singleton k, by simpa using hknot⟩
    · intro p hp
      rcases List.mem_append.mp hp with hp | hp
      · exact h.2 p hp
      · have : p = (k, v) := by simpa using hp
        rw [this]; exact hk
theorem wfAttrKey_lexed (c : Char) (r : Str) (hc : attrNameChar c = true) :
    wfAttrKey (((c :: r).takeWhile attrNameChar).map Char.toLower) := by
  constructor
  · simp [List.takeWhile_cons, hc]
  · intro x hx
    rcases List.mem_map.mp hx with ⟨y, hy, rfl⟩
    have hya : attrNameChar y = true := List.mem_takeWhile_imp hy
    exact ⟨(toLower_bundle y).2.2.1 hya, (toLower_bundle y).1⟩

theorem wfName_lexed (c : Char) (r : Str) (hc : c.isAlpha = true) :
    wfName (((c :: r).takeWhile tagNameChar).map Char.toLower) := by
  have hct : tagNameChar c = true := tagNameChar_of_alpha c hc
  refine ⟨by simp [List.takeWhile_cons, hct], ?_, ?_⟩
  · simp [List.takeWhile_cons, hct, (toLower_bundle c).2.2.2 hc]
  · intro x hx
    rcases List.mem_map.mp hx with ⟨y, hy, rfl⟩
    have hyt : tagNameChar y = true := List.mem_takeWhile_imp hy
    exact ⟨(toLower_bundle y).2.1 hyt, (toLower_bundle y).1⟩

theorem lexAttrs_wf : ∀ (fuel : Nat) (s : Str) (acc : List (Str × Str)),
    wfAttrs acc → wfAttrs (lexAttrs fuel s acc).1 := by
  intro fuel
  induction fuel with
  | zero => intro s acc h; exact h
  | succ f ih =>
    intro s acc h
    simp only [lexAttrs]
    split
    · exact h
    · exact h
    · exact h
    · exact ih _ _ h
    · exact ih _ _ h
    · next c r hne1 hne2 hne3 hne4 heq =>
      have hcws : ¬ isWSc c = true := dropWhile_head_not s c r heq
      have hca : attrNameChar c = true := by
        have e1 : (c = '>') = False := eq_false (fun hh => hne1 hh)
        have e2 : (c = '/') = False := eq_false (fun hh => hne3 hh)
        have e3 : (c = '=') = False := eq_false (fun hh => hne4 hh)
        unfold attrNameChar
        simp [hcws, e1, e2, e3]
      split
      · split
        · exact ih _ _ (insertAttr_wf _ _ _ h (wfAttrKey_lexed c r hca))
        · exact ih _ _ (insertAttr_wf _ _ _ h (wfAttrKey_lexed c r hca))
        · exact ih _ _ (insertAttr_wf _ _ _ h (wfAttrKey_lexed c r hca))
      · exact ih _ _ (insertAttr_wf _ _ _ h (wfAttrKey_lexed c r hca))
theorem wfAttrs_nil : wfAttrs ([] : List (Str × Str)) :=
  ⟨by simp, by intro p hp; simp at hp⟩

theorem lexToks_wf : ∀ (fuel : Nat) (s : Str) (t : Tok), t ∈ lexToks fuel s → WfTok t := by
  intro fuel
  induction fuel with
  | zero => intro s t ht; simp [lexToks] at ht
  | succ f ih =>
    intro s t ht
    rcases s with _ | ⟨c, cs⟩
    · simp [lexToks] at ht
    rw [lexToks.eq_def] at ht
    split at ht
    · next heq => exact absurd heq (by omega)
    · next heq => simp at heq
    · next fuel2 rest heq1 heq =>
      obtain ⟨rfl, rfl⟩ := List.cons_eq_cons.mp heq
      obtain rfl : fuel2 = f := by omega
      split at ht
      · simp at ht
        rw [ht]
        simp [WfTok]
      · next r2 =>
        split at ht
        · next halpha =>
          rcases hr2 : r2 with _ | ⟨d, r3⟩
          · rw [hr2] at halpha
            simp at halpha
          · rw [hr2] at ht
            rcases List.mem_cons.mp ht with rfl | ht
            · exact wfName_lexed d r3 (by rw [hr2] at halpha; simpa using halpha)
            · exact ih _ t ht
        · exact ih _ t ht
      · exact ih _ t ht
      · next c2 r2 hs2 hb2 =>
        split at ht
        · next halpha =>
          rcases List.mem_cons.mp ht with rfl | ht
          · exact ⟨wfName_lexed c2 r2 halpha, lexAttrs_wf _ _ [] wfAttrs_nil⟩
          · exact ih _ t ht
        · rcases List.mem_cons.mp ht with rfl | ht
          · simp [WfTok]
          · exact ih _ t ht
    · next fuel2 cc2 ccs2 hne heq1 heq =>
      obtain rfl : fuel2 = f := by omega
      obtain ⟨rfl, rfl⟩ := List.cons_eq_cons.mp heq
      rcases List.mem_cons.mp ht with rfl | ht
      · have hcne : (c = '<') = False := eq_false (fun hh => hne hh)
        have htw : (c :: cs).takeWhile (fun ch => decide (ch ≠ '<'))
            = c :: cs.takeWhile (fun ch => decide (ch ≠ '<')) := by
          rw [List.takeWhile_cons]
          simp [hcne]
        show unesc ((c :: cs).takeWhile (fun ch => decide (ch ≠ '<'))) ≠ []
        rw [htw]
        exact unesc_ne_nil _ (by simp)
      · exact ih _ t ht

theorem mergeToks_wf : ∀ (ts : List Tok) (t : Tok),
    (∀ u ∈ ts, WfTok u) → t ∈ mergeToks ts → WfTok t := by
  intro ts
  induction ts with
  | nil => intro t _ ht; simp [mergeToks] at ht
  | cons u r ih =>
    intro t hwf ht
    have hu : WfTok u := hwf u (List.mem_cons_self u r)
    have hr : ∀ v ∈ r, WfTok v := fun v hv => hwf v (List.mem_cons_of_mem u hv)
    rcases u with s | ⟨n, a, self⟩ | n
    · rw [show mergeToks (Tok.textT s :: r) = (match mergeToks r with
        | Tok.textT b :: r2 => Tok.textT (s ++ b) :: r2
        | r2 => Tok.textT s :: r2) from rfl] at ht
      rcases hmr : mergeToks r with _ | ⟨v, vs⟩
      · rw [hmr] at ht
        have : t = Tok.textT s := by simpa using ht
        rw [this]; exact hu
      · rcases v with b | ⟨n2, a2, self2⟩ | n2
        · rw [hmr] at ht
          rcases List.mem_cons.mp ht with rfl | ht
          · have hb : WfTok (Tok.textT b) := ih _ hr (by rw [hmr]; exact List.mem_cons_self _ _)
            show s ++ b ≠ []
            have : s ≠ [] := hu
            simp [this]
          · exact ih _ hr (by rw [hmr]; exact List.mem_cons_of_mem _ ht)
        · rw [hmr] at ht
          rcases List.mem_cons.mp ht with rfl | ht
          · exact hu
          · exact ih _ hr (by rw [hmr]; exact ht)
        · rw [hmr] at ht
          rcases List.mem_cons.mp ht with rfl | ht
          · exact hu
          · exact ih _ hr (by rw [hmr]; exact ht)
    · rw [show mergeToks (Tok.openT n a self :: r) = Tok.openT n a self :: mergeToks r
          from rfl] at ht
      rcases List.mem_cons.mp ht with rfl | ht
      · exact hu
      · exact ih _ hr ht
    · rw [show mergeToks (Tok.closeT n :: r) = Tok.closeT n :: mergeToks r from rfl] at ht
      rcases List.mem_cons.mp ht with rfl | ht
      · exact hu
      · exact ih _ hr ht

theorem tokenize_wf (s : Str) : ∀ t ∈ tokenize s, WfTok t := by
  intro t ht
  exact mergeToks_wf _ t (fun u hu => lexToks_wf _ _ u hu) ht
theorem closeUp_wf (nm : Str) :
    ∀ (st : List Frame) (acc : List Node),
      (∀ fr ∈ st, FrameWf fr) → (∀ x ∈ acc, Wf0N x) →
      (∀ fr ∈ (closeUp nm st acc).1, FrameWf fr) ∧
        (∀ x ∈ (closeUp nm st acc).2, Wf0N x) := by
  intro st
  induction st with
  | nil =>
    intro acc hst hacc
    exact ⟨fun fr hfr => by simp [closeUp] at hfr, fun x hx => hacc x (by simpa [closeUp] using hx)⟩
  | cons fr0 st' ih =>
    intro acc hst hacc
    have hfr0 : FrameWf fr0 := hst fr0 (List.mem_cons_self fr0 st')
    have hst' : ∀ fr ∈ st', FrameWf fr := fun fr hfr => hst fr (List.mem_cons_of_mem fr0 hfr)
    rcases fr0 with ⟨n, a, sib⟩
    have hnode : Wf0N (Node.elem n a acc.reverse) := by
      refine Wf0N.elem n a acc.reverse hfr0.1 hfr0.2.2.1
        (fun hv => absurd hv hfr0.2.1) ?_
      exact (wf0F_iff_forall _).mpr (fun x hx => hacc x (List.mem_reverse.mp hx))
    have hnew : ∀ x ∈ Node.elem n a acc.reverse :: sib, Wf0N x := by
      intro x hx
      rcases List.mem_cons.mp hx with rfl | hx
      · exact hnode
      · exact (wf0F_iff_forall _).mp hfr0.2.2.2 x hx
    rw [show closeUp nm ((n, a, sib) :: st') acc =
        (if n = nm then (st', Node.elem n a acc.reverse :: sib)
          else closeUp nm st' (Node.elem n a acc.reverse :: sib)) from rfl]
    split
    · exact ⟨hst', hnew⟩
    · exact ih _ hst' hnew

theorem flushAll_wf :
    ∀ (st : List Frame) (acc : List Node),
      (∀ fr ∈ st, FrameWf fr) → (∀ x ∈ acc, Wf0N x) →
      ∀ x ∈ flushAll st acc, Wf0N x := by
  intro st
  induction st with
  | nil =>
    intro acc _ hacc x hx
    rw [show flushAll [] acc = acc.reverse from rfl] at hx
    exact hacc x (List.mem_reverse.mp hx)
  | cons fr0 st' ih =>
    intro acc hst hacc x hx
    have hfr0 : FrameWf fr0 := hst fr0 (List.mem_cons_self fr0 st')
    have hst' : ∀ fr ∈ st', FrameWf fr := fun fr hfr => hst fr (List.mem_cons_of_mem fr0 hfr)
    rcases fr0 with ⟨n, a, sib⟩
    have hnode : Wf0N (Node.elem n a acc.reverse) := by
      refine Wf0N.elem n a acc.reverse hfr0.1 hfr0.2.2.1
        (fun hv => absurd hv hfr0.2.1) ?_
      exact (wf0F_iff_forall _).mpr (fun y hy => hacc y (List.mem_reverse.mp hy))
    refine ih _ hst' ?_ x hx
    intro y hy
    rcases List.mem_cons.mp hy with rfl | hy
    · exact hnode
    · exact (wf0F_iff_forall _).mp hfr0.2.2.2 y hy

theorem buildF_wf :
    ∀ (ts : List Tok) (st : List Frame) (acc : List Node),
      (∀ t ∈ ts, WfTok t) → (∀ fr ∈ st, FrameWf fr) → (∀ x ∈ acc, Wf0N x) →
      ∀ x ∈ buildF ts st acc, Wf0N x := by
  intro ts
  induction ts with
  | nil =>
    intro st acc _ hst hacc
    exact flushAll_wf st acc hst hacc
  | cons t ts' ih =>
    intro st acc hts hst hacc
    have ht : WfTok t := hts t (List.mem_cons_self t ts')
    have hts' : ∀ u ∈ ts', WfTok u := fun u hu => hts u (List.mem_cons_of_mem t hu)
    rcases t with s | ⟨n, a, self⟩ | n
    · refine ih st (Node.text s :: acc) hts' hst ?_
      intro y hy
      rcases List.mem_cons.mp hy with rfl | hy
      · exact Wf0N.text s ht
      · exact hacc y hy
    · rw [show buildF (Tok.openT n a self :: ts') st acc =
          (if self || n ∈ voidNames then buildF ts' st (Node.elem n a [] :: acc)
            else buildF ts' ((n, a, acc) :: st) []) from rfl]
      split
      · refine ih st _ hts' hst ?_
        intro y hy
        rcases List.mem_cons.mp hy with rfl | hy
        · exact Wf0N.elem n a [] ht.1 ht.2 (fun _ => rfl) Wf0F.nil
        · exact hacc y hy
      · next hcond =>
        have hnv : n ∉ voidNames := by
          intro hv
          simp [hv] at hcond
        refine ih _ [] hts' ?_ (fun y hy => by simp at hy)
        intro fr hfr
        rcases List.mem_cons.mp hfr with rfl | hfr
        · exact ⟨ht.1, hnv, ht.2, (wf0F_iff_forall _).mpr hacc⟩
        · exact hst fr hfr
    · rw [show buildF (Tok.closeT n :: ts') st acc =
          (if stackHas n st then
            buildF ts' (closeUp n st acc).1 (closeUp n st acc).2
          else buildF ts' st acc) from rfl]
      split
      · have hcu := closeUp_wf n st acc hst hacc
        exact ih _ _ hts' hcu.1 hcu.2
      · exact ih st acc hts' hst hacc

theorem parseHTML_wf0 (s : Str) : Wf0F (parseHTML s) := by
  refine (wf0F_iff_forall _).mpr ?_
  intro x hx
  exact buildF_wf (tokenize s) [] [] (tokenize_wf s)
    (fun fr hfr => by simp at hfr) (fun y hy => by simp at hy) x hx
theorem prune_wf0 (ts : List Str) :
    (∀ x, Wf0N x → ∀ y, pruneN ts x = some y → Wf0N y) ∧
      (∀ f, Wf0F f → Wf0F (pruneF ts f)) := by
  refine nodeForestInd
    (fun x => Wf0N x → ∀ y, pruneN ts x = some y → Wf0N y)
    (fun f => Wf0F f → Wf0F (pruneF ts f)) ?_ ?_ ?_ ?_
  · intro s h y hy
    rw [show pruneN ts (Node.text s) = some (Node.text s) from rfl] at hy
    cases hy
    exact h
  · intro n a cs ih h y hy
    cases h with
    | elem _ _ _ hn ha hv hcs =>
      rw [show pruneN ts (Node.elem n a cs) =
          (if n ∈ ts then none else some (Node.elem n a (pruneF ts cs))) from rfl] at hy
      split at hy
      · cases hy
      · cases hy
        refine Wf0N.elem n a (pruneF ts cs) hn ha ?_ (ih hcs)
        intro hvv
        rw [hv hvv]
        rfl
  · intro _
    exact Wf0F.nil
  · intro x xs ihx ihxs h
    cases h with
    | cons _ _ hx hxs =>
      rw [show pruneF ts (x :: xs) =
          (match pruneN ts x with
            | none => pruneF ts xs
            | some y => y :: pruneF ts xs) from rfl]
      rcases hp : pruneN ts x with _ | y
      · exact ihxs hxs
      · exact Wf0F.cons y _ (ihx hx y hp) (ihxs hxs)

theorem removeUnwanted_wf0 (f : List Node) (h : Wf0F f) :
    Wf0F (removeUnwanted f) := by
  rw [removeUnwanted_eq_prune]
  exact (prune_wf0 unwantedTags).2 f h

theorem cleanAttrsOf_wf (n : Str) (a : List (Str × Str)) (ha : wfAttrs a) :
    wfAttrs (cleanAttrsOf n a) := by
  by_cases h1 : n = "a".data
  · rw [h1, cleanAttrsOf_anchor]; exact ha
  · by_cases h2 : n = "img".data
    · rw [h2, cleanAttrsOf_img]; exact ha
    · rw [cleanAttrsOf_other n a h1 h2]; exact wfAttrs_nil

theorem cleanAttrs_wf0 :
    (∀ x, Wf0N x → Wf0N (cleanAttrsN x)) ∧
      (∀ f, Wf0F f → Wf0F (cleanAttrsF f)) := by
  refine nodeForestInd (fun x => Wf0N x → Wf0N (cleanAttrsN x))
    (fun f => Wf0F f → Wf0F (cleanAttrsF f)) ?_ ?_ ?_ ?_
  · intro s h
    exact h
  · intro n a cs ih h
    cases h with
    | elem _ _ _ hn ha hv hcs =>
      refine Wf0N.elem n (cleanAttrsOf n a) (cleanAttrsF cs) hn
        (cleanAttrsOf_wf n a ha) ?_ (ih hcs)
      intro hvv
      rw [hv hvv]
      rfl
  · intro _
    exact Wf0F.nil
  · intro x xs ihx ihxs h
    cases h with
    | cons _ _ hx hxs =>
      exact Wf0F.cons _ _ (ihx hx) (ihxs hxs)
theorem escT_append (s t : Str) : escT (s ++ t) = escT s ++ escT t := by
  rw [escT_eq_flatMap, escT_eq_flatMap, escT_eq_flatMap, List.flatMap_append]

theorem mergeTextsF_cons (x : Node) (rest : List Node) :
    mergeTextsF (x :: rest) =
      (match mergeTextsN x, mergeTextsF rest with
        | .text s, .text t :: r2 => Node.text (s ++ t) :: r2
        | y, r2 => y :: r2) := rfl

theorem serN_mergeTexts :
    (∀ x, serN (mergeTextsN x) = serN x) ∧
      (∀ f, serF (mergeTextsF f) = serF f) := by
  refine nodeForestInd (fun x => serN (mergeTextsN x) = serN x)
    (fun f => serF (mergeTextsF f) = serF f) ?_ ?_ ?_ ?_
  · intro s
    rfl
  · intro n a cs ih
    rw [show mergeTextsN (Node.elem n a cs) = Node.elem n a (mergeTextsF cs) from rfl]
    by_cases hv : n ∈ voidNames
    · simp [serN, hv]
    · simp [serN, hv, ih]
  · rfl
  · intro x xs ihx ihxs
    rw [mergeTextsF_cons]
    rcases hm : mergeTextsN x with s | ⟨n, a, cs⟩
    · rcases hr : mergeTextsF xs with _ | ⟨y, r2⟩
      · rw [hm] at ihx
        rw [hr] at ihxs
        simp [serF, serN, ← ihx, ← ihxs]
      · rcases y with t | ⟨en, ea, ecs⟩
        · rw [hm] at ihx
          rw [hr] at ihxs
          rw [show serF (Node.text (s ++ t) :: r2) = escT (s ++ t) ++ serF r2 from by
            simp [serF, serN]]
          rw [escT_append, show serF (x :: xs) = serN x ++ serF xs from rfl, ← ihx, ← ihxs]
          simp [serF, serN, List.append_assoc]
        · rw [hm] at ihx
          rw [hr] at ihxs
          rw [show serF (Node.text s :: Node.elem en ea ecs :: r2)
              = escT s ++ serF (Node.elem en ea ecs :: r2) from by simp [serF, serN],
            ihxs, show serF (x :: xs) = serN x ++ serF xs from rfl, ← ihx]
          rfl
    · rw [hm] at ihx
      rw [show serF (Node.elem n a cs :: mergeTextsF xs) =
          serN (Node.elem n a cs) ++ serF (mergeTextsF xs) from rfl]
      rw [ihxs, ihx]
      rfl
theorem elems_mergeTexts :
    (∀ x, elemsN (mergeTextsN x) = elemsN x) ∧
      (∀ f, elemsF (mergeTextsF f) = elemsF f) := by
  refine nodeForestInd (fun x => elemsN (mergeTextsN x) = elemsN x)
    (fun f => elemsF (mergeTextsF f) = elemsF f) ?_ ?_ ?_ ?_
  · intro s
    rfl
  · intro n a cs ih
    rw [show mergeTextsN (Node.elem n a cs) = Node.elem n a (mergeTextsF cs) from rfl]
    simp [elemsN, ih]
  · rfl
  · intro x xs ihx ihxs
    rw [mergeTextsF_cons]
    rcases hm : mergeTextsN x with s | ⟨en, ea, ecs⟩
    · rcases hr : mergeTextsF xs with _ | ⟨y, r2⟩
      · rw [hm] at ihx
        rw [hr] at ihxs
        simp [elemsF, elemsN, ← ihx, ← ihxs]
      · rcases y with t | ⟨fn, fa, fcs⟩
        · rw [hm] at ihx
          rw [hr] at ihxs
          rw [show elemsF (Node.text (s ++ t) :: r2) = elemsF r2 from by simp [elemsF, elemsN],
            show elemsF (x :: xs) = elemsN x ++ elemsF xs from rfl, ← ihx, ← ihxs]
          simp [elemsN, elemsF]
        · rw [hm] at ihx
          rw [hr] at ihxs
          rw [show elemsF (Node.text s :: Node.elem fn fa fcs :: r2)
              = elemsF (Node.elem fn fa fcs :: r2) from by simp [elemsF, elemsN],
            ihxs, show elemsF (x :: xs) = elemsN x ++ elemsF xs from rfl, ← ihx]
          simp [elemsN]
    · rw [hm] at ihx
      rw [show elemsF (Node.elem en ea ecs :: mergeTextsF xs) =
          elemsN (Node.elem en ea ecs) ++ elemsF (mergeTextsF xs) from rfl]
      rw [ihxs, ihx]
      rfl

theorem wf_mergeTexts :
    (∀ x, Wf0N x → WfN (mergeTextsN x)) ∧
      (∀ f, Wf0F f → WfF (mergeTextsF f)) := by
  refine nodeForestInd (fun x => Wf0N x → WfN (mergeTextsN x))
    (fun f => Wf0F f → WfF (mergeTextsF f)) ?_ ?_ ?_ ?_
  · intro s h
    cases h with
    | text _ hs => exact WfN.text s hs
  · intro n a cs ih h
    cases h with
    | elem _ _ _ hn ha hv hcs =>
      rw [show mergeTextsN (Node.elem n a cs) = Node.elem n a (mergeTextsF cs) from rfl]
      refine WfN.elem n a (mergeTextsF cs) hn ha ?_ (ih hcs)
      intro hvv
      rw [hv hvv]
      rfl
  · intro _
    exact WfF.nil
  · intro x xs ihx ihxs h
    cases h with
    | cons _ _ hx hxs =>
      have hwx := ihx hx
      have hwxs := ihxs hxs
      rw [mergeTextsF_cons]
      rcases hm : mergeTextsN x with s | ⟨en, ea, ecs⟩
      · rw [hm] at hwx
        rcases hr : mergeTextsF xs with _ | ⟨y, r2⟩
        · exact WfF.cons _ _ hwx WfF.nil (by simp [headTextB])
        · rw [hr] at hwxs
          rcases y with t | ⟨fn, fa, fcs⟩
          · cases hwxs with
            | cons _ _ hy hr2 hadj2 =>
              have hsne : s ≠ [] := by cases hwx with | text _ h => exact h
              have htne : t ≠ [] := by cases hy with | text _ h => exact h
              refine WfF.cons _ _ (WfN.text _ (by simp [hsne])) hr2 ?_
              intro hc
              exact hadj2 ⟨rfl, hc.2⟩
          · exact WfF.cons _ _ hwx hwxs (by simp [headTextB, isTextB])
      · rw [hm] at hwx
        exact WfF.cons _ _ hwx hwxs (by simp [isTextB])
theorem wsClean_idem_aux :
    ∀ (n : Nat) (s : Str), s.length ≤ n → ∀ bS bE,
      wsClean bS bE (wsClean bS bE s) = wsClean bS bE s := by
  intro n
  induction n with
  | zero =>
    intro s hs bS bE
    have : s = [] := List.length_eq_zero.mp (Nat.le_zero.mp hs)
    subst this
    simp [wsClean_nil]
  | succ n ih =>
    intro s hs bS bE
    rcases hsd : s with _ | ⟨c, t⟩
    · simp [wsClean_nil]
    subst hsd
    by_cases hc : isWSc c = true
    · have hrun : (c :: t).takeWhile isWSc = c :: t.takeWhile isWSc := by
        simp [List.takeWhile_cons, hc]
      have hrne : (c :: t).takeWhile isWSc ≠ [] := by rw [hrun]; simp
      have hallr : ∀ d ∈ (c :: t).takeWhile isWSc, isWSc d = true :=
        fun d hd => List.mem_takeWhile_imp hd
      have hsplit : (c :: t).takeWhile isWSc ++ (c :: t).dropWhile isWSc = c :: t :=
        List.takeWhile_append_dropWhile isWSc (c :: t)
      have hrest : (c :: t).dropWhile isWSc = [] ∨
          ¬ isWSc (((c :: t).dropWhile isWSc).headD 'x') = true := by
        rcases hdw : (c :: t).dropWhile isWSc with _ | ⟨d, t2⟩
        · exact Or.inl rfl
        · exact Or.inr (by simpa using dropWhile_head_not (c :: t) d t2 hdw)
      have hlen : ((c :: t).dropWhile isWSc).length + 1 ≤ (c :: t).length := by
        have h1 : ((c :: t).takeWhile isWSc).length + ((c :: t).dropWhile isWSc).length
            = (c :: t).length := by
          rw [← List.length_append, hsplit]
        have h2 : 1 ≤ ((c :: t).takeWhile isWSc).length := by
          rcases hx : (c :: t).takeWhile isWSc with _ | _
          · exact absurd hx hrne
          · simp
        omega
      have hmain := wsClean_run_append bS bE ((c :: t).takeWhile isWSc)
        ((c :: t).dropWhile isWSc) hrne hallr hrest
      rw [hsplit] at hmain
      rw [hmain]
      by_cases hcond : bS = true ∨ (bE = true ∧ (c :: t).dropWhile isWSc = [])
      · rw [if_pos hcond, List.nil_append]
        rcases hdw : (c :: t).dropWhile isWSc with _ | ⟨d, t2⟩
        · simp [wsClean_nil]
        · have hd : ¬ isWSc d = true := dropWhile_head_not (c :: t) d t2 hdw
          have hy : wsClean false bE (d :: t2) = d :: wsClean false bE t2 :=
            wsClean_cons_nonws false bE d t2 hd
          rw [hy, wsClean_head_nonws bS bE (d :: wsClean false bE t2)
            (Or.inr (by simpa using hd)), ← hy]
          have hl2 : (d :: t2).length ≤ n := by
            rw [hdw] at hlen
            simp only [List.length_cons] at hlen hs ⊢
            omega
          exact ih (d :: t2) hl2 false bE
      · rw [if_neg hcond]
        have hbS : bS = false := by
          rcases bS with _ | _
          · rfl
          · exact absurd (Or.inl rfl) hcond
        subst hbS
        set R := (if ((c :: t).takeWhile isWSc).any isNLc then ['\n']
          else (c :: t).takeWhile isWSc) with hR
        have hRne : R ≠ [] := by
          rw [hR]
          split
          · simp
          · exact hrne
        have hRall : ∀ d ∈ R, isWSc d = true := by
          rw [hR]
          split
          · intro d hd
            have : d = '\n' := by simpa using hd
            rw [this]
            decide
          · exact hallr
        have hRfix : (if R.any isNLc then ['\n'] else R) = R := by
          by_cases hany : ((c :: t).takeWhile isWSc).any isNLc = true
          · have hRval : R = ['\n'] := by rw [hR, if_pos hany]
            rw [hRval]
            rfl
          · have hRval : R = (c :: t).takeWhile isWSc := by rw [hR, if_neg hany]
            rw [hRval, if_neg (by simpa using hany)]
        rcases hdw : (c :: t).dropWhile isWSc with _ | ⟨d, t2⟩
        · have hbE : bE = false := by
            rcases bE with _ | _
            · rfl
            · exact absurd (Or.inr ⟨rfl, hdw⟩) hcond
          subst hbE
          rw [wsClean_nil, List.append_nil]
          have h2 := wsClean_run_append false false R [] hRne hRall (Or.inl rfl)
          rw [List.append_nil, wsClean_nil, List.append_nil] at h2
          rw [h2]
          simp only [Bool.false_eq_true, false_or, false_and, if_false]
          exact hRfix
        · have hd : ¬ isWSc d = true := dropWhile_head_not (c :: t) d t2 hdw
          have hy : wsClean false bE (d :: t2) = d :: wsClean false bE t2 :=
            wsClean_cons_nonws false bE d t2 hd
          have hyne : wsClean false bE (d :: t2) ≠ [] := by rw [hy]; simp
          have hyhead : ¬ isWSc ((wsClean false bE (d :: t2)).headD 'x') = true := by
            rw [hy]; simpa using hd
          have h2 := wsClean_run_append false bE R (wsClean false bE (d :: t2))
            hRne hRall (Or.inr hyhead)
          rw [h2]
          have hcond2 : ¬ (false = true ∨ (bE = true ∧ wsClean false bE (d :: t2) = [])) := by
            intro hco
            rcases hco with hco | hco
            · simp at hco
            · exact hyne hco.2
          rw [if_neg (by simpa using hcond2), hRfix]
          have hl2 : (d :: t2).length ≤ n := by
            rw [hdw] at hlen
            simp only [List.length_cons] at hlen hs ⊢
            omega
          rw [ih (d :: t2) hl2 false bE]
    · have hw : (c :: t).takeWhile (fun x => !isWSc x) =
          c :: t.takeWhile (fun x => !isWSc x) := by
        simp [List.takeWhile_cons, hc]
      have hwne : (c :: t).takeWhile (fun x => !isWSc x) ≠ [] := by rw [hw]; simp
      have hallw : ∀ d ∈ (c :: t).takeWhile (fun x => !isWSc x), ¬ isWSc d = true := by
        intro d hd
        have := List.mem_takeWhile_imp hd
        simpa using this
      have hsplit : (c :: t).takeWhile (fun x => !isWSc x) ++
          (c :: t).dropWhile (fun x => !isWSc x) = c :: t :=
        List.takeWhile_append_dropWhile (fun x => !isWSc x) (c :: t)
      have hlen : ((c :: t).dropWhile (fun x => !isWSc x)).length + 1 ≤ (c :: t).length := by
        have h1 : ((c :: t).takeWhile (fun x => !isWSc x)).length +
            ((c :: t).dropWhile (fun x => !isWSc x)).length = (c :: t).length := by
          rw [← List.length_append, hsplit]
        have h2 : 1 ≤ ((c :: t).takeWhile (fun x => !isWSc x)).length := by
          rcases hx : (c :: t).takeWhile (fun x => !isWSc x) with _ | _
          · exact absurd hx hwne
          · simp
        omega
      have hmain := wsClean_word_append bE ((c :: t).takeWhile (fun x => !isWSc x))
        hallw hwne bS ((c :: t).dropWhile (fun x => !isWSc x))
      rw [hsplit] at hmain
      rw [hmain]
      rw [wsClean_word_append bE ((c :: t).takeWhile (fun x => !isWSc x)) hallw hwne bS
        (wsClean false bE ((c :: t).dropWhile (fun x => !isWSc x)))]
      congr 1
      have hl2 : ((c :: t).dropWhile (fun x => !isWSc x)).length ≤ n := by
        simp only [List.length_cons] at hlen hs
        omega
      exact ih _ hl2 false bE

theorem wsClean_idem (bS bE : Bool) (s : Str) :
    wsClean bS bE (wsClean bS bE s) = wsClean bS bE s :=
  wsClean_idem_aux s.length s (Nat.le_refl _) bS bE
theorem editN_shape (x : Node) : isTextB (editN x) = isTextB x := by
  rcases x with s | ⟨n, a, cs⟩ <;> rfl

theorem edit_idem :
    (∀ x, editN (editN x) = editN x) ∧ (∀ f, editF (editF f) = editF f) := by
  refine nodeForestInd (fun x => editN (editN x) = editN x)
    (fun f => editF (editF f) = editF f) ?_ ?_ ?_ ?_
  · intro s
    rw [show editN (Node.text s) = Node.text (wsClean false false s) from rfl,
      show editN (Node.text (wsClean false false s))
        = Node.text (wsClean false false (wsClean false false s)) from rfl,
      wsClean_idem]
  · intro n a cs ih
    rw [show editN (Node.elem n a cs)
        = Node.elem n (a.map (fun p => (p.1, wsClean false false p.2))) (editF cs) from rfl,
      show editN (Node.elem n (a.map (fun p => (p.1, wsClean false false p.2))) (editF cs))
        = Node.elem n ((a.map (fun p => (p.1, wsClean false false p.2))).map
            (fun p => (p.1, wsClean false false p.2))) (editF (editF cs)) from rfl,
      ih, List.map_map]
    have : ((fun p : Str × Str => (p.1, wsClean false false p.2)) ∘
        (fun p : Str × Str => (p.1, wsClean false false p.2))) =
        (fun p : Str × Str => (p.1, wsClean false false p.2)) := by
      funext p
      simp [wsClean_idem]
    rw [this]
  · rfl
  · intro x xs ihx ihxs
    rw [show editF (x :: xs) = editN x :: editF xs from rfl,
      show editF (editN x :: editF xs) = editN (editN x) :: editF (editF xs) from rfl,
      ihx, ihxs]

theorem edit_wf :
    (∀ x, WfN x → WfN (editN x)) ∧ (∀ f, WfF f → WfF (editF f)) := by
  refine nodeForestInd (fun x => WfN x → WfN (editN x))
    (fun f => WfF f → WfF (editF f)) ?_ ?_ ?_ ?_
  · intro s h
    cases h with
    | text _ hs =>
      exact WfN.text _ (wsClean_ne_nil s hs)
  · intro n a cs ih h
    cases h with
    | elem _ _ _ hn ha hv hcs =>
      refine WfN.elem n (a.map (fun p => (p.1, wsClean false false p.2))) (editF cs)
        hn ⟨?_, ?_⟩ ?_ (ih hcs)
      · have hkeys : (a.map (fun p => (p.1, wsClean false false p.2))).map Prod.fst
            = a.map Prod.fst := by
          rw [List.map_map]
          rfl
        rw [hkeys]
        exact ha.1
      · intro p hp
        rcases List.mem_map.mp hp with ⟨q, hq, rfl⟩
        exact ha.2 q hq
      · intro hvv
        rw [hv hvv]
        rfl
  · intro _
    exact WfF.nil
  · intro x xs ihx ihxs h
    cases h with
    | cons _ _ hx hxs hadj =>
      refine WfF.cons _ _ (ihx hx) (ihxs hxs) ?_
      intro hcon
      refine hadj ⟨by rw [← editN_shape]; exact hcon.1, ?_⟩
      rcases xs with _ | ⟨y, ys⟩
      · simp [editF, headTextB] at hcon
      · have h2 := hcon.2
        rw [show editF (y :: ys) = editN y :: editF ys from rfl] at h2
        rcases y with s | e
        · rfl
        · simp [editN, headTextB] at h2
theorem elems_edit :
    (∀ x, elemsN (editN x) = (elemsN x).map
        (fun p => (p.1, p.2.map (fun q => (q.1, wsClean false false q.2))))) ∧
      (∀ f, elemsF (editF f) = (elemsF f).map
        (fun p => (p.1, p.2.map (fun q => (q.1, wsClean false false q.2))))) := by
  refine nodeForestInd _ _ ?_ ?_ ?_ ?_
  · intro s
    rfl
  · intro n a cs ih
    rw [show editN (Node.elem n a cs)
        = Node.elem n (a.map (fun p => (p.1, wsClean false false p.2))) (editF cs) from rfl]
    rw [show elemsN (Node.elem n (a.map (fun p => (p.1, wsClean false false p.2))) (editF cs))
        = (n, a.map (fun p => (p.1, wsClean false false p.2))) :: elemsF (editF cs) from rfl]
    rw [show elemsN (Node.elem n a cs) = (n, a) :: elemsF cs from rfl, List.map_cons, ih]
  · rfl
  · intro x xs ihx ihxs
    rw [show editF (x :: xs) = editN x :: editF xs from rfl,
      show elemsF (editN x :: editF xs) = elemsN (editN x) ++ elemsF (editF xs) from rfl,
      show elemsF (x :: xs) = elemsN x ++ elemsF xs from rfl,
      List.map_append, ihx, ihxs]

theorem editLast_elem_cons (n : Str) (a : List (Str × Str)) (cs : List Node)
    (xs : List Node) :
    editLast (Node.elem n a cs :: xs) = editN (Node.elem n a cs) :: editLast xs := by
  rw [editLast_eq_editTopF_elem, editTopF_elem_cons]

theorem editLast_text_singleton (s : Str) :
    editLast [Node.text s] = (if wsClean false true s = [] then []
      else [Node.text (wsClean false true s)]) := by
  rw [editLast.eq_def]

theorem elems_editLast :
    ∀ f, elemsF (editLast f) = (elemsF f).map
      (fun p => (p.1, p.2.map (fun q => (q.1, wsClean false false q.2)))) := by
  intro f
  induction f with
  | nil => rfl
  | cons x xs ih =>
    rcases x with s | ⟨n, a, cs⟩
    · rcases xs with _ | ⟨y, ys⟩
      · rw [editLast_text_singleton]
        split <;> rfl
      · rw [editLast_cons_cons]
        rw [show elemsF (editN (Node.text s) :: editLast (y :: ys))
            = elemsN (editN (Node.text s)) ++ elemsF (editLast (y :: ys)) from rfl, ih]
        rfl
    · rw [editLast_elem_cons]
      rw [show elemsF (editN (Node.elem n a cs) :: editLast xs)
          = elemsN (editN (Node.elem n a cs)) ++ elemsF (editLast xs) from rfl, ih,
        elems_edit.1,
        show elemsF (Node.elem n a cs :: xs) = elemsN (Node.elem n a cs) ++ elemsF xs from rfl,
        List.map_append]

theorem elems_editTopF :
    ∀ f, elemsF (editTopF f) = (elemsF f).map
      (fun p => (p.1, p.2.map (fun q => (q.1, wsClean false false q.2)))) := by
  intro f
  rcases f with _ | ⟨x, xs⟩
  · rfl
  rcases x with s | ⟨n, a, cs⟩
  · rcases xs with _ | ⟨y, ys⟩
    · rw [show editTopF [Node.text s] = (if wsClean true true s = [] then []
          else [Node.text (wsClean true true s)]) from by rw [editTopF.eq_def]]
      split <;> rfl
    · rw [editTopF_text_cons]
      rw [show elemsF (Node.text s :: y :: ys) = elemsF (y :: ys) from rfl]
      split
      · rw [List.nil_append, elems_editLast]
      · rw [List.singleton_append,
          show elemsF (Node.text (wsClean true false s) :: editLast (y :: ys))
            = elemsF (editLast (y :: ys)) from rfl,
          elems_editLast]
  · rw [editTopF_elem_cons]
    rw [show elemsF (editN (Node.elem n a cs) :: editLast xs)
        = elemsN (editN (Node.elem n a cs)) ++ elemsF (editLast xs) from rfl,
      elems_editLast, elems_edit.1,
      show elemsF (Node.elem n a cs :: xs) = elemsN (Node.elem n a cs) ++ elemsF xs from rfl,
      List.map_append]
theorem editLast_wf :
    ∀ f, WfF f → WfF (editLast f) ∧
      (headTextB (editLast f) = true → headTextB f = true) := by
  intro f
  induction f with
  | nil =>
    intro _
    exact ⟨WfF.nil, fun h => h⟩
  | cons x xs ih =>
    intro hwf
    cases hwf with
    | cons _ _ hx hxs hadj =>
      rcases x with s | ⟨n, a, cs⟩
      · have hs : s ≠ [] := by cases hx with | text _ h => exact h
        rcases xs with _ | ⟨y, ys⟩
        · rw [editLast_text_singleton]
          split
          · exact ⟨WfF.nil, fun h => by simp [headTextB] at h⟩
          · next hne =>
            refine ⟨WfF.cons _ _ (WfN.text _ hne) WfF.nil (by simp [headTextB]), ?_⟩
            intro _
            rfl
        · rw [editLast_cons_cons]
          have hihs := ih hxs
          refine ⟨?_, fun _ => rfl⟩
          refine WfF.cons _ _ (WfN.text _ (wsClean_ne_nil s hs)) hihs.1 ?_
          intro hcon
          exact hadj ⟨rfl, hihs.2 hcon.2⟩
      · rw [editLast_elem_cons]
        have hihs := ih hxs
        refine ⟨?_, ?_⟩
        · refine WfF.cons _ _ (edit_wf.1 _ hx) hihs.1 ?_
          intro hcon
          have := hcon.1
          rw [show editN (Node.elem n a cs)
            = Node.elem n (a.map (fun p => (p.1, wsClean false false p.2))) (editF cs)
            from rfl] at this
          simp [isTextB] at this
        · intro h
          rw [show editN (Node.elem n a cs)
            = Node.elem n (a.map (fun p => (p.1, wsClean false false p.2))) (editF cs)
            from rfl] at h
          simp [headTextB] at h

theorem editLast_idem :
    ∀ f, WfF f → editLast (editLast f) = editLast f := by
  intro f
  induction f with
  | nil =>
    intro _
    rfl
  | cons x xs ih =>
    intro hwf
    cases hwf with
    | cons _ _ hx hxs hadj =>
      rcases x with s | ⟨n, a, cs⟩
      · rcases xs with _ | ⟨y, ys⟩
        · rw [editLast_text_singleton]
          split
          · rfl
          · next hne =>
            rw [editLast_text_singleton, wsClean_idem, if_neg hne]
        · rcases hy : y with s2 | ⟨m, b, ds⟩
          · exact absurd ⟨rfl, by rw [hy]; rfl⟩ hadj
          · have hrec := ih hxs
            rw [hy] at hrec
            rw [editLast_elem_cons] at hrec
            rw [editLast_cons_cons, editLast_elem_cons, editLast_cons_cons,
              edit_idem.1, hrec]
      · rw [editLast_elem_cons,
          show editN (Node.elem n a cs)
            = Node.elem n (a.map (fun p => (p.1, wsClean false false p.2))) (editF cs)
            from rfl, editLast_elem_cons]
        have h1 : editN (Node.elem n
            (a.map (fun p => (p.1, wsClean false false p.2))) (editF cs))
            = editN (editN (Node.elem n a cs)) := rfl
        rw [h1, edit_idem.1, ih hxs]
        rfl
theorem editTopF_text_singleton (s : Str) :
    editTopF [Node.text s] = (if wsClean true true s = [] then []
      else [Node.text (wsClean true true s)]) := by
  rw [editTopF.eq_def]

theorem editTopF_wf : ∀ f, WfF f → WfF (editTopF f) := by
  intro f hwf
  rcases f with _ | ⟨x, xs⟩
  · exact WfF.nil
  cases hwf with
  | cons _ _ hx hxs hadj =>
    rcases x with s | ⟨n, a, cs⟩
    · rcases xs with _ | ⟨y, ys⟩
      · rw [editTopF_text_singleton]
        split
        · exact WfF.nil
        · next hne =>
          exact WfF.cons _ _ (WfN.text _ hne) WfF.nil (by simp [headTextB])
      · rw [editTopF_text_cons]
        have hel := editLast_wf (y :: ys) hxs
        split
        · rw [List.nil_append]
          exact hel.1
        · next hne =>
          rw [List.singleton_append]
          refine WfF.cons _ _ (WfN.text _ hne) hel.1 ?_
          intro hcon
          exact hadj ⟨rfl, hel.2 hcon.2⟩
    · rw [editTopF_elem_cons]
      have hel := editLast_wf xs hxs
      refine WfF.cons _ _ (edit_wf.1 _ hx) hel.1 ?_
      intro hcon
      have := hcon.1
      rw [show editN (Node.elem n a cs)
          = Node.elem n (a.map (fun p => (p.1, wsClean false false p.2))) (editF cs)
          from rfl] at this
      simp [isTextB] at this

theorem editTopF_idem : ∀ f, WfF f → editTopF (editTopF f) = editTopF f := by
  intro f hwf
  rcases f with _ | ⟨x, xs⟩
  · rfl
  cases hwf with
  | cons _ _ hx hxs hadj =>
    rcases x with s | ⟨n, a, cs⟩
    · rcases xs with _ | ⟨y, ys⟩
      · rw [editTopF_text_singleton]
        split
        · rfl
        · next hne =>
          rw [editTopF_text_singleton, wsClean_idem, if_neg hne]
      · rcases hy : y with s2 | ⟨m, b, ds⟩
        · exact absurd ⟨rfl, by rw [hy]; rfl⟩ hadj
        · have hrecL := editLast_idem (y :: ys) hxs
          rw [hy] at hrecL
          rw [editLast_elem_cons] at hrecL
          rw [editTopF_text_cons, editLast_elem_cons]
          split
          · rw [List.nil_append]
            rw [show editN (Node.elem m b ds)
                = Node.elem m (b.map (fun p => (p.1, wsClean false false p.2))) (editF ds)
                from rfl] at hrecL ⊢
            rw [editTopF_elem_cons]
            rw [editLast_elem_cons] at hrecL
            exact hrecL
          · next hne =>
            rw [List.singleton_append, editTopF_text_cons, wsClean_idem, if_neg hne,
              List.singleton_append, hrecL]
    · rw [editTopF_elem_cons,
        show editN (Node.elem n a cs)
          = Node.elem n (a.map (fun p => (p.1, wsClean false false p.2))) (editF cs)
          from rfl, editTopF_elem_cons]
      have h1 : editN (Node.elem n
          (a.map (fun p => (p.1, wsClean false false p.2))) (editF cs))
          = editN (editN (Node.elem n a cs)) := rfl
      rw [h1, edit_idem.1, editLast_idem xs hxs]
      rfl
theorem prune_fix (ts : List Str) :
    (∀ x, (∀ p ∈ elemsN x, p.1 ∉ ts) → pruneN ts x = some x) ∧
      (∀ f, (∀ p ∈ elemsF f, p.1 ∉ ts) → pruneF ts f = f) := by
  refine nodeForestInd
    (fun x => (∀ p ∈ elemsN x, p.1 ∉ ts) → pruneN ts x = some x)
    (fun f => (∀ p ∈ elemsF f, p.1 ∉ ts) → pruneF ts f = f) ?_ ?_ ?_ ?_
  · intro s _
    rfl
  · intro n a cs ih h
    have hn : n ∉ ts := by
      refine h (n, a) ?_
      rw [show elemsN (Node.elem n a cs) = (n, a) :: elemsF cs from rfl]
      exact List.mem_cons_self _ _
    have hcs : ∀ p ∈ elemsF cs, p.1 ∉ ts := by
      intro p hp
      refine h p ?_
      rw [show elemsN (Node.elem n a cs) = (n, a) :: elemsF cs from rfl]
      exact List.mem_cons_of_mem _ hp
    rw [show pruneN ts (Node.elem n a cs)
        = (if n ∈ ts then none else some (Node.elem n a (pruneF ts cs))) from rfl,
      if_neg hn, ih hcs]
  · intro _
    rfl
  · intro x xs ihx ihxs h
    have hx : ∀ p ∈ elemsN x, p.1 ∉ ts := by
      intro p hp
      refine h p ?_
      rw [show elemsF (x :: xs) = elemsN x ++ elemsF xs from rfl]
      exact List.mem_append.mpr (Or.inl hp)
    have hxs : ∀ p ∈ elemsF xs, p.1 ∉ ts := by
      intro p hp
      refine h p ?_
      rw [show elemsF (x :: xs) = elemsN x ++ elemsF xs from rfl]
      exact List.mem_append.mpr (Or.inr hp)
    rw [show pruneF ts (x :: xs) = (match pruneN ts x with
        | none => pruneF ts xs
        | some y => y :: pruneF ts xs) from rfl, ihx hx, ihxs hxs]

theorem removeUnwanted_fix (f : List Node) (h : NoBlack f) : removeUnwanted f = f := by
  rw [removeUnwanted_eq_prune]
  exact (prune_fix unwantedTags).2 f h

theorem cleanAttrs_fix :
    (∀ x, (∀ p ∈ elemsN x, cleanAttrsOf p.1 p.2 = p.2) → cleanAttrsN x = x) ∧
      (∀ f, AttrsCleanP f → cleanAttrsF f = f) := by
  refine nodeForestInd
    (fun x => (∀ p ∈ elemsN x, cleanAttrsOf p.1 p.2 = p.2) → cleanAttrsN x = x)
    (fun f => AttrsCleanP f → cleanAttrsF f = f) ?_ ?_ ?_ ?_
  · intro s _
    rfl
  · intro n a cs ih h
    have hn : cleanAttrsOf n a = a := by
      refine h (n, a) ?_
      rw [show elemsN (Node.elem n a cs) = (n, a) :: elemsF cs from rfl]
      exact List.mem_cons_self _ _
    have hcs : ∀ p ∈ elemsF cs, cleanAttrsOf p.1 p.2 = p.2 := by
      intro p hp
      refine h p ?_
      rw [show elemsN (Node.elem n a cs) = (n, a) :: elemsF cs from rfl]
      exact List.mem_cons_of_mem _ hp
    rw [show cleanAttrsN (Node.elem n a cs)
        = Node.elem n (cleanAttrsOf n a) (cleanAttrsF cs) from rfl, hn, ih hcs]
  · intro _
    rfl
  · intro x xs ihx ihxs h
    have hx : ∀ p ∈ elemsN x, cleanAttrsOf p.1 p.2 = p.2 := by
      intro p hp
      refine h p ?_
      rw [show elemsF (x :: xs) = elemsN x ++ elemsF xs from rfl]
      exact List.mem_append.mpr (Or.inl hp)
    have hxs : AttrsCleanP xs := by
      intro p hp
      refine h p ?_
      rw [show elemsF (x :: xs) = elemsN x ++ elemsF xs from rfl]
      exact List.mem_append.mpr (Or.inr hp)
    rw [show cleanAttrsF (x :: xs) = cleanAttrsN x :: cleanAttrsF xs from rfl,
      ihx hx, ihxs hxs]

theorem cleanAttrsOf_idem (n : Str) (a : List (Str × Str)) :
    cleanAttrsOf n (cleanAttrsOf n a) = cleanAttrsOf n a := by
  by_cases h1 : n = "a".data
  · rw [h1, cleanAttrsOf_anchor, cleanAttrsOf_anchor]
  · by_cases h2 : n = "img".data
    · rw [h2, cleanAttrsOf_img, cleanAttrsOf_img]
    · rw [cleanAttrsOf_other n a h1 h2, cleanAttrsOf_other n [] h1 h2]

theorem cleanAttrsOf_map_fix (n : Str) (a : List (Str × Str))
    (h : cleanAttrsOf n a = a) (g : Str × Str → Str × Str) :
    cleanAttrsOf n (a.map g) = a.map g := by
  by_cases h1 : n = "a".data
  · rw [h1, cleanAttrsOf_anchor]
  · by_cases h2 : n = "img".data
    · rw [h2, cleanAttrsOf_img]
    · have : a = [] := by rw [← h, cleanAttrsOf_other n a h1 h2]
      rw [this]
      rw [show (([] : List (Str × Str)).map g) = [] from rfl,
        cleanAttrsOf_other n [] h1 h2]
theorem clean_html_unfold (s : Str) :
    clean_html s true = cleanLines (serF (cleanAttrsF (removeUnwanted (parseHTML s)))) := by
  simp [clean_html]

theorem noBlack_stage1 (s : Str) :
    NoBlack (cleanAttrsF (removeUnwanted (parseHTML s))) := by
  intro p hp
  rw [elems_cleanAttrs] at hp
  rcases List.mem_map.mp hp with ⟨q, hq, rfl⟩
  rw [removeUnwanted_eq_prune] at hq
  exact elems_prune_not_mem unwantedTags (parseHTML s) q hq

theorem acp_stage1 (s : Str) :
    AttrsCleanP (cleanAttrsF (removeUnwanted (parseHTML s))) := by
  intro p hp
  rw [elems_cleanAttrs] at hp
  rcases List.mem_map.mp hp with ⟨q, hq, rfl⟩
  exact cleanAttrsOf_idem q.1 q.2

theorem noBlack_mergeTexts (f : List Node) (h : NoBlack f) :
    NoBlack (mergeTextsF f) := by
  intro p hp
  rw [elems_mergeTexts.2] at hp
  exact h p hp

theorem acp_mergeTexts (f : List Node) (h : AttrsCleanP f) :
    AttrsCleanP (mergeTextsF f) := by
  intro p hp
  rw [elems_mergeTexts.2] at hp
  exact h p hp

theorem noBlack_editTopF (f : List Node) (h : NoBlack f) :
    NoBlack (editTopF f) := by
  intro p hp
  rw [elems_editTopF] at hp
  rcases List.mem_map.mp hp with ⟨q, hq, rfl⟩
  exact h q hq

theorem acp_editTopF (f : List Node) (h : AttrsCleanP f) :
    AttrsCleanP (editTopF f) := by
  intro p hp
  rw [elems_editTopF] at hp
  rcases List.mem_map.mp hp with ⟨q, hq, rfl⟩
  exact cleanAttrsOf_map_fix q.1 q.2 (h q hq) _

theorem clean_html_eq_serF_editTopF (s : Str) :
    clean_html s true =
      serF (editTopF (mergeTextsF (cleanAttrsF (removeUnwanted (parseHTML s))))) := by
  have h2 : WfF (mergeTextsF (cleanAttrsF (removeUnwanted (parseHTML s)))) :=
    wf_mergeTexts.2 _ (cleanAttrs_wf0.2 _ (removeUnwanted_wf0 _ (parseHTML_wf0 s)))
  rw [clean_html_unfold, ← serN_mergeTexts.2, cleanLines_eq_wsClean,
    wsClean_serF_top _ h2]

theorem clean_html_true_idem (s : Str) :
    clean_html (clean_html s true) true = clean_html s true := by
  have h1 : Wf0F (cleanAttrsF (removeUnwanted (parseHTML s))) :=
    cleanAttrs_wf0.2 _ (removeUnwanted_wf0 _ (parseHTML_wf0 s))
  have h2 : WfF (mergeTextsF (cleanAttrsF (removeUnwanted (parseHTML s)))) :=
    wf_mergeTexts.2 _ h1
  have hg : WfF (editTopF (mergeTextsF (cleanAttrsF (removeUnwanted (parseHTML s))))) :=
    editTopF_wf _ h2
  have hnb : NoBlack (editTopF (mergeTextsF (cleanAttrsF (removeUnwanted (parseHTML s))))) :=
    noBlack_editTopF _ (noBlack_mergeTexts _ (noBlack_stage1 s))
  have hacp : AttrsCleanP
      (editTopF (mergeTextsF (cleanAttrsF (removeUnwanted (parseHTML s))))) :=
    acp_editTopF _ (acp_mergeTexts _ (acp_stage1 s))
  rw [clean_html_eq_serF_editTopF s, clean_html_unfold, parseHTML_serF _ hg,
    removeUnwanted_fix _ hnb, cleanAttrs_fix.2 _ hacp, cleanLines_eq_wsClean,
    wsClean_serF_top _ hg, editTopF_idem _ h2]
theorem clean_html_false_unfold (s : Str) :
    clean_html s false = cleanLines (serF (removeUnwanted (parseHTML s))) := by
  simp [clean_html]

theorem clean_html_false_eq_serF (s : Str) :
    clean_html s false =
      serF (editTopF (mergeTextsF (removeUnwanted (parseHTML s)))) := by
  have h2 : WfF (mergeTextsF (removeUnwanted (parseHTML s))) :=
    wf_mergeTexts.2 _ (removeUnwanted_wf0 _ (parseHTML_wf0 s))
  rw [clean_html_false_unfold, ← serN_mergeTexts.2, cleanLines_eq_wsClean,
    wsClean_serF_top _ h2]

theorem noBlack_stage0 (s : Str) : NoBlack (removeUnwanted (parseHTML s)) := by
  intro p hp
  rw [removeUnwanted_eq_prune] at hp
  exact elems_prune_not_mem unwantedTags (parseHTML s) p hp

theorem parse_clean_html_noblack (s : Str) (cb : Bool) :
    ∀ p ∈ elemsF (parseHTML (clean_html s cb)), p.1 ∉ unwantedTags := by
  rcases cb with _ | _
  · have h2 : WfF (mergeTextsF (removeUnwanted (parseHTML s))) :=
      wf_mergeTexts.2 _ (removeUnwanted_wf0 _ (parseHTML_wf0 s))
    have hg : WfF (editTopF (mergeTextsF (removeUnwanted (parseHTML s)))) :=
      editTopF_wf _ h2
    rw [clean_html_false_eq_serF, parseHTML_serF _ hg]
    exact noBlack_editTopF _ (noBlack_mergeTexts _ (noBlack_stage0 s))
  · have h2 : WfF (mergeTextsF (cleanAttrsF (removeUnwanted (parseHTML s)))) :=
      wf_mergeTexts.2 _ (cleanAttrs_wf0.2 _ (removeUnwanted_wf0 _ (parseHTML_wf0 s)))
    have hg : WfF (editTopF (mergeTextsF (cleanAttrsF (removeUnwanted (parseHTML s))))) :=
      editTopF_wf _ h2
    rw [clean_html_eq_serF_editTopF, parseHTML_serF _ hg]
    exact noBlack_editTopF _ (noBlack_mergeTexts _ (noBlack_stage1 s))

/-! # Claim theorems

One theorem per claim of the specification review, assembled from the
lemmas above. -/

/-- C1: the claim says that with clean_attributes=true an anchor keeps
only href (and img only src/alt); on the scenario input the expected
output is an anchor with only href.  The code disagrees: the inner a/img
branches of the attribute pass are unreachable (they sit under the guard
element.name not in ["a", "img"]), so the anchor keeps onclick="y" as
well.  This theorem evaluates clean_html at the claim's own scenario
input and exhibits the surviving onclick attribute. -/
theorem clean_html_scenario_keeps_onclick :
    clean_html "<html><script>x</script><a href=\"/a\" onclick=\"y\">A</a></html>".data true =
      "<html><a href=\"/a\" onclick=\"y\">A</a></html>".data ∧
    elemsF (parseHTML (clean_html
        "<html><script>x</script><a href=\"/a\" onclick=\"y\">A</a></html>".data true)) =
      [("html".data, []),
        ("a".data, [("href".data, "/a".data), ("onclick".data, "y".data)])] :=
  ⟨rfl, rfl⟩

/-- C4: extract_links returns a duplicate-free collection; a URL is in
the result exactly when some anchor href either begins with "http" (kept
verbatim) or begins with "/" (resolved against the base origin with its
trailing slashes stripped); every other href form is absent. -/
theorem extract_links_contract (f : List Node) (base : Str) :
    (extract_links f base).Nodup ∧
    (∀ u, u ∈ extract_links f base ↔ ∃ h ∈ hrefsF f,
      ("http".data.isPrefixOf h ∧ u = h) ∨
      (¬ "http".data.isPrefixOf h ∧ "/".data.isPrefixOf h ∧
        u = rstripSlash base ++ h)) :=
  ⟨extract_links_nodup f base, fun u => extract_links_mem f base u⟩

/-- C4 witness: on a concrete page at origin https://example.com/, the
href "/about" resolves, "https://other.com/x" is kept verbatim, and
"contact.html" is excluded. -/
theorem extract_links_contract_witness :
    extract_links (parseHTML ("<a href=\"/about\">x</a><a href=\"https://other.com/x\">y</a>" ++
        "<a href=\"contact.html\">z</a><a href=\"/about\">dup</a>").data)
      "https://example.com/".data =
      ["https://other.com/x".data, "https://example.com/about".data] ∧
    ("https://example.com/about".data ∈ extract_links (parseHTML
        ("<a href=\"/about\">x</a><a href=\"https://other.com/x\">y</a>" ++
        "<a href=\"contact.html\">z</a><a href=\"/about\">dup</a>").data)
      "https://example.com/".data ↔ ∃ h ∈ hrefsF (parseHTML
        ("<a href=\"/about\">x</a><a href=\"https://other.com/x\">y</a>" ++
        "<a href=\"contact.html\">z</a><a href=\"/about\">dup</a>").data),
      ("http".data.isPrefixOf h ∧ "https://example.com/about".data = h) ∨
      (¬ "http".data.isPrefixOf h ∧ "/".data.isPrefixOf h ∧
        "https://example.com/about".data = rstripSlash "https://example.com/".data ++ h)) :=
  ⟨by decide, (extract_links_contract (parseHTML
      ("<a href=\"/about\">x</a><a href=\"https://other.com/x\">y</a>" ++
        "<a href=\"contact.html\">z</a><a href=\"/about\">dup</a>").data)
      "https://example.com/".data).2 "https://example.com/about".data⟩

/-- C5: any failure during the primary part of a fetch (session
acquisition, navigation, ready wait, auto-scroll) yields (none, []) with
the failure reported, and whenever a session was acquired it is
released (quit at least once) on every exit path, the success path
included. -/
theorem fetch_failure_returns_none_and_releases (b : Browser) (url : Str)
    (fl : Bool) (m : Nat) :
    ((¬ b.setupOk ∨ ¬ b.navOk url ∨ ¬ b.readyOk ∨ ¬ b.scrollOk) →
      (scrape_url b url fl m).1 = (none, []) ∧
      (scrape_url b url fl m).2.errors ≠ []) ∧
    ((scrape_url b url fl m).2.acquired → 1 ≤ (scrape_url b url fl m).2.quitCalls) ∧
    (b.setupOk → (scrape_url b url fl m).2.acquired) :=
  scrape_url_failure_contract b url fl m

/-- C5 witness: with a concrete browser whose ready wait fails, the
fetch returns (none, []), reports the failure, and still releases the
acquired session. -/
theorem fetch_failure_witness :
    (scrape_url wBrowserFail "http://x".data false 5).1 = (none, []) ∧
    (scrape_url wBrowserFail "http://x".data false 5).2.errors ≠ [] ∧
    1 ≤ (scrape_url wBrowserFail "http://x".data false 5).2.quitCalls := by
  have h := fetch_failure_returns_none_and_releases wBrowserFail "http://x".data false 5
  have hfail : ¬ wBrowserFail.setupOk ∨ ¬ wBrowserFail.navOk "http://x".data ∨
      ¬ wBrowserFail.readyOk ∨ ¬ wBrowserFail.scrollOk := by
    right; right; left; decide
  exact ⟨(h.1 hfail).1, (h.1 hfail).2, h.2.1 (by decide)⟩

/-- C6: in the linked-pages phase, each attempted link is included with
its excerpt exactly when its navigation succeeds; a failing link is
excluded from the result but reported, and the remaining links are still
attempted and included (the result is the filterMap over all attempted
links). -/
theorem fetch_link_failure_isolated (b : Browser) (url : Str) (m : Nat)
    (h : b.setupOk ∧ b.navOk url ∧ b.readyOk ∧ b.scrollOk) :
    (scrape_url b url true m).1.2 =
      ((extract_links (parseHTML (b.pageSource url)) url).take m).filterMap
        (fun l => if b.navOk l then
          some (l, truncContent (clean_html (b.pageSource l) true)) else none) ∧
    ∀ l ∈ (extract_links (parseHTML (b.pageSource url)) url).take m,
      ¬ b.navOk l → linkFailMsg l ∈ (scrape_url b url true m).2.errors := by
  refine ⟨(scrape_url_links_eq b url m h).1, fun l hl hnav => ?_⟩
  rw [(scrape_url_links_eq b url m h).2]
  exact List.mem_map_of_mem linkFailMsg (List.mem_filter.mpr ⟨hl, by simpa using hnav⟩)

/-- C6 witness: five discovered links of which the third fails to
navigate; the result contains entries for the other four and the failure
is reported. -/
theorem fetch_link_failure_isolated_witness :
    (scrape_url wBrowser "http://main".data true 5).1.2 =
      [("http://1".data, "<p>ok</p>".data), ("http://2".data, "<p>ok</p>".data),
        ("http://4".data, "<p>ok</p>".data), ("http://5".data, "<p>ok</p>".data)] ∧
    linkFailMsg "http://3".data ∈ (scrape_url wBrowser "http://main".data true 5).2.errors := by
  have h := fetch_link_failure_isolated wBrowser "http://main".data 5
    (by refine ⟨by decide, by decide, by decide, by decide⟩)
  exact ⟨by rfl, h.2 "http://3".data (by decide) (by decide)⟩

/-- C7: every linked-page entry records exactly the first 500 characters
of the cleaned content followed by an ellipsis when the content is
longer than 500 characters, and the content unmodified otherwise. -/
theorem fetch_excerpt_truncation (b : Browser) (url : Str) (m : Nat)
    (h : b.setupOk ∧ b.navOk url ∧ b.readyOk ∧ b.scrollOk) :
    ∀ p ∈ (scrape_url b url true m).1.2,
      (500 < (clean_html (b.pageSource p.1) true).length →
        p.2 = (clean_html (b.pageSource p.1) true).take 500 ++ "...".data) ∧
      ((clean_html (b.pageSource p.1) true).length ≤ 500 →
        p.2 = clean_html (b.pageSource p.1) true) :=
  scrape_url_excerpt_spec b url m h

set_option maxRecDepth 100000 in
/-- C7 witness: a linked page whose cleaned content is 501 characters
long is excerpted to its first 500 characters plus the ellipsis. -/
theorem fetch_excerpt_truncation_witness :
    ("http://long".data, (List.replicate 500 'x' ++ "...".data)) ∈
      (scrape_url wBrowserLong "http://main".data true 5).1.2 ∧
    500 < (clean_html (wBrowserLong.pageSource "http://long".data) true).length ∧
    ((List.replicate 500 'x' ++ "...".data) : Str) =
      (clean_html (wBrowserLong.pageSource "http://long".data) true).take 500 ++ "...".data := by
  have hmem : ("http://long".data, (List.replicate 500 'x' ++ "...".data)) ∈
      (scrape_url wBrowserLong "http://main".data true 5).1.2 := by decide
  have h := fetch_excerpt_truncation wBrowserLong "http://main".data 5
    ⟨by decide, by decide, by decide, by decide⟩
    ("http://long".data, (List.replicate 500 'x' ++ "...".data)) hmem
  exact ⟨hmem, by decide, h.1 (by decide)⟩

/-- C8: single_shot_completion returns the collaborator's text when one
is present, the empty string when the text attribute is absent (an empty
present text also yields the empty string), re-raises any submission
failure to the caller, and performs exactly one call (no retry). -/
theorem single_shot_completion_contract (m : GeminiModel) (i : Nat)
    (sys cont : Str) (temp : ℚ) :
    (∀ e, m.generate i = .fail e →
      (single_shot_completion m i sys cont temp).1 = .error e) ∧
    (∀ r, m.generate i = .ok r →
      (single_shot_completion m i sys cont temp).1 =
        .ok (match r.text with | some t => t | none => [])) ∧
    (single_shot_completion m i sys cont temp).2 = i + 1 :=
  single_shot_spec m i sys cont temp

/-- C8 witness: a failing first call propagates the error and consumes
exactly one call; a succeeding call returns the reply text. -/
theorem single_shot_completion_contract_witness :
    (single_shot_completion wGemini 0 [] [] (7 / 10)).1 = .error "boom".data ∧
    (single_shot_completion wGemini 1 [] [] (7 / 10)).1 = .ok "ok".data ∧
    (single_shot_completion wGemini 0 [] [] (7 / 10)).2 = 1 := by
  have h0 := single_shot_completion_contract wGemini 0 [] [] (7 / 10)
  have h1 := single_shot_completion_contract wGemini 1 [] [] (7 / 10)
  exact ⟨h0.1 "boom".data rfl, h1.2.1 ⟨some "ok".data⟩ rfl, h0.2.2⟩

/-- C9: the attribute-cleaning pass leaves the attribute lists of anchor
and image elements completely unchanged, both as a general fact about
the pass and for the full sanitization pipeline, because the rewrite
only applies to elements whose tag is neither a nor img. -/
theorem cleanAttrs_leaves_anchor_img_attrs :
    (∀ f, anchorImgElems (cleanAttrsF f) = anchorImgElems f) ∧
    (∀ s : Str, anchorImgElems (cleanAttrsF (removeUnwanted (parseHTML s))) =
      anchorImgElems (removeUnwanted (parseHTML s))) :=
  ⟨anchorImg_cleanAttrs, fun _ => anchorImg_cleanAttrs _⟩

/-- C10: with clean_attributes=false, clean_html still removes every
blacklisted element together with its subtree, still removes blank lines
and trims each remaining line, and leaves the attribute set of every
remaining element (of any tag) unchanged: the pipeline is exactly
parse-remove-serialize-lineclean, the removal output carries no
blacklisted tag, its element list (names with attribute sets) is a
sublist of the input's, and every output line is stripped and
non-blank. -/
theorem sanitize_no_attr_cleaning_frame (s : Str) :
    clean_html s false = cleanLines (serF (removeUnwanted (parseHTML s))) ∧
    (∀ p ∈ elemsF (removeUnwanted (parseHTML s)), p.1 ∉ unwantedTags) ∧
    (elemsF (removeUnwanted (parseHTML s))).Sublist (elemsF (parseHTML s)) ∧
    (∀ l ∈ splitNL (clean_html s false),
      stripL l = l ∧ (l = [] → clean_html s false = [])) := by
  have h1 : clean_html s false = cleanLines (serF (removeUnwanted (parseHTML s))) := by
    simp [clean_html]
  refine ⟨h1, ?_, ?_, ?_⟩
  · rw [removeUnwanted_eq_prune]
    exact elems_prune_not_mem unwantedTags (parseHTML s)
  · rw [removeUnwanted_eq_prune]
    exact elems_prune_sublist unwantedTags (parseHTML s)
  · rw [h1]
    exact cleanLines_lines _

/-- C10 witness: a concrete document with a script inside a div: the
script is gone, the div keeps its attribute, and the output lines are
trimmed and non-blank. -/
theorem sanitize_no_attr_cleaning_frame_witness :
    clean_html "<div a=\"1\"><script>x</script> <p>k</p>\n\n</div>".data false =
      cleanLines (serF (removeUnwanted (parseHTML
        "<div a=\"1\"><script>x</script> <p>k</p>\n\n</div>".data))) ∧
    ("div".data, [("a".data, "1".data)]) ∈ elemsF (removeUnwanted (parseHTML
      "<div a=\"1\"><script>x</script> <p>k</p>\n\n</div>".data)) ∧
    "div".data ∉ unwantedTags ∧
    "</div>".data ∈ splitNL (clean_html
      "<div a=\"1\"><script>x</script> <p>k</p>\n\n</div>".data false) ∧
    stripL "</div>".data = "</div>".data := by
  have h := sanitize_no_attr_cleaning_frame
    "<div a=\"1\"><script>x</script> <p>k</p>\n\n</div>".data
  refine ⟨h.1, by decide,
    h.2.1 ("div".data, [("a".data, "1".data)]) (by decide), by decide, ?_⟩
  exact (h.2.2.2 "</div>".data (by decide)).1

/-- C2: clean_html removes every element whose tag is in the fixed
blacklist, at any nesting depth, together with its entire subtree: the
removal loop equals the one-pass subtree pruning of the blacklist, no
blacklisted tag survives in the pruned tree, and re-parsing the final
output of clean_html (with either flag) shows no blacklisted element
either. -/
theorem sanitize_removes_blacklisted (s : Str) (cb : Bool) :
    removeUnwanted (parseHTML s) = pruneF unwantedTags (parseHTML s) ∧
    (∀ p ∈ elemsF (removeUnwanted (parseHTML s)), p.1 ∉ unwantedTags) ∧
    (∀ p ∈ elemsF (parseHTML (clean_html s cb)), p.1 ∉ unwantedTags) :=
  ⟨removeUnwanted_eq_prune (parseHTML s),
    noBlack_stage0 s,
    parse_clean_html_noblack s cb⟩

/-- C2 witness: on a document with a nested script inside a footer, the
surviving div and p elements are not blacklisted, concretely. -/
theorem sanitize_removes_blacklisted_witness :
    ("p".data, ([] : List (Str × Str))) ∈ elemsF (parseHTML (clean_html
      "<div><footer><script>x</script></footer><p>k</p></div>".data true)) ∧
    ("p".data : Str) ∉ unwantedTags := by
  refine ⟨by decide, ?_⟩
  exact (sanitize_removes_blacklisted
    "<div><footer><script>x</script></footer><p>k</p></div>".data true).2.2
    ("p".data, ([] : List (Str × Str))) (by decide)

/-- C3: sanitization is idempotent: for every markup input x,
clean_html (clean_html x true) true = clean_html x true — re-sanitizing
an already sanitized document yields the same string. -/
theorem clean_html_idempotent (s : Str) :
    clean_html (clean_html s true) true = clean_html s true :=
  clean_html_true_idem s
